import Mathlib

/-!
# SIRIUS: a shallow embedding of `Broyden2::mix_impl`, of the mixer adapters, of the
Hubbard orbital descriptor and of the blocked product test

Sources: `src/Mixer/broyden2_mixer.hpp` (the method `Broyden2::mix_impl`),
`src/Mixer/mixer_functions.hpp` (the three adapters),
`src/Unit_cell/hubbard_orbitals_descriptor.hpp` (the constructors of the descriptor) and
`apps/tests/test_wf_inner.cpp` (the blocked product `test_gemm_2`).

Conventions of the embedding.

* `double` and `long double` scalars are exact rationals (`ℚ`): the development
  is about the arithmetic the code writes down, not about rounding.
* A mixable quantity is a value of a type `T` that is a `ℚ`-module.
* `std::vector` members of the mixer are lists; `v[i]` is `v.getD i 0`, and the
  in-place write `v[i] = x` is `v.set i x`.
* `mdarray<_, 2>` temporaries and the `std::vector<long double>` temporaries
  are total functions on indices, written with `mdset` and `vset`.
* `for (int i = 0; i < n; i++) body` is `forLoop n body`.
* `int` variables whose sign matters (block extents) are integers (`ℤ`); loop bounds and
  indices are naturals.
* The quotient of two scalars is the exact one. Where the code can divide by zero (line 135
  of `broyden2_mixer.hpp`) there is also a checked variant of the definition, in which the
  outcome of such a division (an infinity or a NaN) is `none`.
* The base class of `Mixer/mixer.hpp` is not among the sources; what `mix_impl`
  uses of it, and the loop that drives it, are modelled from the specification.
-/

namespace sirius

/-! ## Loops and arrays -/

/-- The loop `for (int i = 0; i < n; i++) s = body i s`, started from the state `s`. -/
def forLoop {σ : Type} : ℕ → (ℕ → σ → σ) → σ → σ
  | 0, _, s => s
  | n + 1, body, s => body n (forLoop n body s)

/-- Assignment `A(i, j) = v` to a two-dimensional `mdarray`. -/
@[noinline]
def mdset (A : ℕ → ℕ → ℚ) (i j : ℕ) (v : ℚ) : ℕ → ℕ → ℚ :=
  fun a b => if a = i ∧ b = j then v else A a b

/-- Assignment `v[i] = x` to a `std::vector<long double>`. -/
@[noinline]
def vset (v : ℕ → ℚ) (i : ℕ) (x : ℚ) : ℕ → ℚ :=
  fun a => if a = i then x else v a

/-! ## The part of the base class `Mixer` used by `mix_impl` -/

/-- Modelled from the spec: `Mixer::idx_hist` of `Mixer/mixer.hpp`, which is not among the
sources. The spec gives `idx_hist(s) = s mod H` for `max_history = H`. -/
def idx_hist (max_history s : ℕ) : ℕ := s % max_history

/-- Modelled from the spec: `Mixer::scale` (adapter operation `scale(alpha, x)`, in-place
`x *= alpha`); `Mixer/mixer.hpp` is not among the sources. Returns the new value of `x`. -/
def scale {T : Type} [AddCommGroup T] [Module ℚ T] (alpha : ℚ) (x : T) : T := alpha • x

/-- Modelled from the spec: `Mixer::copy` (adapter operation `copy(x, y)`, in-place `y := x`);
`Mixer/mixer.hpp` is not among the sources. Returns the new value of `y`. -/
def copy {T : Type} (x _y : T) : T := x

/-- Modelled from the spec: `Mixer::axpy` (adapter operation `axpy(alpha, x, y)`, in-place
`y += alpha * x`); `Mixer/mixer.hpp` is not among the sources. Returns the new value of `y`. -/
def axpy {T : Type} [AddCommGroup T] [Module ℚ T] (alpha : ℚ) (x y : T) : T := y + alpha • x

/-- Modelled from the spec: the two scalar-valued members of the base class `Mixer`
(`Mixer/mixer.hpp`, not among the sources) that `mix_impl` calls: `inner_product(local, x, y)`
and `local_size(local, x)`, both with the local/global split flag as first argument. -/
structure FunctionProp (T : Type) where
  /-- The call `this->inner_product(local, x, y)`. -/
  inner_product : Bool → T → T → ℚ
  /-- The call `this->local_size(local, x)`. -/
  local_size : Bool → T → ℕ

/-- The contract "`inner_product` is symmetric", for both values of the flag. -/
def FunctionProp.symmetric {T : Type} (fp : FunctionProp T) : Prop :=
  ∀ (l : Bool) (x y : T), fp.inner_product l x y = fp.inner_product l y x

/-- The contract "`inner_product` is bilinear under `axpy`", in each argument. -/
def FunctionProp.bilinear {T : Type} [AddCommGroup T] [Module ℚ T] (fp : FunctionProp T) : Prop :=
  (∀ (l : Bool) (alpha : ℚ) (x y z : T),
      fp.inner_product l (axpy alpha x y) z
        = fp.inner_product l y z + alpha * fp.inner_product l x z)
    ∧ (∀ (l : Bool) (alpha : ℚ) (x y z : T),
      fp.inner_product l z (axpy alpha x y)
        = fp.inner_product l z y + alpha * fp.inner_product l z x)

/-- The inner product is positive semidefinite, for both values of the flag. -/
def FunctionProp.positive_semidefinite {T : Type} (fp : FunctionProp T) : Prop :=
  ∀ (l : Bool) (x : T), 0 ≤ fp.inner_product l x x

/-- Modelled from the spec: the process group `comm_`. Every process of the group runs the same
`mix_impl` at the same `step_` on its own slice of the data, so the value a peer contributes to
`allreduce` is the same expression evaluated on that peer's `residual_history_`. `peers` lists
the `residual_history_` of every other process of the group. -/
structure Communicator (T : Type) where
  /-- The `residual_history_` of each of the other processes. -/
  peers : List (List T)

/-- Modelled from the spec: `Communicator::allreduce` on a `double` that every process computes as
`f residual_history_`: the sum of the contributions of all processes. -/
def Communicator.allreduce {T : Type} (comm : Communicator T) (f : List T → ℚ) (own : List T) : ℚ :=
  f own + (comm.peers.map f).sum

/-- Modelled from the spec: `Communicator::allreduce` on the element count (an unsigned integer). -/
def Communicator.allreduce_size {T : Type} (comm : Communicator T) (f : List T → ℕ)
    (own : List T) : ℕ :=
  f own + (comm.peers.map f).sum

/-- Modelled from the spec: the data members of the base class `Mixer` (`Mixer/mixer.hpp`, not
among the sources) that `mix_impl` reads or writes: the step counter, the history capacity, the
history store (arrays of `max_history` slots) and the staging buffer. -/
structure Mixer (T : Type) where
  /-- Member `max_history_`. -/
  max_history_ : ℕ
  /-- Member `step_`. -/
  step_ : ℕ
  /-- Member `rmse_history_`. -/
  rmse_history_ : List ℚ
  /-- Member `output_history_`. -/
  output_history_ : List T
  /-- Member `residual_history_`. -/
  residual_history_ : List T
  /-- Member `input_`, the staging buffer. -/
  input_ : T

/-- The class `Broyden2` (lines 43-166): the base class and the four private members of
lines 162-165. -/
structure Broyden2 (T : Type) extends Mixer T where
  /-- Member `beta_`. -/
  beta_ : ℚ
  /-- Member `beta0_`. -/
  beta0_ : ℚ
  /-- Member `beta_scaling_factor_`. -/
  beta_scaling_factor_ : ℚ
  /-- Member `linear_mix_rmse_tol_`. -/
  linear_mix_rmse_tol_ : ℚ

/-! ## `Broyden2::mix_impl`, line by line -/

section method

variable {T : Type}

/-- Line 61: `history_size = std::min(step_, max_history_)`. -/
def history_size (st : Broyden2 T) : ℕ := min st.step_ st.max_history_

/-- Lines 65-66: `rmse_avg = std::accumulate(rmse_history_.begin(), rmse_history_.end(), 0.0) /
rmse_history_.size()`. -/
def rmse_avg (st : Broyden2 T) : ℚ :=
  st.rmse_history_.foldl (fun acc x => acc + x) 0 / (st.rmse_history_.length : ℚ)

/-- Lines 63-70, the beta scaling: the value of `beta_` after the block. -/
def beta_scaling (st : Broyden2 T) : ℚ :=
  if st.step_ > st.max_history_ then
    if st.rmse_history_.getD (idx_hist st.max_history_ st.step_) 0 > rmse_avg st then
      max st.beta0_ (st.beta_ * st.beta_scaling_factor_)
    else st.beta_
  else st.beta_

/-- Lines 72-75: the condition under which the quasi-Newton block is executed. -/
def quasi_newton_cond (st : Broyden2 T) : Bool :=
  (decide (history_size st > 1)
      && decide (st.rmse_history_.getD (idx_hist st.max_history_ st.step_) 0
                  < st.linear_mix_rmse_tol_)
      && decide (st.linear_mix_rmse_tol_ > 0))
    || (decide (st.linear_mix_rmse_tol_ ≤ 0) && decide (st.step_ > st.max_history_))

variable [AddCommGroup T] [Module ℚ T]

/-- The residual `residual_history_[idx_hist(step_ - history_size + j)]` read at window
position `j` (lines 81, 83 and 151). -/
def window_residual (max_history step m : ℕ) (res : List T) (j : ℕ) : T :=
  res.getD (idx_hist max_history (step - m + j)) 0

/-- Lines 80-89 for one of the two arrays `S` and `S_local` (they are written independently by
the same loop body, `S` with `inner_product(false, ..)` and `S_local` with
`inner_product(true, ..)`): the symmetric fill, started from the zeroed array. -/
def gram_fill (ip : T → T → ℚ) (max_history step m : ℕ) (res : List T) : ℕ → ℕ → ℚ :=
  forLoop m (fun j1 S =>
    forLoop (j1 + 1) (fun j2 S =>
      let v := ip (window_residual max_history step m res j1)
                  (window_residual max_history step m res j2)
      mdset (mdset S j1 j2 v) j2 j1 v) S) (fun _ _ => 0)

/-- Lines 94-97: `global_size`, the cross-process sum of `local_size(false, residual_history_[0])`
plus this process's `local_size(true, residual_history_[0])`. -/
def global_size (fp : FunctionProp T) (comm : Communicator T) (res : List T) : ℕ :=
  comm.allreduce_size (fun r => fp.local_size false (r.getD 0 0)) res
    + fp.local_size true (res.getD 0 0)

/-- Lines 76-104: the matrix `S` as it stands when the recursion starts. -/
def gram (fp : FunctionProp T) (comm : Communicator T) (st : Broyden2 T) (m : ℕ) : ℕ → ℕ → ℚ :=
  let S : ℕ → ℕ → ℚ := fun a b =>
    comm.allreduce (fun r => gram_fill (fp.inner_product false) st.max_history_ st.step_ m r a b)
      st.residual_history_
  let S_local := gram_fill (fp.inner_product true) st.max_history_ st.step_ m st.residual_history_
  let gsize := global_size fp comm st.residual_history_
  forLoop m (fun j1 S =>
    forLoop m (fun j2 S =>
      let S := mdset S j1 j2 (S j1 j2 + S_local j1 j2)
      mdset S j1 j2 (S j1 j2 / (gsize : ℚ))) S) S

/-- Lines 106-111: `gamma_k` zeroed, then `gamma_k(i, i) = 0.25` for `i < history_size`. -/
def gamma_init (m : ℕ) : ℕ → ℕ → ℚ :=
  forLoop m (fun i g => mdset g i i (1 / 4)) (fun _ _ => 0)

/-- Line 119: the denominator `d` of recursion step `k`. -/
def denominator (S : ℕ → ℕ → ℚ) (k : ℕ) : ℚ :=
  S k k + S (k + 1) (k + 1) - S k (k + 1) - S (k + 1) k

/-- Lines 121-124: the vector `v1` of recursion step `k`. -/
def v1_step (m : ℕ) (S : ℕ → ℕ → ℚ) (k : ℕ) : ℕ → ℚ :=
  forLoop m (fun j v => vset v j (S (k + 1) j - S k j)) (fun _ => 0)

/-- Lines 126-131: the vector `v2` of recursion step `k`. -/
def v2_step (m : ℕ) (gamma_k : ℕ → ℕ → ℚ) (k : ℕ) : ℕ → ℚ :=
  let v2 := forLoop (2 * m) (fun j v => vset v j (-(gamma_k j (k + 1) - gamma_k j k))) (fun _ => 0)
  let v2 := vset v2 (m + k) (v2 (m + k) - 1)
  vset v2 (m + k + 1) (v2 (m + k + 1) + 1)

/-- Lines 118-137: the body of the recursion for index `k`. The quotient of line 135 is the
exact one, which is the code's whenever `d != 0`; the division by `d = 0` is made explicit in
`gamma_step_checked`. -/
def gamma_step (m : ℕ) (S : ℕ → ℕ → ℚ) (k : ℕ) (gamma_k : ℕ → ℕ → ℚ) : ℕ → ℕ → ℚ :=
  let d := denominator S k
  let v1 := v1_step m S k
  let v2 := v2_step m gamma_k k
  forLoop m (fun j1 g =>
    forLoop (2 * m) (fun j2 g => mdset g j2 j1 (g j2 j1 + v2 j2 * v1 j1 / d)) g) gamma_k

/-- Lines 106-138: `gamma_k` after the loop `for (int k = 0; k < history_size - 1; k++)`.
The bound `history_size - 1` is unsigned in the source; the block is entered only with
`history_size >= 1` when `max_history_ >= 1`, where it agrees with the truncated subtraction. -/
def gamma_rec (m : ℕ) (S : ℕ → ℕ → ℚ) : ℕ → ℕ → ℚ :=
  forLoop (m - 1) (gamma_step m S) (gamma_init m)

/-- Lines 140-144: the final combination vector `v2`. -/
def v2_final (m : ℕ) (gamma_k : ℕ → ℕ → ℚ) : ℕ → ℚ :=
  let v2 := forLoop (2 * m) (fun j v => vset v j (-(gamma_k j (m - 1)))) (fun _ => 0)
  vset v2 (2 * m - 1) (v2 (2 * m - 1) + 1)

/-- Lines 146-154: `input_` after it is zeroed and the linear combination is accumulated. -/
def accumulate (st : Broyden2 T) (m : ℕ) (v2 : ℕ → ℚ) : T :=
  forLoop m (fun j inp =>
    let i1 := idx_hist st.max_history_ (st.step_ - m + j)
    let inp := axpy (v2 j) (st.residual_history_.getD i1 0) inp
    axpy (v2 (j + m)) (st.output_history_.getD i1 0) inp) (scale 0 st.input_)

/-- Lines 76-154: the value of `input_` after the quasi-Newton block. -/
def quasi_newton_update (fp : FunctionProp T) (comm : Communicator T) (st : Broyden2 T) : T :=
  let m := history_size st
  accumulate st m (v2_final m (gamma_rec m (gram fp comm st m)))

/-- Lines 156-158: the final blend, three in-place operations on the slot `idx_next_step` of
`output_history_`; the third one reads the slot `idx_step` of the array as it then stands. -/
def final_blend (beta : ℚ) (input : T) (idx_step idx_next_step : ℕ) (out : List T) : List T :=
  let out := out.set idx_next_step (copy input (out.getD idx_next_step 0))
  let out := out.set idx_next_step (scale beta (out.getD idx_next_step 0))
  out.set idx_next_step (axpy (1 - beta) (out.getD idx_step 0) (out.getD idx_next_step 0))

/-- The method `Broyden2::mix_impl` (lines 56-159): the state of the mixer after the call. -/
def mix_impl (fp : FunctionProp T) (comm : Communicator T) (st : Broyden2 T) : Broyden2 T :=
  let idx_step := idx_hist st.max_history_ st.step_
  let idx_next_step := idx_hist st.max_history_ (st.step_ + 1)
  let beta := beta_scaling st
  let input := if quasi_newton_cond st then quasi_newton_update fp comm st else st.input_
  { st with
    beta_ := beta
    input_ := input
    output_history_ := final_blend beta input idx_step idx_next_step st.output_history_ }

end method

/-! ## What the base loop leaves in the history when `mix_impl` is entered -/

/-- Modelled from the spec: the base loop `Mixer::mix` of `Mixer/mixer.hpp` (not among the
sources), reduced to what it writes into `residual_history_`: iteration `t` stores its residual
in slot `idx_hist(t)` and then calls `mix_impl` at step `t`. The list is the content of
`residual_history_` when `mix_impl` is entered at step `s`, each slot holding the number of the
iteration whose residual it contains (`none` for a slot never written). -/
def recorded (max_history s : ℕ) : List (Option ℕ) :=
  forLoop (s + 1) (fun t hist => hist.set (idx_hist max_history t) (some t))
    (List.replicate max_history none)

/-- The iteration whose residual `mix_impl`, entered at step `s`, reads at window position `j`:
the content of slot `idx_hist(step_ - history_size + j)` (lines 81, 83 and 151). -/
def window_iteration (max_history s j : ℕ) : Option ℕ :=
  (recorded max_history s).getD (idx_hist max_history (s - min s max_history + j)) none

/-! ## Concrete mixers used to evaluate the embedding -/

/-- The scalar adapter: one real number per process, ordinary product, one global element. -/
def scalar_prop : FunctionProp ℚ where
  inner_product := fun l x y => if l then 0 else x * y
  local_size := fun l _ => if l then 0 else 1

/-- A process group with a single process. -/
def single_process : Communicator ℚ := ⟨[]⟩

/-- A scalar mixer with `max_history = 1` at step 0: guess 1, staged evaluator result 1. -/
def state_one_slot : Broyden2 ℚ where
  max_history_ := 1
  step_ := 0
  rmse_history_ := [0]
  output_history_ := [1]
  residual_history_ := [0]
  input_ := 1
  beta_ := 1 / 2
  beta0_ := 1 / 4
  beta_scaling_factor_ := 1 / 2
  linear_mix_rmse_tol_ := 0

/-- A scalar mixer with `max_history = 3` and the tolerance disabled, at a given step. -/
def state_gating (step : ℕ) : Broyden2 ℚ where
  max_history_ := 3
  step_ := step
  rmse_history_ := [1, 2, 3]
  output_history_ := [3, 5, 7]
  residual_history_ := [1, 2, 4]
  input_ := 7
  beta_ := 1 / 2
  beta0_ := 1 / 4
  beta_scaling_factor_ := 1 / 2
  linear_mix_rmse_tol_ := 0

/-- A scalar mixer with `max_history = 2` at step 3 whose current rmse (slot 1) is above the
average of the rmse history, with `beta0` as given. -/
def state_rmse_up (beta0 : ℚ) : Broyden2 ℚ where
  max_history_ := 2
  step_ := 3
  rmse_history_ := [1, 3]
  output_history_ := [3, 5]
  residual_history_ := [1, 2]
  input_ := 7
  beta_ := 1 / 2
  beta0_ := beta0
  beta_scaling_factor_ := 1 / 2
  linear_mix_rmse_tol_ := 1

/-- A scalar mixer with `max_history = 2` at step 1, where the quasi-Newton block is skipped. -/
def state_linear : Broyden2 ℚ where
  max_history_ := 2
  step_ := 1
  rmse_history_ := [1, 3]
  output_history_ := [3, 5]
  residual_history_ := [1, 2]
  input_ := 7
  beta_ := 1 / 2
  beta0_ := 1 / 4
  beta_scaling_factor_ := 1 / 2
  linear_mix_rmse_tol_ := 1

/-- An adapter with both kinds of data: the first component of a quantity is the slice owned by
the process (summed across processes), the second is replicated on every process (local-only). -/
def split_prop : FunctionProp (ℚ × ℚ) where
  inner_product := fun l x y => if l then x.2 * y.2 else x.1 * y.1
  local_size := fun _ _ => 1

/-- A process group of two: the other process holds these two residuals. -/
def two_processes : Communicator (ℚ × ℚ) := ⟨[[(2, 5), (3, 7)]]⟩

/-- A mixer over `split_prop` with `max_history = 2` at step 2. -/
def state_split : Broyden2 (ℚ × ℚ) where
  max_history_ := 2
  step_ := 2
  rmse_history_ := [1 / 100, 1 / 200]
  output_history_ := [(3, 1), (5, 2)]
  residual_history_ := [(1, 5), (4, 7)]
  input_ := (7, 7)
  beta_ := 1 / 2
  beta0_ := 1 / 4
  beta_scaling_factor_ := 1 / 2
  linear_mix_rmse_tol_ := 1

/-- A scalar mixer with `max_history = 2` at step 1 whose staged evaluator result equals the
current guess (zero residual); the quasi-Newton block is skipped. -/
def state_fixed_point : Broyden2 ℚ where
  max_history_ := 2
  step_ := 1
  rmse_history_ := [1, 0]
  output_history_ := [3, 5]
  residual_history_ := [1, 0]
  input_ := 5
  beta_ := 1 / 2
  beta0_ := 1 / 4
  beta_scaling_factor_ := 1 / 2
  linear_mix_rmse_tol_ := 1

/-! ## The base loop and the end-to-end scalar scenario -/

section base_loop

variable {T : Type} [AddCommGroup T] [Module ℚ T]

/-- Modelled from the spec: construction of the mixer followed by `initialize(initial_guess)`
(`Mixer/mixer.hpp` is not among the sources). The history store has `max_history` slots; the
initial guess is put in slot 0 of the guesses and in the staging buffer; `step = 0`. The spec's
base loop calls the guesses `input_history` and the staging buffer `output_`; they are the
members that `mix_impl` blends under the names `output_history_` and `input_`. -/
def init_mixer (max_history : ℕ) (beta beta0 beta_scaling_factor linear_mix_rmse_tol : ℚ)
    (initial_guess : T) : Broyden2 T where
  max_history_ := max_history
  step_ := 0
  rmse_history_ := List.replicate max_history 0
  output_history_ := (List.replicate max_history 0).set 0 initial_guess
  residual_history_ := List.replicate max_history 0
  input_ := initial_guess
  beta_ := beta
  beta0_ := beta0
  beta_scaling_factor_ := beta_scaling_factor
  linear_mix_rmse_tol_ := linear_mix_rmse_tol

/-- Modelled from the spec: `set_output(result)` stores the evaluator result into the staging
buffer, the member `input_` read by `mix_impl` (`Mixer/mixer.hpp` is not among the sources). -/
def set_output (result : T) (st : Broyden2 T) : Broyden2 T :=
  { st with input_ := copy result st.input_ }

/-- Modelled from the spec: the residual computed by `mix()`, the staged evaluator result minus
the guess of the current step, "via `axpy(-1, input, tmp)`" (`Mixer/mixer.hpp` is not among the
sources). -/
def residual (st : Broyden2 T) : T :=
  axpy (-1) (st.output_history_.getD (idx_hist st.max_history_ st.step_) 0)
    (copy st.input_ (st.residual_history_.getD (idx_hist st.max_history_ st.step_) 0))

/-- Modelled from the spec: `rmse = sqrt(global_inner_product(residual, residual) /
global_size(residual))` with `global = allreduce(inner_product(false, ., .)) +
inner_product(true, ., .)` and correspondingly for the size; `res` is `residual_history_` with
the residual of the step already stored in slot `idx`. The square root is a parameter. -/
def rmse (sqrt : ℚ → ℚ) (fp : FunctionProp T) (comm : Communicator T) (res : List T)
    (idx : ℕ) : ℚ :=
  sqrt ((comm.allreduce (fun r => fp.inner_product false (r.getD idx 0) (r.getD idx 0)) res
          + fp.inner_product true (res.getD idx 0) (res.getD idx 0))
        / ((comm.allreduce_size (fun r => fp.local_size false (r.getD idx 0)) res
            + fp.local_size true (res.getD idx 0) : ℕ) : ℚ))

/-- Modelled from the spec: the first half of `mix()` of the base loop (`Mixer/mixer.hpp` is not
among the sources): the residual and the rmse of the step are stored in slot `idx_hist(step)` of
`residual_history` and `rmse_history`. The result is the state in which `mix_impl` is entered. -/
def record_residual (sqrt : ℚ → ℚ) (fp : FunctionProp T) (comm : Communicator T)
    (st : Broyden2 T) : Broyden2 T :=
  let idx := idx_hist st.max_history_ st.step_
  let res := st.residual_history_.set idx (residual st)
  { st with
    residual_history_ := res
    rmse_history_ := st.rmse_history_.set idx (rmse sqrt fp comm res idx) }

/-- Modelled from the spec: `mix()` of the base loop (`Mixer/mixer.hpp` is not among the
sources): store the residual and the rmse of the step, invoke `mix_impl`, advance `step`. -/
def mix (sqrt : ℚ → ℚ) (fp : FunctionProp T) (comm : Communicator T) (st : Broyden2 T) :
    Broyden2 T :=
  let st2 := mix_impl fp comm (record_residual sqrt fp comm st)
  { st2 with step_ := st2.step_ + 1 }

/-- Modelled from the spec: the guess returned by `mix()`, "by reference to
`output_history[idx_hist(step)]`"; before the first `mix()` it is the initial guess. -/
def next_guess (st : Broyden2 T) : T :=
  st.output_history_.getD (idx_hist st.max_history_ st.step_) 0

/-- One iteration of the driver: the evaluator `f` is run on the current guess, its result is
handed over with `set_output`, and `mix()` is called. -/
def iteration (sqrt : ℚ → ℚ) (fp : FunctionProp T) (comm : Communicator T) (f : T → T)
    (st : Broyden2 T) : Broyden2 T :=
  mix sqrt fp comm (set_output (f (next_guess st)) st)

end base_loop

/-- The evaluator of the end-to-end scalar scenario, `f(x) = 0.5 + 0.3 x`. -/
def scenario_f (x : ℚ) : ℚ := 1 / 2 + 3 / 10 * x

/-- The end-to-end scalar scenario after `n` iterations: `x0 = 0`, `beta = 0.8`,
`max_history = 4`, `linear_mix_rmse_tol = 1e-3`, scalar adapter, one process. -/
def scenario (sqrt : ℚ → ℚ) (beta0 beta_scaling_factor : ℚ) (n : ℕ) : Broyden2 ℚ :=
  forLoop n (fun _ st => iteration sqrt scalar_prop single_process scenario_f st)
    (init_mixer 4 (4 / 5) beta0 beta_scaling_factor (1 / 1000) 0)

/-- The state in which `mix_impl` is entered at iteration `k` of the scenario (`k = 0` is the
first iteration). -/
def scenario_entry (sqrt : ℚ → ℚ) (beta0 beta_scaling_factor : ℚ) (k : ℕ) : Broyden2 ℚ :=
  record_residual sqrt scalar_prop single_process
    (set_output (scenario_f (next_guess (scenario sqrt beta0 beta_scaling_factor k)))
      (scenario sqrt beta0 beta_scaling_factor k))

/-- The rmse recorded at iteration `k` of the scenario. -/
def scenario_rmse (sqrt : ℚ → ℚ) (beta0 beta_scaling_factor : ℚ) (k : ℕ) : ℚ :=
  (scenario_entry sqrt beta0 beta_scaling_factor k).rmse_history_.getD (idx_hist 4 k) 0

/-- A state of the scalar scenario: `max_history = 4`, `beta = 0.8`,
`linear_mix_rmse_tol = 1e-3`, the other members as given. -/
def scenario_state (step : ℕ) (rmse_history output_history residual_history : List ℚ)
    (input beta0 beta_scaling_factor : ℚ) : Broyden2 ℚ where
  max_history_ := 4
  step_ := step
  rmse_history_ := rmse_history
  output_history_ := output_history
  residual_history_ := residual_history
  input_ := input
  beta_ := 4 / 5
  beta0_ := beta0
  beta_scaling_factor_ := beta_scaling_factor
  linear_mix_rmse_tol_ := 1 / 1000

/-- The trace of the end-to-end scalar scenario: the state of the mixer after `n` iterations,
for `n <= 10` (exact values; the residual and the rmse coincide because the residuals are
positive). -/
def scenario_trace (beta0 beta_scaling_factor : ℚ) : ℕ → Broyden2 ℚ
  | 0 =>
    scenario_state 0
      [0, 0, 0, 0]
      [0, 0, 0, 0]
      [0, 0, 0, 0]
      (0) beta0 beta_scaling_factor
  | 1 =>
    scenario_state 1
      [1 / 2, 0, 0, 0]
      [0, 2 / 5, 0, 0]
      [1 / 2, 0, 0, 0]
      (1 / 2) beta0 beta_scaling_factor
  | 2 =>
    scenario_state 2
      [1 / 2, 11 / 50, 0, 0]
      [0, 2 / 5, 72 / 125, 0]
      [1 / 2, 11 / 50, 0, 0]
      (31 / 50) beta0 beta_scaling_factor
  | 3 =>
    scenario_state 3
      [1 / 2, 11 / 50, 121 / 1250, 0]
      [0, 2 / 5, 72 / 125, 2042 / 3125]
      [1 / 2, 11 / 50, 121 / 1250, 0]
      (841 / 1250) beta0 beta_scaling_factor
  | 4 =>
    scenario_state 4
      [1 / 2, 11 / 50, 121 / 1250, 1331 / 31250]
      [53712 / 78125, 2 / 5, 72 / 125, 2042 / 3125]
      [1 / 2, 11 / 50, 121 / 1250, 1331 / 31250]
      (21751 / 31250) beta0 beta_scaling_factor
  | 5 =>
    scenario_state 5
      [14641 / 781250, 11 / 50, 121 / 1250, 1331 / 31250]
      [53712 / 78125, 1372082 / 1953125, 72 / 125, 2042 / 3125]
      [14641 / 781250, 11 / 50, 121 / 1250, 1331 / 31250]
      (551761 / 781250) beta0 beta_scaling_factor
  | 6 =>
    scenario_state 6
      [14641 / 781250, 161051 / 19531250, 121 / 1250, 1331 / 31250]
      [53712 / 78125, 1372082 / 1953125, 34624152 / 48828125, 2042 / 3125]
      [14641 / 781250, 161051 / 19531250, 121 / 1250, 1331 / 31250]
      (13881871 / 19531250) beta0 beta_scaling_factor
  | 7 =>
    scenario_state 7
      [14641 / 781250, 161051 / 19531250, 1771561 / 488281250, 1331 / 31250]
      [53712 / 78125, 1372082 / 1953125, 34624152 / 48828125, 869146922 / 1220703125]
      [14641 / 781250, 161051 / 19531250, 1771561 / 488281250, 1331 / 31250]
      (348013081 / 488281250) beta0 beta_scaling_factor
  | 8 =>
    scenario_state 8
      [14641 / 781250, 161051 / 19531250, 1771561 / 488281250, 19487171 / 12207031250]
      [21767647392 / 30517578125, 1372082 / 1953125, 34624152 / 48828125,
        869146922 / 1220703125]
      [14641 / 781250, 161051 / 19531250, 1771561 / 488281250, 19487171 / 12207031250]
      (8710956391 / 12207031250) beta0 beta_scaling_factor
  | 9 =>
    scenario_state 9
      [214358881 / 305175781250, 161051 / 19531250, 1771561 / 488281250,
        19487171 / 12207031250]
      [21767647392 / 30517578125, 762725094244 / 1068115234375, 34624152 / 48828125,
        869146922 / 1220703125]
      [214358881 / 305175781250, 161051 / 19531250, 1771561 / 488281250,
        19487171 / 12207031250]
      (5 / 7) beta0 beta_scaling_factor
  | _ =>
    scenario_state 10
      [214358881 / 305175781250, 214358881 / 1525878906250, 1771561 / 488281250,
        19487171 / 12207031250]
      [21767647392 / 30517578125, 762725094244 / 1068115234375, 3814482906744 / 5340576171875,
        869146922 / 1220703125]
      [214358881 / 305175781250, 214358881 / 1525878906250, 1771561 / 488281250,
        19487171 / 12207031250]
      (5 / 7) beta0 beta_scaling_factor

/-! ## The adapters of `Mixer/mixer_functions.hpp` -/

/-- Modelled from the spec: the type `double_complex` (`std::complex<double>`), declared outside
the sources; real and imaginary part are exact rationals. -/
@[ext]
structure double_complex where
  /-- Real part. -/
  re : ℚ
  /-- Imaginary part. -/
  im : ℚ

instance : Zero double_complex := ⟨⟨0, 0⟩⟩

/-- The complex number `std::conj(a)`. -/
def double_complex.conj (a : double_complex) : double_complex := ⟨a.re, -a.im⟩

/-- The product `a * b` of two complex numbers. -/
def double_complex.mul (a b : double_complex) : double_complex :=
  ⟨a.re * b.re - a.im * b.im, a.re * b.im + a.im * b.re⟩

/-- The sum `a + b` of two complex numbers. -/
def double_complex.add (a b : double_complex) : double_complex := ⟨a.re + b.re, a.im + b.im⟩

/-- The product `alpha * a` (or `a * alpha`) of a complex number and a `double`. -/
def double_complex.scale (alpha : ℚ) (a : double_complex) : double_complex :=
  ⟨alpha * a.re, alpha * a.im⟩

/-- The real number `a` promoted to a complex number, as `std::conj` does with a `double`. -/
def double_complex.of_real (a : ℚ) : double_complex := ⟨a, 0⟩

/-- Modelled from the spec: the part of `Periodic_function<double>` (declared outside the
sources) that the adapters touch: the real-space values `f_rg(i)`, the muffin-tin blocks
`f_mt(ialoc)[i]`, one per local atom (so that `spl_num_atoms().local_size()` is the number of
blocks), and the local plane-wave coefficients `f_pw_local()[i]`. -/
structure Periodic_function where
  /-- The array `f_rg()`. -/
  f_rg : List ℚ
  /-- The blocks `f_mt(ialoc)`. -/
  f_mt : List (List ℚ)
  /-- The array `f_pw_local()`. -/
  f_pw_local : List double_complex

/-- Two periodic functions have the same shape. -/
def Periodic_function.same_shape (x y : Periodic_function) : Prop :=
  x.f_rg.length = y.f_rg.length
    ∧ x.f_mt.map List.length = y.f_mt.map List.length
    ∧ x.f_pw_local.length = y.f_pw_local.length

/-- Modelled from the spec: the type `MixerFunctionProperties<FUNC>` of `Mixer/mixer.hpp` (not
among the sources), as its constructor is called at lines 84-85, 127-128 and 157-158: the flag
and the four operations of the adapter. An operation on reference arguments returns the values of
its arguments after the call. -/
structure MixerFunctionProperties (FUNC : Type) where
  /-- First constructor argument, the flag `local`. -/
  is_local : Bool
  /-- Second constructor argument, the inner product. -/
  inner : FUNC → FUNC → ℚ
  /-- Third constructor argument, `x *= alpha`: the value of `x` after the call. -/
  scal : ℚ → FUNC → FUNC
  /-- Fourth constructor argument, `y := x`: the values of `x` and `y` after the call. -/
  copy : FUNC → FUNC → FUNC × FUNC
  /-- Fifth constructor argument, `y += alpha * x`: the values of `x` and `y` after the call. -/
  axpy : ℚ → FUNC → FUNC → FUNC × FUNC

namespace full_potential

/-- Lines 30-44: `inner_prod_func` of `full_potential_periodic_function_property`. -/
def inner_prod_func (x y : Periodic_function) : ℚ :=
  let result : ℚ := 0
  let result := forLoop x.f_rg.length (fun i result =>
    result + ((double_complex.of_real (x.f_rg.getD i 0)).conj.mul
                (double_complex.of_real (y.f_rg.getD i 0))).re) result
  forLoop x.f_mt.length (fun ialoc result =>
    forLoop (x.f_mt.getD ialoc []).length (fun i result =>
      result + (x.f_mt.getD ialoc []).getD i 0 * (y.f_mt.getD ialoc []).getD i 0) result) result

/-- Lines 46-56: `scal_function`. -/
def scal_function (alpha : ℚ) (x : Periodic_function) : Periodic_function :=
  let f_rg := forLoop x.f_rg.length (fun i f_rg => f_rg.set i (f_rg.getD i 0 * alpha)) x.f_rg
  let f_mt := forLoop x.f_mt.length (fun ialoc f_mt =>
    f_mt.set ialoc
      (forLoop (x.f_mt.getD ialoc []).length (fun i x_f_mt =>
        x_f_mt.set i (x_f_mt.getD i 0 * alpha)) (f_mt.getD ialoc []))) x.f_mt
  { x with f_rg := f_rg, f_mt := f_mt }

/-- Lines 58-69: `copy_function`. -/
def copy_function (x y : Periodic_function) : Periodic_function × Periodic_function :=
  let f_rg := forLoop x.f_rg.length (fun i f_rg => f_rg.set i (x.f_rg.getD i 0)) y.f_rg
  let f_mt := forLoop x.f_mt.length (fun ialoc f_mt =>
    f_mt.set ialoc
      (forLoop (x.f_mt.getD ialoc []).length (fun i y_f_mt =>
        y_f_mt.set i ((x.f_mt.getD ialoc []).getD i 0)) (f_mt.getD ialoc []))) y.f_mt
  (x, { y with f_rg := f_rg, f_mt := f_mt })

/-- Lines 71-82: `axpy_function`. -/
def axpy_function (alpha : ℚ) (x y : Periodic_function) :
    Periodic_function × Periodic_function :=
  let f_rg := forLoop x.f_rg.length (fun i f_rg =>
    f_rg.set i (f_rg.getD i 0 + alpha * x.f_rg.getD i 0)) y.f_rg
  let f_mt := forLoop x.f_mt.length (fun ialoc f_mt =>
    f_mt.set ialoc
      (forLoop (x.f_mt.getD ialoc []).length (fun i y_f_mt =>
        y_f_mt.set i (y_f_mt.getD i 0 + alpha * (x.f_mt.getD ialoc []).getD i 0))
        (f_mt.getD ialoc []))) y.f_mt
  (x, { y with f_rg := f_rg, f_mt := f_mt })

end full_potential

/-- Lines 28-86: `full_potential_periodic_function_property(local)`. -/
def full_potential_periodic_function_property (is_local : Bool) :
    MixerFunctionProperties Periodic_function :=
  ⟨is_local, full_potential.inner_prod_func, full_potential.scal_function,
    full_potential.copy_function, full_potential.axpy_function⟩

namespace pseudo_potential

/-- Lines 91-100: `inner_prod_func` of `pseudo_potential_periodic_function_property`. -/
def inner_prod_func (x y : Periodic_function) : ℚ :=
  forLoop x.f_pw_local.length (fun i result =>
    result + ((x.f_pw_local.getD i 0).conj.mul (y.f_pw_local.getD i 0)).re) 0

/-- Lines 102-107: `scal_function`. -/
def scal_function (alpha : ℚ) (x : Periodic_function) : Periodic_function :=
  { x with
    f_pw_local := forLoop x.f_pw_local.length (fun i x_f_pw =>
      x_f_pw.set i ((x_f_pw.getD i 0).scale alpha)) x.f_pw_local }

/-- Lines 109-116: `copy_function`. -/
def copy_function (x y : Periodic_function) : Periodic_function × Periodic_function :=
  (x, { y with
    f_pw_local := forLoop x.f_pw_local.length (fun i y_f_pw =>
      y_f_pw.set i (x.f_pw_local.getD i 0)) y.f_pw_local })

/-- Lines 118-125: `axpy_function`. -/
def axpy_function (alpha : ℚ) (x y : Periodic_function) :
    Periodic_function × Periodic_function :=
  (x, { y with
    f_pw_local := forLoop x.f_pw_local.length (fun i y_f_pw =>
      y_f_pw.set i ((y_f_pw.getD i 0).add ((x.f_pw_local.getD i 0).scale alpha)))
      y.f_pw_local })

end pseudo_potential

/-- Lines 88-129: `pseudo_potential_periodic_function_property(local)`. -/
def pseudo_potential_periodic_function_property (is_local : Bool) :
    MixerFunctionProperties Periodic_function :=
  ⟨is_local, pseudo_potential.inner_prod_func, pseudo_potential.scal_function,
    pseudo_potential.copy_function, pseudo_potential.axpy_function⟩

namespace density

/-- Lines 134-137: `inner_prod_func` of `density_function_property` ("do not contribute to
mixing"). The density matrix `mdarray<double_complex, 4>` is accessed by its linear index. -/
def inner_prod_func (_x _y : List double_complex) : ℚ := 0

/-- Lines 139-143: `scal_function`. -/
def scal_function (alpha : ℚ) (x : List double_complex) : List double_complex :=
  forLoop x.length (fun i x => x.set i ((x.getD i 0).scale alpha)) x

/-- Lines 145-149: `copy_function`. -/
def copy_function (x y : List double_complex) : List double_complex × List double_complex :=
  (x, forLoop x.length (fun i y => y.set i (x.getD i 0)) y)

/-- Lines 151-155: `axpy_function`. -/
def axpy_function (alpha : ℚ) (x y : List double_complex) :
    List double_complex × List double_complex :=
  (x, forLoop x.length (fun i y => y.set i ((y.getD i 0).add ((x.getD i 0).scale alpha))) y)

end density

/-- Lines 131-159: `density_function_property(local)`. -/
def density_function_property (is_local : Bool) :
    MixerFunctionProperties (List double_complex) :=
  ⟨is_local, density.inner_prod_func, density.scal_function, density.copy_function,
    density.axpy_function⟩

/-- A periodic function with two grid values, two muffin-tin blocks and one plane-wave
coefficient. -/
def pf_x : Periodic_function := ⟨[1, 2], [[3], [4, 5]], [⟨1, 2⟩]⟩

/-- A second periodic function, of the same shape as `pf_x`. -/
def pf_y : Periodic_function := ⟨[7, 1], [[2], [0, 1]], [⟨3, -1⟩]⟩

/-- A third periodic function, of the same shape as `pf_x`. -/
def pf_z : Periodic_function := ⟨[1, 1], [[5], [2, 2]], [⟨2, 2⟩]⟩

/-! ## Unsigned index arithmetic -/

/-- The difference `a - b` of two `std::size_t` values, computed modulo `2^64`. -/
def size_t_sub (a b : ℕ) : ℕ := (a + 2 ^ 64 - b) % 2 ^ 64

/-- The sum `a + b` of two `std::size_t` values, computed modulo `2^64`. -/
def size_t_add (a b : ℕ) : ℕ := (a + b) % 2 ^ 64

/-! ## Example matrices for the recursion, and sequences of calls -/

/-- An example matrix `S` for the recursion: the identity, all of whose denominators are `2`. -/
def gram_identity : ℕ → ℕ → ℚ := fun a b => if a = b then 1 else 0

/-- An example matrix `S` for a window of two iterations: `[[2, 1], [1, 3]]`, with `d = 3`. -/
def gram_two : ℕ → ℕ → ℚ := fun a b => if a = b then (a : ℚ) + 2 else 1

section calls

variable {T : Type} [AddCommGroup T] [Module ℚ T]

/-- A sequence of calls of `mix_impl`: `between n` is what the caller does to the mixer before
call number `n` (the base loop stores the new result and residual and advances `step_`). -/
def mix_impl_calls (fp : FunctionProp T) (comm : Communicator T)
    (between : ℕ → Broyden2 T → Broyden2 T) (st : Broyden2 T) : ℕ → Broyden2 T
  | 0 => st
  | n + 1 => mix_impl fp comm (between n (mix_impl_calls fp comm between st n))

end calls

/-! ## The descriptor of a Hubbard orbital -/

/-- The data members of the class `hubbard_orbital_descriptor`
(`Unit_cell/hubbard_orbitals_descriptor.hpp`, lines 34-61). The array
`hubbard_coefficients_[4]` is a function on indices and the storage of `hubbard_matrix_` is a
list. -/
structure hubbard_orbital_descriptor where
  /-- Principal quantum number of the atomic orbital. -/
  n_ : ℤ
  /-- Orbital quantum number of the atomic orbital. -/
  l_ : ℤ
  /-- Orbital occupancy. -/
  occupancy_ : ℚ
  /-- Index of the radial function. -/
  radial_orbital_index_ : ℤ
  /-- The coefficient `J`. -/
  hubbard_J_ : ℚ
  /-- The coefficient `U`. -/
  hubbard_U_ : ℚ
  /-- The array `hubbard_coefficients_[4]`. -/
  hubbard_coefficients_ : ℕ → ℚ
  /-- The storage of the four-index array `hubbard_matrix_`. -/
  hubbard_matrix_ : List ℚ
  /-- Simplified Hubbard theory: `alpha`. -/
  hubbard_alpha_ : ℚ
  /-- Simplified Hubbard theory: `beta`. -/
  hubbard_beta_ : ℚ
  /-- Simplified Hubbard theory: `J0`. -/
  hubbard_J0_ : ℚ

namespace hubbard_orbital_descriptor

/-- The default member initializers of lines 34-61: what a member holds when a constructor does
not mention it. The array `hubbard_coefficients_` has no initializer in the source (its content
is then indeterminate); it is zero here. -/
def default_members : hubbard_orbital_descriptor where
  n_ := -1
  l_ := -1
  occupancy_ := -1
  radial_orbital_index_ := -1
  hubbard_J_ := 0
  hubbard_U_ := 0
  hubbard_coefficients_ := fun _ => 0
  hubbard_matrix_ := []
  hubbard_alpha_ := 0
  hubbard_beta_ := 0
  hubbard_J0_ := 0

/-- The constructor of lines 272-292, called with `hub_coef__ = nullptr`: the nine members of
the initializer list are set from the arguments, and the branch that copies the coefficients and
fills the matrix is not taken. -/
def construct (n__ l__ orbital_index__ : ℤ) (occ__ J__ U__ alpha__ beta__ J0__ : ℚ) :
    hubbard_orbital_descriptor :=
  { default_members with
    n_ := n__
    l_ := l__
    occupancy_ := occ__
    radial_orbital_index_ := orbital_index__
    hubbard_J_ := J__
    hubbard_U_ := U__
    hubbard_alpha_ := alpha__
    hubbard_beta_ := beta__
    hubbard_J0_ := J0__ }

/-- The move constructor of lines 298-312. The initializer list names eight members; every
other member starts from its default initializer; the body then moves the matrix out of `src`
and copies the four coefficients. The result is the new object together with `src` as the move
leaves it. -/
def move_construct (src : hubbard_orbital_descriptor) :
    hubbard_orbital_descriptor × hubbard_orbital_descriptor :=
  let dst : hubbard_orbital_descriptor :=
    { default_members with
      n_ := src.n_
      l_ := src.l_
      occupancy_ := src.occupancy_
      radial_orbital_index_ := src.radial_orbital_index_
      hubbard_J_ := src.hubbard_J_
      hubbard_U_ := src.hubbard_U_
      hubbard_alpha_ := src.hubbard_alpha_
      hubbard_beta_ := src.hubbard_beta_ }
  let dst := { dst with hubbard_matrix_ := src.hubbard_matrix_ }
  let src := { src with hubbard_matrix_ := [] }
  let dst := { dst with
    hubbard_coefficients_ :=
      forLoop 4 (fun s c => vset c s (src.hubbard_coefficients_ s)) dst.hubbard_coefficients_ }
  (dst, src)

/-- The accessor `l()`. -/
def l (d : hubbard_orbital_descriptor) : ℤ := d.l_

/-- The accessor `n()`. -/
def n (d : hubbard_orbital_descriptor) : ℤ := d.n_

/-- The accessor `Hubbard_J0()`. -/
def Hubbard_J0 (d : hubbard_orbital_descriptor) : ℚ := d.hubbard_J0_

/-- The accessor `Hubbard_U()`. -/
def Hubbard_U (d : hubbard_orbital_descriptor) : ℚ := d.hubbard_U_

/-- The accessor `Hubbard_J()`. -/
def Hubbard_J (d : hubbard_orbital_descriptor) : ℚ := d.hubbard_J_

/-- The accessor `Hubbard_B()`. -/
def Hubbard_B (d : hubbard_orbital_descriptor) : ℚ := d.hubbard_coefficients_ 2

/-- The accessor `Hubbard_E2()`. -/
def Hubbard_E2 (d : hubbard_orbital_descriptor) : ℚ := d.hubbard_coefficients_ 2

/-- The accessor `Hubbard_E3()`. -/
def Hubbard_E3 (d : hubbard_orbital_descriptor) : ℚ := d.hubbard_coefficients_ 3

/-- The accessor `Hubbard_alpha()`. -/
def Hubbard_alpha (d : hubbard_orbital_descriptor) : ℚ := d.hubbard_alpha_

/-- The accessor `Hubbard_beta()`. -/
def Hubbard_beta (d : hubbard_orbital_descriptor) : ℚ := d.hubbard_beta_

/-- The accessor `occupancy()`. -/
def occupancy (d : hubbard_orbital_descriptor) : ℚ := d.occupancy_

/-- The accessor `rindex()`. -/
def rindex (d : hubbard_orbital_descriptor) : ℤ := d.radial_orbital_index_

end hubbard_orbital_descriptor

/-- A descriptor built by `hubbard_orbital_descriptor(3, 2, 0, 10, 1, 4, nullptr, 0, 0, 1/2)`:
a `3d` orbital with `J0 = 1/2`. -/
def hubbard_example : hubbard_orbital_descriptor :=
  hubbard_orbital_descriptor.construct 3 2 0 10 1 4 0 0 (1 / 2)

/-! ## The blocked product of `apps/tests/test_wf_inner.cpp` -/

/-- The variables of `test_gemm_2` that the block loops read and write: the result matrix `c`,
the two buffers `c_tmp(.., 0)` and `c_tmp(.., 1)`, whether `req[b]` is a pending request
(`req[b] != MPI_REQUEST_NULL`), the block descriptions `dims[b]`, and the counter `s`. Matrix
entries are real throughout the test and are rationals here. -/
structure gemm_buffers where
  /-- The distributed matrix `c`, by global indices. -/
  c : ℕ → ℕ → ℚ
  /-- The array `c_tmp(BS * BS, 2)`. -/
  c_tmp : ℕ → ℕ → ℚ
  /-- Whether `req[b]` is a pending request. -/
  req : ℕ → Bool
  /-- The array `dims[b][0..3]`: `row0`, `col0`, `nrow`, `ncol` of the block in buffer `b`. -/
  dims : ℕ → ℕ → ℤ
  /-- The counter `s` of issued blocks. -/
  s : ℕ

/-- Lines 252-259: the matrices `a` (`K x M`) and `b` (`K x N`), filled with `0.1`. The `K`
rows are split over the processes in the source; the model keeps all of them, since the
reduction sums the products of all processes. -/
def gemm_fill (K n : ℕ) : ℕ → ℕ → ℚ :=
  forLoop n (fun i a => forLoop K (fun j a => mdset a j i (1 / 10)) a) (fun _ _ => 0)

/-- Lines 283-293 and 319-329, the "store" block: wait for the request of buffer `b`, which
completes it, and copy the reduced block from `c_tmp(.., b)` into `c`. -/
def gemm_store (b : ℕ) (st : gemm_buffers) : gemm_buffers :=
  { st with
    req := fun i => if i = b then false else st.req i
    c := forLoop (st.dims b 3).toNat (fun icol c =>
      forLoop (st.dims b 2).toNat (fun irow c =>
        mdset c (irow + (st.dims b 0).toNat) (icol + (st.dims b 1).toNat)
          (st.c_tmp (irow + (st.dims b 2).toNat * icol) b)) c) st.c }

/-- Lines 301-309: the local product `a(:, row0..)^H b(:, col0..)` of the block, written to
`c_tmp(.., b)` with leading dimension `nrow`, followed by the reduction over the processes. The
entry `irow + nrow * icol` holds the sum over all `K` rows. -/
def gemm_reduce (M N K : ℕ) (row0 col0 nrow ncol : ℤ) (b : ℕ) (c_tmp : ℕ → ℕ → ℚ) :
    ℕ → ℕ → ℚ :=
  forLoop ncol.toNat (fun icol t =>
    forLoop nrow.toNat (fun irow t =>
      mdset t (irow + nrow.toNat * icol) b
        (∑ k in Finset.range K,
          gemm_fill K M k (row0.toNat + irow) * gemm_fill K N k (col0.toNat + icol))) t) c_tmp

/-- Lines 278-311: the body of the inner block loop for the block `(ibr, ibc)`. -/
def gemm_block (M N K : ℕ) (ibc ibr : ℕ) (st : gemm_buffers) : gemm_buffers :=
  let BS : ℤ := 256
  let col0 : ℤ := ibc * BS
  let ncol : ℤ := min (N : ℤ) ((ibc + 1) * BS) - col0
  let row0 : ℤ := ibr * BS
  let nrow : ℤ := min (N : ℤ) ((ibr + 1) * BS) - row0
  let b := st.s % 2
  let st := if st.req b then gemm_store b st else st
  let st := { st with
    dims := fun i d =>
      if i = b then (if d = 0 then row0 else if d = 1 then col0 else if d = 2 then nrow else ncol)
      else st.dims i d }
  { st with
    c_tmp := gemm_reduce M N K row0 col0 nrow ncol b st.c_tmp
    req := fun i => if i = b then true else st.req i
    s := st.s + 1 }

/-- The function `test_gemm_2` up to the final check (lines 240-330): the variables after the
block loops and the final flush of the two buffers. -/
def test_gemm_2 (M N K : ℕ) : gemm_buffers :=
  let nbr := M / 256 + min 1 (M % 256)
  let nbc := N / 256 + min 1 (N % 256)
  let st : gemm_buffers :=
    { c := fun _ _ => 0
      c_tmp := fun _ _ => 0
      req := fun _ => false
      dims := fun _ _ => 0
      s := 0 }
  let st := forLoop nbc (fun ibc st => forLoop nbr (fun ibr st => gemm_block M N K ibc ibr st) st) st
  forLoop 2 (fun s st => if st.req (s % 2) then gemm_store (s % 2) st else st) st

/-- Lines 341-347: the final check terminates the test with "result is wrong" when some entry
of `c` differs from `0.01 * K` by more than `1e-10`. -/
def result_is_wrong (M N K : ℕ) (c : ℕ → ℕ → ℚ) : Prop :=
  ∃ i, i < N ∧ ∃ j, j < M ∧ |c j i - 1 / 100 * K| > 1 / 10 ^ 10

/-- The cell `(j, i)` of `c` lies in the block that buffer `b` holds with a pending request. -/
def gemm_pending (st : gemm_buffers) (b j i : ℕ) : Prop :=
  st.req b = true
    ∧ (st.dims b 0).toNat ≤ j ∧ j < (st.dims b 0).toNat + (st.dims b 2).toNat
    ∧ (st.dims b 1).toNat ≤ i ∧ i < (st.dims b 1).toNat + (st.dims b 3).toNat

/-- The invariant of the double-buffered store: every cell of `P` (the cells of the blocks issued
so far) either is stored in `c` with the value `v` or lies in the pending block of a buffer in
`B`, and every pending buffer holds the value `v` in all entries of its block. -/
def gemm_invariant (v : ℚ) (P : ℕ → ℕ → Prop) (B : ℕ → Prop) (st : gemm_buffers) : Prop :=
  (∀ j i, P j i → st.c j i = v ∨ ∃ b, B b ∧ gemm_pending st b j i)
    ∧ (∀ b, st.req b = true → ∀ irow icol,
        irow < (st.dims b 2).toNat → icol < (st.dims b 3).toNat →
          st.c_tmp (irow + (st.dims b 2).toNat * icol) b = v)

/-! ## The recursion with the division of line 135 checked -/

/-- Lines 118-137 with the division by `d` of line 135 checked. For `d != 0` the step is
`gamma_step`. For `d = 0` every quotient `v2[j2] * v1[j1] / d` of `long double` values is an
infinity or a NaN, every entry of the `2m x m` block of `gamma_k` receives one of them and is no
longer a number; `none` stands for that outcome, which the later steps cannot undo. -/
def gamma_step_checked (m : ℕ) (S : ℕ → ℕ → ℚ) (k : ℕ) (gamma_k : Option (ℕ → ℕ → ℚ)) :
    Option (ℕ → ℕ → ℚ) :=
  match gamma_k with
  | none => none
  | some g => if denominator S k = 0 then none else some (gamma_step m S k g)

/-- Lines 106-138 with the division checked: `gamma_k` after the recursion, or `none` when a
step has divided by zero. -/
def gamma_rec_checked (m : ℕ) (S : ℕ → ℕ → ℚ) : Option (ℕ → ℕ → ℚ) :=
  forLoop (m - 1) (gamma_step_checked m S) (some (gamma_init m))

section checked

variable {T : Type} [AddCommGroup T] [Module ℚ T]

/-- Lines 76-154 with the division checked: the value of `input_` after the quasi-Newton block,
or `none` when the recursion has divided by zero (the weights `v2` are then not numbers, and
neither is what the accumulation of lines 150-154 leaves in `input_`). -/
def quasi_newton_update_checked (fp : FunctionProp T) (comm : Communicator T)
    (st : Broyden2 T) : Option T :=
  (gamma_rec_checked (history_size st) (gram fp comm st (history_size st))).map
    (fun g => accumulate st (history_size st) (v2_final (history_size st) g))

end checked

/-- A scalar adapter whose inner product is not symmetric: `(x, y) -> x * y + x`. -/
def skew_prop : FunctionProp ℚ where
  inner_product := fun l x y => if l then 0 else x * y + x
  local_size := fun l _ => if l then 0 else 1

/-- A scalar mixer with `max_history = 2` at step 3 that sits on a fixed point of the evaluator:
the two residuals of the window are zero, the rmse is below the tolerance, and the quasi-Newton
block is entered. -/
def state_converged : Broyden2 ℚ where
  max_history_ := 2
  step_ := 3
  rmse_history_ := [0, 0]
  output_history_ := [5, 5]
  residual_history_ := [0, 0]
  input_ := 5
  beta_ := 1 / 2
  beta0_ := 1 / 4
  beta_scaling_factor_ := 1 / 2
  linear_mix_rmse_tol_ := 1

/-! ## Lists, slots and the average -/

section basic

variable {T : Type}

theorem getD_set_eq {α : Type} (l : List α) (i : ℕ) (a d : α) (h : i < l.length) :
    (l.set i a).getD i d = a := by
  simp [List.getD_eq_getElem?_getD, List.getElem?_set, h]

theorem getD_set_ne {α : Type} (l : List α) (i j : ℕ) (a d : α) (h : i ≠ j) :
    (l.set i a).getD j d = l.getD j d := by
  simp [List.getD_eq_getElem?_getD, List.getElem?_set_ne h]

theorem foldl_add_eq_sum (l : List ℚ) (a : ℚ) :
    l.foldl (fun acc x => acc + x) a = a + l.sum := by
  induction l generalizing a with
  | nil => simp
  | cons x xs ih => simp [List.foldl_cons, ih, add_assoc]

theorem rmse_avg_eq (st : Broyden2 T) :
    rmse_avg st = st.rmse_history_.sum / (st.rmse_history_.length : ℚ) := by
  simp [rmse_avg, foldl_add_eq_sum]

theorem idx_hist_lt (H s : ℕ) (hH : 1 ≤ H) : idx_hist H s < H :=
  Nat.mod_lt _ hH

theorem idx_hist_succ_ne (H s : ℕ) (hH : 2 ≤ H) : idx_hist H (s + 1) ≠ idx_hist H s := by
  unfold idx_hist
  intro h
  have h1 : s ≡ s + 1 [MOD H] := h.symm
  have h2 : H ∣ (s + 1) - s := (Nat.modEq_iff_dvd' (Nat.le_succ s)).1 h1
  have h3 : H ∣ 1 := by simpa using h2
  have := Nat.le_of_dvd Nat.one_pos h3
  omega

theorem quasi_newton_cond_eq_true_iff (st : Broyden2 T) :
    quasi_newton_cond st = true ↔
      (min st.step_ st.max_history_ > 1
          ∧ st.rmse_history_.getD (idx_hist st.max_history_ st.step_) 0 < st.linear_mix_rmse_tol_
          ∧ st.linear_mix_rmse_tol_ > 0)
        ∨ (st.linear_mix_rmse_tol_ ≤ 0 ∧ st.step_ > st.max_history_) := by
  simp only [quasi_newton_cond, history_size, Bool.or_eq_true, Bool.and_eq_true,
    decide_eq_true_eq, and_assoc]

end basic

/-! ## The loops that build the matrix `S` -/

section loops

theorem forLoop_succ {σ : Type} (n : ℕ) (body : ℕ → σ → σ) (s : σ) :
    forLoop (n + 1) body s = body n (forLoop n body s) := rfl

theorem mdset_apply (A : ℕ → ℕ → ℚ) (i j : ℕ) (v : ℚ) (a b : ℕ) :
    mdset A i j v a b = if a = i ∧ b = j then v else A a b := rfl

/-- The inner loop of the symmetric fill (lines 82-88) after `k` iterations on row `j1`. -/
theorem gram_fill_row {T : Type} (ip : T → T → ℚ) (r : ℕ → T) (j1 : ℕ) (S : ℕ → ℕ → ℚ) (k a b : ℕ) :
    forLoop k (fun j2 S => mdset (mdset S j1 j2 (ip (r j1) (r j2))) j2 j1 (ip (r j1) (r j2))) S a b
      = if a = j1 ∧ b < k then ip (r j1) (r b)
        else if b = j1 ∧ a < k then ip (r j1) (r a) else S a b := by
  induction k with
  | zero => simp [forLoop]
  | succ k ih =>
    rw [forLoop_succ, mdset_apply, mdset_apply, ih]
    by_cases h1 : a = k ∧ b = j1
    · obtain ⟨rfl, rfl⟩ := h1
      by_cases h2 : a = b
      · subst h2; simp
      · simp [h2]
    · rw [if_neg h1]
      by_cases h2 : a = j1 ∧ b = k
      · obtain ⟨rfl, rfl⟩ := h2
        simp
      · rw [if_neg h2]
        by_cases h3 : a = j1 ∧ b < k
        · rw [if_pos h3, if_pos ⟨h3.1, by omega⟩]
        · rw [if_neg h3]
          have h3' : ¬ (a = j1 ∧ b < k + 1) := by
            rintro ⟨ha, hb⟩
            rcases Nat.lt_succ_iff_lt_or_eq.1 hb with hb | hb
            · exact h3 ⟨ha, hb⟩
            · exact h2 ⟨ha, hb⟩
          rw [if_neg h3']
          by_cases h4 : b = j1 ∧ a < k
          · rw [if_pos h4, if_pos ⟨h4.1, by omega⟩]
          · rw [if_neg h4]
            have h4' : ¬ (b = j1 ∧ a < k + 1) := by
              rintro ⟨hb, ha⟩
              rcases Nat.lt_succ_iff_lt_or_eq.1 ha with ha | ha
              · exact h4 ⟨hb, ha⟩
              · exact h1 ⟨ha, hb⟩
            rw [if_neg h4']

variable {T : Type} [AddCommGroup T]

/-- The symmetric fill (lines 80-89): inside the `m x m` block, entry `(a, b)` holds the inner
product of the later window residual with the earlier one, in this order. -/
theorem gram_fill_apply (ip : T → T → ℚ) (H step m : ℕ) (res : List T) (n a b : ℕ) :
    forLoop n (fun j1 S =>
      forLoop (j1 + 1) (fun j2 S =>
        let v := ip (window_residual H step m res j1) (window_residual H step m res j2)
        mdset (mdset S j1 j2 v) j2 j1 v) S) (fun _ _ => 0) a b
      = if a < n ∧ b < n then
          ip (window_residual H step m res (max a b)) (window_residual H step m res (min a b))
        else 0 := by
  induction n generalizing a b with
  | zero => simp [forLoop]
  | succ n ih =>
    refine (gram_fill_row ip (window_residual H step m res) n _ (n + 1) a b).trans ?_
    rw [ih]
    by_cases h1 : a = n ∧ b < n + 1
    · obtain ⟨rfl, hb⟩ := h1
      have hb' : b ≤ a := by omega
      simp [hb, max_eq_left hb', min_eq_right hb']
    · rw [if_neg h1]
      by_cases h2 : b = n ∧ a < n + 1
      · obtain ⟨rfl, ha⟩ := h2
        have ha' : a ≤ b := by omega
        simp [ha, max_eq_right ha', min_eq_left ha']
      · rw [if_neg h2]
        by_cases h3 : a < n ∧ b < n
        · rw [if_pos h3, if_pos ⟨by omega, by omega⟩]
        · rw [if_neg h3, if_neg]
          rintro ⟨ha, hb⟩
          rcases Nat.lt_succ_iff_lt_or_eq.1 ha with ha | ha
          · rcases Nat.lt_succ_iff_lt_or_eq.1 hb with hb | hb
            · exact h3 ⟨ha, hb⟩
            · exact h2 ⟨hb, by omega⟩
          · exact h1 ⟨ha, hb⟩

theorem gram_fill_eq (ip : T → T → ℚ) (H step m : ℕ) (res : List T) (a b : ℕ)
    (ha : a < m) (hb : b < m) :
    gram_fill ip H step m res a b
      = ip (window_residual H step m res (max a b)) (window_residual H step m res (min a b)) := by
  unfold gram_fill
  rw [gram_fill_apply, if_pos ⟨ha, hb⟩]


/-- The body of the normalisation loops (lines 101-102) at entry `(j1, j2)`. -/
theorem normalise_body (L : ℕ → ℕ → ℚ) (g : ℚ) (j1 j2 : ℕ) (S : ℕ → ℕ → ℚ) (a b : ℕ) :
    (let S := mdset S j1 j2 (S j1 j2 + L j1 j2)
     mdset S j1 j2 (S j1 j2 / g)) a b
      = if a = j1 ∧ b = j2 then (S a b + L a b) / g else S a b := by
  simp only [mdset_apply, and_self, if_true]
  by_cases h : a = j1 ∧ b = j2
  · obtain ⟨rfl, rfl⟩ := h
    simp
  · simp [h]

/-- The inner loop of the normalisation (lines 100-103) after `k` iterations on row `j1`. -/
theorem normalise_row (L : ℕ → ℕ → ℚ) (g : ℚ) (j1 : ℕ) (S : ℕ → ℕ → ℚ) (k a b : ℕ) :
    forLoop k (fun j2 S =>
        let S := mdset S j1 j2 (S j1 j2 + L j1 j2)
        mdset S j1 j2 (S j1 j2 / g)) S a b
      = if a = j1 ∧ b < k then (S a b + L a b) / g else S a b := by
  induction k generalizing a b with
  | zero => simp [forLoop]
  | succ k ih =>
    refine (normalise_body L g j1 k _ a b).trans ?_
    rw [ih]
    by_cases h1 : a = j1 ∧ b = k
    · obtain ⟨rfl, rfl⟩ := h1
      simp
    · rw [if_neg h1]
      by_cases h2 : a = j1 ∧ b < k
      · rw [if_pos h2, if_pos ⟨h2.1, by omega⟩]
      · rw [if_neg h2, if_neg]
        rintro ⟨ha, hb⟩
        rcases Nat.lt_succ_iff_lt_or_eq.1 hb with hb | hb
        · exact h2 ⟨ha, hb⟩
        · exact h1 ⟨ha, hb⟩

/-- The normalisation loops (lines 99-104) after `n` rows of `m` entries. -/
theorem normalise_apply (L : ℕ → ℕ → ℚ) (g : ℚ) (m : ℕ) (S : ℕ → ℕ → ℚ) (n a b : ℕ) :
    forLoop n (fun j1 S =>
      forLoop m (fun j2 S =>
        let S := mdset S j1 j2 (S j1 j2 + L j1 j2)
        mdset S j1 j2 (S j1 j2 / g)) S) S a b
      = if a < n ∧ b < m then (S a b + L a b) / g else S a b := by
  induction n generalizing a b with
  | zero => simp [forLoop]
  | succ n ih =>
    refine (normalise_row L g n _ m a b).trans ?_
    rw [ih]
    by_cases h1 : a = n ∧ b < m
    · obtain ⟨rfl, hb⟩ := h1
      simp [hb]
    · rw [if_neg h1]
      by_cases h2 : a < n ∧ b < m
      · rw [if_pos h2, if_pos ⟨by omega, h2.2⟩]
      · rw [if_neg h2, if_neg]
        rintro ⟨ha, hb⟩
        rcases Nat.lt_succ_iff_lt_or_eq.1 ha with ha | ha
        · exact h2 ⟨ha, hb⟩
        · exact h1 ⟨ha, hb⟩

/-- The matrix `S` at the start of the recursion, entry by entry (code order of the arguments:
the later window residual first). -/
theorem gram_apply (fp : FunctionProp T) (comm : Communicator T) (st : Broyden2 T) (m a b : ℕ)
    (ha : a < m) (hb : b < m) :
    gram fp comm st m a b
      = (((st.residual_history_ :: comm.peers).map (fun res =>
            fp.inner_product false
              (window_residual st.max_history_ st.step_ m res (max a b))
              (window_residual st.max_history_ st.step_ m res (min a b)))).sum
          + fp.inner_product true
              (window_residual st.max_history_ st.step_ m st.residual_history_ (max a b))
              (window_residual st.max_history_ st.step_ m st.residual_history_ (min a b)))
        / ((((st.residual_history_ :: comm.peers).map (fun res =>
              fp.local_size false (res.getD 0 0))).sum
            + fp.local_size true (st.residual_history_.getD 0 0) : ℕ) : ℚ) := by
  unfold gram
  refine (normalise_apply _ _ m _ m a b).trans ?_
  rw [if_pos ⟨ha, hb⟩]
  simp only [Communicator.allreduce, global_size, Communicator.allreduce_size, List.map_cons,
    List.sum_cons]
  rw [gram_fill_eq _ _ _ _ _ _ _ ha hb, gram_fill_eq _ _ _ _ _ _ _ ha hb]
  congr 3
  apply congrArg
  apply List.map_congr_left
  intro res _
  exact gram_fill_eq _ _ _ _ _ _ _ ha hb


theorem global_size_eq (fp : FunctionProp T) (comm : Communicator T) (res : List T) :
    global_size fp comm res
      = ((res :: comm.peers).map (fun r => fp.local_size false (r.getD 0 0))).sum
        + fp.local_size true (res.getD 0 0) := by
  simp [global_size, Communicator.allreduce_size]

end loops

/-! ## The adapter contract -/

section contract

variable {T : Type} [AddCommGroup T] [Module ℚ T]

theorem inner_product_sub_left (fp : FunctionProp T) (hbil : fp.bilinear) (l : Bool)
    (x y z : T) :
    fp.inner_product l (x - y) z = fp.inner_product l x z - fp.inner_product l y z := by
  have h := hbil.1 l (-1) y x z
  simp only [axpy, neg_one_smul, ← sub_eq_add_neg] at h
  rw [h]; ring

theorem inner_product_sub_right (fp : FunctionProp T) (hbil : fp.bilinear) (l : Bool)
    (x y z : T) :
    fp.inner_product l z (x - y) = fp.inner_product l z x - fp.inner_product l z y := by
  have h := hbil.2 l (-1) y x z
  simp only [axpy, neg_one_smul, ← sub_eq_add_neg] at h
  rw [h]; ring

theorem inner_product_diff_self (fp : FunctionProp T) (hsym : fp.symmetric)
    (hbil : fp.bilinear) (l : Bool) (x y : T) :
    fp.inner_product l (x - y) (x - y)
      = fp.inner_product l y y + fp.inner_product l x x
        - fp.inner_product l x y - fp.inner_product l x y := by
  rw [inner_product_sub_left fp hbil, inner_product_sub_right fp hbil,
    inner_product_sub_right fp hbil, hsym l y x]
  ring

theorem sum_map_diff {α : Type} (l : List α) (A B C : α → ℚ) :
    (l.map (fun r => A r + B r - C r - C r)).sum
      = (l.map A).sum + (l.map B).sum - (l.map C).sum - (l.map C).sum := by
  induction l with
  | nil => simp
  | cons x xs ih =>
    simp only [List.map_cons, List.sum_cons, ih]
    ring

theorem split_prop_symmetric : split_prop.symmetric := by
  intro l x y
  cases l <;> simp [split_prop, mul_comm]

theorem split_prop_bilinear : split_prop.bilinear := by
  constructor <;>
  · intro l alpha x y z
    cases l <;> simp [split_prop, axpy] <;> ring

theorem split_prop_positive_semidefinite : split_prop.positive_semidefinite := by
  intro l x
  cases l <;> simp [split_prop, mul_self_nonneg]

end contract

/-! ## The history window -/

section window

theorem forLoop_set_length {α : Type} (n : ℕ) (f : ℕ → ℕ) (g : ℕ → α) (init : List α) :
    (forLoop n (fun t hist => hist.set (f t) (g t)) init).length = init.length := by
  induction n with
  | zero => rfl
  | succ n ih => rw [forLoop_succ, List.length_set, ih]

theorem recorded_length (H s : ℕ) : (recorded H s).length = H := by
  unfold recorded
  rw [forLoop_set_length]
  simp

/-- Once the history is full (`step >= max_history >= 1`), the first slot of the window read by
`mix_impl` is the slot of the current step: it holds the newest residual, not the oldest. -/
theorem window_iteration_wraps (H s : ℕ) (hH : 1 ≤ H) (hs : H ≤ s) :
    window_iteration H s 0 = some s := by
  unfold window_iteration
  have hidx : idx_hist H (s - min s H + 0) = idx_hist H s := by
    unfold idx_hist
    rw [min_eq_right hs, Nat.add_zero]
    conv_rhs => rw [← Nat.sub_add_cancel hs]
    rw [Nat.add_mod_right]
  rw [hidx]
  unfold recorded
  rw [forLoop_succ]
  apply getD_set_eq
  rw [forLoop_set_length]
  simpa using idx_hist_lt H s hH

end window

/-! ## The final blend -/

section blend

variable {T : Type} [AddCommGroup T] [Module ℚ T]

theorem final_blend_getD_next (beta : ℚ) (input : T) (i n : ℕ) (out : List T)
    (hne : n ≠ i) (hn : n < out.length) :
    (final_blend beta input i n out).getD n 0
      = beta • input + (1 - beta) • out.getD i 0 := by
  unfold final_blend
  simp only [copy, scale, axpy]
  rw [getD_set_eq _ _ _ _ (by simp [hn])]
  rw [getD_set_ne _ _ _ _ _ hne, getD_set_ne _ _ _ _ _ hne]
  rw [getD_set_eq _ _ _ _ (by simp [hn]), getD_set_eq _ _ _ _ hn]

theorem final_blend_getD_alias (beta : ℚ) (input : T) (n : ℕ) (out : List T)
    (hn : n < out.length) :
    (final_blend beta input n n out).getD n 0
      = beta • input + (1 - beta) • (beta • input) := by
  unfold final_blend
  simp only [copy, scale, axpy]
  rw [getD_set_eq _ _ _ _ (by simp [hn])]
  rw [getD_set_eq _ _ _ _ (by simp [hn]), getD_set_eq _ _ _ _ hn]

theorem mix_impl_beta (fp : FunctionProp T) (comm : Communicator T) (st : Broyden2 T) :
    (mix_impl fp comm st).beta_ = beta_scaling st := rfl

theorem mix_impl_input (fp : FunctionProp T) (comm : Communicator T) (st : Broyden2 T) :
    (mix_impl fp comm st).input_
      = if quasi_newton_cond st then quasi_newton_update fp comm st else st.input_ := rfl

theorem mix_impl_output_history (fp : FunctionProp T) (comm : Communicator T)
    (st : Broyden2 T) :
    (mix_impl fp comm st).output_history_
      = final_blend (mix_impl fp comm st).beta_ (mix_impl fp comm st).input_
          (idx_hist st.max_history_ st.step_) (idx_hist st.max_history_ (st.step_ + 1))
          st.output_history_ := rfl

theorem mix_impl_blend (fp : FunctionProp T) (comm : Communicator T) (st : Broyden2 T)
    (hH : 2 ≤ st.max_history_) (hlen : st.output_history_.length = st.max_history_) :
    (mix_impl fp comm st).output_history_.getD (idx_hist st.max_history_ (st.step_ + 1)) 0
      = (mix_impl fp comm st).beta_ • (mix_impl fp comm st).input_
        + (1 - (mix_impl fp comm st).beta_)
          • st.output_history_.getD (idx_hist st.max_history_ st.step_) 0 := by
  rw [mix_impl_output_history]
  exact final_blend_getD_next _ _ _ _ _ (idx_hist_succ_ne _ _ hH)
    (by rw [hlen]; exact idx_hist_lt _ _ (by omega))

/-- With `max_history = 1` the final blend reads the slot it has just overwritten: the previous
output does not enter the result. -/
theorem mix_impl_blend_alias (fp : FunctionProp T) (comm : Communicator T) (st : Broyden2 T)
    (hH : st.max_history_ = 1) (hlen : st.output_history_.length = 1) :
    (mix_impl fp comm st).output_history_.getD 0 0
      = (mix_impl fp comm st).beta_ • (mix_impl fp comm st).input_
        + (1 - (mix_impl fp comm st).beta_)
          • ((mix_impl fp comm st).beta_ • (mix_impl fp comm st).input_) := by
  rw [mix_impl_output_history]
  have h0 : ∀ s, idx_hist st.max_history_ s = 0 := by
    intro s
    rw [hH]
    exact Nat.mod_one s
  rw [h0, h0]
  exact final_blend_getD_alias _ _ _ _ (by rw [hlen]; exact Nat.one_pos)

end blend

/-! ## Claims on the final blend, the mode selection and the step size -/

section claims

variable {T : Type} [AddCommGroup T] [Module ℚ T]

/-- C1, evaluated where it fails: with `max_history = 1` the slots `idx_hist(step)` and
`idx_hist(step+1)` are the same slot, the copy of line 156 overwrites the previous output before
line 158 reads it, and `mix_impl` leaves `3/4` in the slot, whereas
`beta * input_ + (1 - beta) * output_history[idx_hist(step)]`, with the value the slot held on
entry, is `1`. -/
theorem mix_impl_blend_one_slot :
    idx_hist state_one_slot.max_history_ (state_one_slot.step_ + 1)
        = idx_hist state_one_slot.max_history_ state_one_slot.step_
      ∧ (mix_impl scalar_prop single_process state_one_slot).output_history_.getD
          (idx_hist state_one_slot.max_history_ (state_one_slot.step_ + 1)) 0 = 3 / 4
      ∧ (mix_impl scalar_prop single_process state_one_slot).beta_
            • (mix_impl scalar_prop single_process state_one_slot).input_
          + (1 - (mix_impl scalar_prop single_process state_one_slot).beta_)
            • state_one_slot.output_history_.getD
                (idx_hist state_one_slot.max_history_ state_one_slot.step_) 0 = 1 := by
  refine ⟨by decide, ?_, ?_⟩
  · norm_num [mix_impl, state_one_slot, final_blend, beta_scaling, quasi_newton_cond, idx_hist,
      copy, scale, axpy, history_size]
  · norm_num [mix_impl, state_one_slot, final_blend, beta_scaling, quasi_newton_cond, idx_hist,
      copy, scale, axpy, history_size]

/-- C2: `mix_impl` executes the quasi-Newton block exactly when
`(min(step, max_history) > 1 and rmse_history[idx_hist(step)] < linear_mix_rmse_tol and
linear_mix_rmse_tol > 0) or (linear_mix_rmse_tol <= 0 and step > max_history)`: under that
condition `input_` is left holding the quasi-Newton update, and under its negation the block is
skipped and `input_` is left as it was. -/
theorem mix_impl_quasi_newton_iff (fp : FunctionProp T) (comm : Communicator T)
    (st : Broyden2 T) :
    (quasi_newton_cond st = true ↔
      (min st.step_ st.max_history_ > 1
          ∧ st.rmse_history_.getD (idx_hist st.max_history_ st.step_) 0 < st.linear_mix_rmse_tol_
          ∧ st.linear_mix_rmse_tol_ > 0)
        ∨ (st.linear_mix_rmse_tol_ ≤ 0 ∧ st.step_ > st.max_history_))
    ∧ (((min st.step_ st.max_history_ > 1
          ∧ st.rmse_history_.getD (idx_hist st.max_history_ st.step_) 0 < st.linear_mix_rmse_tol_
          ∧ st.linear_mix_rmse_tol_ > 0)
        ∨ (st.linear_mix_rmse_tol_ ≤ 0 ∧ st.step_ > st.max_history_)) →
        (mix_impl fp comm st).input_ = quasi_newton_update fp comm st)
    ∧ (¬ ((min st.step_ st.max_history_ > 1
          ∧ st.rmse_history_.getD (idx_hist st.max_history_ st.step_) 0 < st.linear_mix_rmse_tol_
          ∧ st.linear_mix_rmse_tol_ > 0)
        ∨ (st.linear_mix_rmse_tol_ ≤ 0 ∧ st.step_ > st.max_history_)) →
        (mix_impl fp comm st).input_ = st.input_) := by
  refine ⟨quasi_newton_cond_eq_true_iff st, fun h => ?_, fun h => ?_⟩
  · rw [mix_impl_input, if_pos ((quasi_newton_cond_eq_true_iff st).2 h)]
  · rw [mix_impl_input, if_neg (fun hc => h ((quasi_newton_cond_eq_true_iff st).1 hc))]

/-- C3: with `linear_mix_rmse_tol = 0` and `max_history = 3`, whatever the rmse history holds,
`mix_impl` skips the quasi-Newton block (and leaves `input_` for the plain linear blend) at every
`step <= 3`, and executes it at `step = 4`, where `history_size = 3`. -/
theorem mix_impl_gating (fp : FunctionProp T) (comm : Communicator T) (st : Broyden2 T)
    (htol : st.linear_mix_rmse_tol_ = 0) (hH : st.max_history_ = 3) :
    (st.step_ ≤ 3 →
        quasi_newton_cond st = false ∧ (mix_impl fp comm st).input_ = st.input_)
      ∧ (st.step_ = 4 →
        quasi_newton_cond st = true ∧ history_size st = 3
          ∧ (mix_impl fp comm st).input_ = quasi_newton_update fp comm st) := by
  constructor
  · intro hs
    have hc : quasi_newton_cond st = false := by
      rw [← Bool.not_eq_true, quasi_newton_cond_eq_true_iff]
      rw [htol, hH]
      rintro (⟨_, _, h⟩ | ⟨_, h⟩)
      · exact lt_irrefl _ h
      · omega
    exact ⟨hc, by rw [mix_impl_input, hc]; rfl⟩
  · intro hs
    have hc : quasi_newton_cond st = true := by
      rw [quasi_newton_cond_eq_true_iff]
      right
      rw [htol, hH, hs]
      exact ⟨le_refl _, by decide⟩
    refine ⟨hc, ?_, by rw [mix_impl_input, hc]; rfl⟩
    simp [history_size, hH, hs]

/-- C3, at the scalar mixer `state_gating`: skipped at step 2, executed at step 4. -/
theorem mix_impl_gating_witness :
    (quasi_newton_cond (state_gating 2) = false
        ∧ (mix_impl scalar_prop single_process (state_gating 2)).input_ = (state_gating 2).input_)
      ∧ (quasi_newton_cond (state_gating 4) = true ∧ history_size (state_gating 4) = 3
        ∧ (mix_impl scalar_prop single_process (state_gating 4)).input_
            = quasi_newton_update scalar_prop single_process (state_gating 4)) :=
  ⟨(mix_impl_gating scalar_prop single_process (state_gating 2) rfl rfl).1 (by decide),
   (mix_impl_gating scalar_prop single_process (state_gating 4) rfl rfl).2 rfl⟩

/-- C4: when `step > max_history` and `rmse_history[idx_hist(step)]` is strictly greater than the
arithmetic mean of the `max_history` entries of `rmse_history`, `mix_impl` sets `beta` to
`max(beta0, beta * beta_scaling_factor)`, and the final blend of the same call is made with that
value: `output_history` is the blend computed with it, and for `max_history >= 2` the written
slot holds `beta_new * input_ + (1 - beta_new) * output_history[idx_hist(step)]`. -/
theorem mix_impl_beta_tightened (fp : FunctionProp T) (comm : Communicator T) (st : Broyden2 T)
    (hlen : st.rmse_history_.length = st.max_history_)
    (hstep : st.step_ > st.max_history_)
    (hrmse : st.rmse_history_.getD (idx_hist st.max_history_ st.step_) 0
              > st.rmse_history_.sum / (st.max_history_ : ℚ)) :
    (mix_impl fp comm st).beta_ = max st.beta0_ (st.beta_ * st.beta_scaling_factor_)
      ∧ (mix_impl fp comm st).output_history_
          = final_blend (max st.beta0_ (st.beta_ * st.beta_scaling_factor_))
              (mix_impl fp comm st).input_ (idx_hist st.max_history_ st.step_)
              (idx_hist st.max_history_ (st.step_ + 1)) st.output_history_
      ∧ (2 ≤ st.max_history_ → st.output_history_.length = st.max_history_ →
          (mix_impl fp comm st).output_history_.getD (idx_hist st.max_history_ (st.step_ + 1)) 0
            = max st.beta0_ (st.beta_ * st.beta_scaling_factor_) • (mix_impl fp comm st).input_
              + (1 - max st.beta0_ (st.beta_ * st.beta_scaling_factor_))
                • st.output_history_.getD (idx_hist st.max_history_ st.step_) 0) := by
  have hb : (mix_impl fp comm st).beta_ = max st.beta0_ (st.beta_ * st.beta_scaling_factor_) := by
    rw [mix_impl_beta, beta_scaling, if_pos hstep, rmse_avg_eq, hlen, if_pos hrmse]
  refine ⟨hb, ?_, fun hH hout => ?_⟩
  · rw [mix_impl_output_history, hb]
  · rw [← hb]
    exact mix_impl_blend fp comm st hH hout

/-- C4, at the scalar mixer `state_rmse_up (1/8)`: beta goes from `1/2` to `1/4`. -/
theorem mix_impl_beta_tightened_witness :
    (mix_impl scalar_prop single_process (state_rmse_up (1 / 8))).beta_
        = max (state_rmse_up (1 / 8)).beta0_
            ((state_rmse_up (1 / 8)).beta_ * (state_rmse_up (1 / 8)).beta_scaling_factor_)
      ∧ (mix_impl scalar_prop single_process (state_rmse_up (1 / 8))).beta_ = 1 / 4 := by
  have h := (mix_impl_beta_tightened scalar_prop single_process (state_rmse_up (1 / 8)) rfl
    (by decide) (by norm_num [state_rmse_up, idx_hist])).1
  refine ⟨h, ?_⟩
  rw [h]
  norm_num [state_rmse_up]

/-- C5, as stated, fails: the scalar mixer `state_rmse_up (1/2)` is a valid construction
(`beta = 1/2` in `(0,1]`, floor `beta0 = 1/2`, `beta_scaling_factor = 1/2` in `(0,1)`), the call is
made with `step > max_history` and a current rmse above the average, and `beta` does not strictly
decrease: it stays at `1/2`. -/
theorem mix_impl_beta_not_decreasing :
    (0 < (state_rmse_up (1 / 2)).beta_ ∧ (state_rmse_up (1 / 2)).beta_ ≤ 1)
      ∧ (state_rmse_up (1 / 2)).beta0_ ≤ (state_rmse_up (1 / 2)).beta_
      ∧ (0 < (state_rmse_up (1 / 2)).beta_scaling_factor_
          ∧ (state_rmse_up (1 / 2)).beta_scaling_factor_ < 1)
      ∧ (state_rmse_up (1 / 2)).step_ > (state_rmse_up (1 / 2)).max_history_
      ∧ (state_rmse_up (1 / 2)).rmse_history_.getD
          (idx_hist (state_rmse_up (1 / 2)).max_history_ (state_rmse_up (1 / 2)).step_) 0
          > rmse_avg (state_rmse_up (1 / 2))
      ∧ ¬ ((mix_impl scalar_prop single_process (state_rmse_up (1 / 2))).beta_
            < (state_rmse_up (1 / 2)).beta_) := by
  refine ⟨⟨?_, ?_⟩, ?_, ⟨?_, ?_⟩, ?_, ?_, ?_⟩ <;>
    norm_num [state_rmse_up, idx_hist, rmse_avg, mix_impl, beta_scaling]

/-- C5, amended: for `beta > 0`, a floor `beta0 <= beta` and `beta_scaling_factor < 1`,
on a call with `step > max_history` in which `rmse_history[idx_hist(step)]` exceeds the running
average, `beta` becomes `max(beta0, beta * beta_scaling_factor)`: it stays bounded below by
`beta0`, it does not increase, and it strictly decreases exactly when `beta0 < beta`. -/
theorem mix_impl_beta_floor (fp : FunctionProp T) (comm : Communicator T) (st : Broyden2 T)
    (hbeta : 0 < st.beta_) (hfloor : st.beta0_ ≤ st.beta_)
    (hf1 : st.beta_scaling_factor_ < 1)
    (hstep : st.step_ > st.max_history_)
    (hrmse : st.rmse_history_.getD (idx_hist st.max_history_ st.step_) 0 > rmse_avg st) :
    (mix_impl fp comm st).beta_ = max st.beta0_ (st.beta_ * st.beta_scaling_factor_)
      ∧ st.beta0_ ≤ (mix_impl fp comm st).beta_
      ∧ (mix_impl fp comm st).beta_ ≤ st.beta_
      ∧ ((mix_impl fp comm st).beta_ < st.beta_ ↔ st.beta0_ < st.beta_) := by
  have hb : (mix_impl fp comm st).beta_ = max st.beta0_ (st.beta_ * st.beta_scaling_factor_) := by
    rw [mix_impl_beta, beta_scaling, if_pos hstep, if_pos hrmse]
  have hmul : st.beta_ * st.beta_scaling_factor_ < st.beta_ := by
    have := mul_lt_mul_of_pos_left hf1 hbeta
    simpa using this
  rw [hb]
  refine ⟨rfl, le_max_left _ _, max_le hfloor hmul.le, ?_⟩
  constructor
  · intro h
    exact lt_of_le_of_lt (le_max_left _ _) h
  · intro h
    exact max_lt h hmul

/-- C5 amended, at the scalar mixer `state_rmse_up (1/8)`: beta drops from `1/2` to `1/4`, still
above the floor `1/8`. -/
theorem mix_impl_beta_floor_witness :
    (mix_impl scalar_prop single_process (state_rmse_up (1 / 8))).beta_
        = max (state_rmse_up (1 / 8)).beta0_
            ((state_rmse_up (1 / 8)).beta_ * (state_rmse_up (1 / 8)).beta_scaling_factor_)
      ∧ (state_rmse_up (1 / 8)).beta0_
          ≤ (mix_impl scalar_prop single_process (state_rmse_up (1 / 8))).beta_
      ∧ (mix_impl scalar_prop single_process (state_rmse_up (1 / 8))).beta_
          ≤ (state_rmse_up (1 / 8)).beta_
      ∧ ((mix_impl scalar_prop single_process (state_rmse_up (1 / 8))).beta_
            < (state_rmse_up (1 / 8)).beta_
          ↔ (state_rmse_up (1 / 8)).beta0_ < (state_rmse_up (1 / 8)).beta_) :=
  mix_impl_beta_floor scalar_prop single_process (state_rmse_up (1 / 8))
    (by norm_num [state_rmse_up]) (by norm_num [state_rmse_up])
    (by norm_num [state_rmse_up]) (by decide)
    (by norm_num [state_rmse_up, idx_hist, rmse_avg])

/-- C6: on a call to `mix_impl` with `step <= max_history`, or in which
`rmse_history[idx_hist(step)]` does not exceed the running average of `rmse_history`, `beta` is
left unchanged. -/
theorem mix_impl_beta_unchanged (fp : FunctionProp T) (comm : Communicator T) (st : Broyden2 T)
    (h : st.step_ ≤ st.max_history_
          ∨ ¬ (st.rmse_history_.getD (idx_hist st.max_history_ st.step_) 0 > rmse_avg st)) :
    (mix_impl fp comm st).beta_ = st.beta_ := by
  rw [mix_impl_beta, beta_scaling]
  rcases h with h | h
  · rw [if_neg (by omega)]
  · rw [if_neg h]
    split <;> rfl

/-- C6, at the scalar mixer `state_linear` (step 1, `max_history = 2`): beta stays `1/2`. -/
theorem mix_impl_beta_unchanged_witness :
    (mix_impl scalar_prop single_process state_linear).beta_ = state_linear.beta_ :=
  mix_impl_beta_unchanged scalar_prop single_process state_linear (Or.inl (by decide))

/-- C7, as stated, fails: at the scalar mixer `state_linear` the quasi-Newton block is skipped,
`input_` still holds `7` at the final blend (it is not zeroed), and the written slot holds `6`,
not the damped carry-forward `(1 - beta) * output_history[idx_hist(step)] = 5/2`. -/
theorem mix_impl_skip_keeps_input :
    quasi_newton_cond state_linear = false
      ∧ (mix_impl scalar_prop single_process state_linear).input_ = 7
      ∧ (mix_impl scalar_prop single_process state_linear).output_history_.getD
          (idx_hist state_linear.max_history_ (state_linear.step_ + 1)) 0 = 6
      ∧ (1 - (mix_impl scalar_prop single_process state_linear).beta_)
          • state_linear.output_history_.getD
              (idx_hist state_linear.max_history_ state_linear.step_) 0 = 5 / 2 := by
  refine ⟨?_, ?_, ?_, ?_⟩ <;>
    norm_num [mix_impl, state_linear, final_blend, beta_scaling, quasi_newton_cond, idx_hist,
      copy, scale, axpy, history_size]

/-- C7, amended: when the quasi-Newton block is skipped, `input_` is left as it was on entry, and
(for `max_history >= 2`) `output_history[idx_hist(step+1)]` equals
`beta * input_ + (1 - beta) * output_history[idx_hist(step)]`; it is the damped carry-forward
`(1 - beta) * output_history[idx_hist(step)]` when `input_` is zero on entry. -/
theorem mix_impl_skip_linear (fp : FunctionProp T) (comm : Communicator T) (st : Broyden2 T)
    (hH : 2 ≤ st.max_history_) (hlen : st.output_history_.length = st.max_history_)
    (hskip : quasi_newton_cond st = false) :
    (mix_impl fp comm st).input_ = st.input_
      ∧ (mix_impl fp comm st).output_history_.getD (idx_hist st.max_history_ (st.step_ + 1)) 0
          = (mix_impl fp comm st).beta_ • st.input_
            + (1 - (mix_impl fp comm st).beta_)
              • st.output_history_.getD (idx_hist st.max_history_ st.step_) 0
      ∧ (st.input_ = 0 →
          (mix_impl fp comm st).output_history_.getD (idx_hist st.max_history_ (st.step_ + 1)) 0
            = (1 - (mix_impl fp comm st).beta_)
              • st.output_history_.getD (idx_hist st.max_history_ st.step_) 0) := by
  have hin : (mix_impl fp comm st).input_ = st.input_ := by
    rw [mix_impl_input, hskip]; rfl
  have hb := mix_impl_blend fp comm st hH hlen
  rw [hin] at hb
  refine ⟨hin, hb, fun h0 => ?_⟩
  rw [hb, h0, smul_zero, zero_add]

/-- C7 amended, at the scalar mixer `state_linear`. -/
theorem mix_impl_skip_linear_witness :
    (mix_impl scalar_prop single_process state_linear).input_ = state_linear.input_
      ∧ (mix_impl scalar_prop single_process state_linear).output_history_.getD
          (idx_hist state_linear.max_history_ (state_linear.step_ + 1)) 0
          = (mix_impl scalar_prop single_process state_linear).beta_ • state_linear.input_
            + (1 - (mix_impl scalar_prop single_process state_linear).beta_)
              • state_linear.output_history_.getD
                  (idx_hist state_linear.max_history_ state_linear.step_) 0 :=
  ⟨(mix_impl_skip_linear scalar_prop single_process state_linear (by decide) rfl
      (by norm_num [quasi_newton_cond, state_linear, history_size, idx_hist])).1,
   (mix_impl_skip_linear scalar_prop single_process state_linear (by decide) rfl
      (by norm_num [quasi_newton_cond, state_linear, history_size, idx_hist])).2.1⟩

end claims

/-! ## Claims on the matrix `S` and the history window -/

section claims_gram

variable {T : Type} [AddCommGroup T]

/-- C8 amended: in the quasi-Newton block with `m = history_size`, for an adapter whose inner
product is symmetric (the adapter contract) and all `j1, j2 < m`, the entry `S[j1,j2]` equals
(sum over all processes of `inner_product(false, r_i1, r_i2)`, plus this process's
`inner_product(true, r_i1, r_i2)`) divided by (sum over all processes of
`local_size(false, residual_history[0])`, plus `local_size(true, residual_history[0])`), where
`r_i = residual_history[idx_hist(step - m + j)]`: the local-only part is added once, after the
cross-process sum. -/
theorem gram_entry (fp : FunctionProp T) (comm : Communicator T) (st : Broyden2 T)
    (hsym : fp.symmetric) (j1 j2 : ℕ) (h1 : j1 < history_size st) (h2 : j2 < history_size st) :
    gram fp comm st (history_size st) j1 j2
      = (((st.residual_history_ :: comm.peers).map (fun res =>
            fp.inner_product false
              (res.getD (idx_hist st.max_history_ (st.step_ - history_size st + j1)) 0)
              (res.getD (idx_hist st.max_history_ (st.step_ - history_size st + j2)) 0))).sum
          + fp.inner_product true
              (st.residual_history_.getD
                (idx_hist st.max_history_ (st.step_ - history_size st + j1)) 0)
              (st.residual_history_.getD
                (idx_hist st.max_history_ (st.step_ - history_size st + j2)) 0))
        / ((((st.residual_history_ :: comm.peers).map (fun res =>
              fp.local_size false (res.getD 0 0))).sum
            + fp.local_size true (st.residual_history_.getD 0 0) : ℕ) : ℚ) := by
  rw [gram_apply fp comm st _ j1 j2 h1 h2]
  rcases le_total j2 j1 with h | h
  · rw [max_eq_left h, min_eq_right h]
    rfl
  · rw [max_eq_right h, min_eq_left h]
    simp only [window_residual]
    rw [hsym true]
    congr 3
    apply List.map_congr_left
    intro res _
    exact hsym false _ _

/-- C8 amended, at the two-process mixer `state_split`, entry `(0, 1)`: the value is `15`. -/
theorem gram_entry_witness :
    gram split_prop two_processes state_split (history_size state_split) 0 1
        = (((state_split.residual_history_ :: two_processes.peers).map (fun res =>
              split_prop.inner_product false
                (res.getD (idx_hist state_split.max_history_
                  (state_split.step_ - history_size state_split + 0)) 0)
                (res.getD (idx_hist state_split.max_history_
                  (state_split.step_ - history_size state_split + 1)) 0))).sum
            + split_prop.inner_product true
                (state_split.residual_history_.getD
                  (idx_hist state_split.max_history_
                    (state_split.step_ - history_size state_split + 0)) 0)
                (state_split.residual_history_.getD
                  (idx_hist state_split.max_history_
                    (state_split.step_ - history_size state_split + 1)) 0))
          / ((((state_split.residual_history_ :: two_processes.peers).map (fun res =>
                split_prop.local_size false (res.getD 0 0))).sum
              + split_prop.local_size true (state_split.residual_history_.getD 0 0) : ℕ) : ℚ)
      ∧ gram split_prop two_processes state_split (history_size state_split) 0 1 = 15 := by
  have h := gram_entry split_prop two_processes state_split split_prop_symmetric 0 1
    (by decide) (by decide)
  refine ⟨h, ?_⟩
  rw [h]
  norm_num [state_split, two_processes, split_prop, history_size, idx_hist]

/-- C8, as stated for every adapter, fails: lines 82-87 compute the entries with `j2 <= j1` and
mirror them, so above the diagonal `S[j1,j2]` is built from `inner_product(r_i2, r_i1)`. With the
non-symmetric scalar adapter `skew_prop` at the mixer `state_gating 4` (which takes the
quasi-Newton block; the window holds the residuals `2, 4, 1`), the code has `S[0,1] = 12`, while
the stated formula gives `10`. -/
theorem gram_entry_skew :
    quasi_newton_cond (state_gating 4) = true
      ∧ gram skew_prop single_process (state_gating 4) (history_size (state_gating 4)) 0 1 = 12
      ∧ ((((state_gating 4).residual_history_ :: single_process.peers).map (fun res =>
              skew_prop.inner_product false
                (res.getD (idx_hist (state_gating 4).max_history_
                  ((state_gating 4).step_ - history_size (state_gating 4) + 0)) 0)
                (res.getD (idx_hist (state_gating 4).max_history_
                  ((state_gating 4).step_ - history_size (state_gating 4) + 1)) 0))).sum
            + skew_prop.inner_product true
                ((state_gating 4).residual_history_.getD
                  (idx_hist (state_gating 4).max_history_
                    ((state_gating 4).step_ - history_size (state_gating 4) + 0)) 0)
                ((state_gating 4).residual_history_.getD
                  (idx_hist (state_gating 4).max_history_
                    ((state_gating 4).step_ - history_size (state_gating 4) + 1)) 0))
          / (((((state_gating 4).residual_history_ :: single_process.peers).map (fun res =>
                skew_prop.local_size false (res.getD 0 0))).sum
              + skew_prop.local_size true ((state_gating 4).residual_history_.getD 0 0) : ℕ) : ℚ)
        = 10 := by
  refine ⟨by norm_num [quasi_newton_cond, state_gating], ?_, ?_⟩
  · rw [gram_apply skew_prop single_process (state_gating 4) _ 0 1 (by decide) (by decide)]
    norm_num [skew_prop, single_process, window_residual, state_gating, history_size, idx_hist]
  · norm_num [skew_prop, single_process, state_gating, history_size, idx_hist]

end claims_gram

/-- C9, evaluated where it fails: with `max_history = 2`, when `mix_impl` is entered at step 2
(`history_size = 2`; the mixer `state_split` is such a state, and it takes the quasi-Newton
block) the window slots `idx_hist(0)`, `idx_hist(1)` hold the residuals of the iterations 2 and 1,
in this order: slot `idx_hist(0)` was overwritten by iteration 2 and no longer holds the residual
of iteration `s - m + 0 = 0`, and positions 0, 1 are not consecutive iterations in chronological
order. -/
theorem window_iteration_overwritten :
    (state_split.max_history_ = 2 ∧ state_split.step_ = 2 ∧ history_size state_split = 2
        ∧ quasi_newton_cond state_split = true)
      ∧ window_iteration 2 2 0 = some 2 ∧ window_iteration 2 2 1 = some 1
      ∧ window_iteration 2 2 0 ≠ some (2 - min 2 2 + 0) := by
  refine ⟨⟨rfl, rfl, by decide, ?_⟩, by decide, by decide, by decide⟩
  norm_num [quasi_newton_cond, state_split, history_size, idx_hist]

section claims_denominator

variable {T : Type} [AddCommGroup T] [Module ℚ T]

/-- C10: for every `k < m - 1` of the recursion (`m = history_size`), if the adapter inner product
is symmetric and bilinear, the denominator `d = S[k,k] + S[k+1,k+1] - S[k,k+1] - S[k+1,k]` equals
the normalised global inner product of `r_{k+1} - r_k` with itself (cross-process sum of the
`false` part, plus the local-only part, divided by the global size), `r_j` being the `j`-th
residual of the window; and `d >= 0` when moreover the inner product is positive semidefinite and
the global size is positive. -/
theorem denominator_eq_diff_norm (fp : FunctionProp T) (comm : Communicator T) (st : Broyden2 T)
    (hsym : fp.symmetric) (hbil : fp.bilinear) (k : ℕ) (hk : k + 1 < history_size st) :
    denominator (gram fp comm st (history_size st)) k
        = (((st.residual_history_ :: comm.peers).map (fun res =>
              fp.inner_product false
                (window_residual st.max_history_ st.step_ (history_size st) res (k + 1)
                  - window_residual st.max_history_ st.step_ (history_size st) res k)
                (window_residual st.max_history_ st.step_ (history_size st) res (k + 1)
                  - window_residual st.max_history_ st.step_ (history_size st) res k))).sum
            + fp.inner_product true
                (window_residual st.max_history_ st.step_ (history_size st)
                    st.residual_history_ (k + 1)
                  - window_residual st.max_history_ st.step_ (history_size st)
                    st.residual_history_ k)
                (window_residual st.max_history_ st.step_ (history_size st)
                    st.residual_history_ (k + 1)
                  - window_residual st.max_history_ st.step_ (history_size st)
                    st.residual_history_ k))
          / (global_size fp comm st.residual_history_ : ℚ)
      ∧ (fp.positive_semidefinite → 0 < global_size fp comm st.residual_history_ →
          0 ≤ denominator (gram fp comm st (history_size st)) k) := by
  have hk0 : k < history_size st := by omega
  have key : denominator (gram fp comm st (history_size st)) k
        = (((st.residual_history_ :: comm.peers).map (fun res =>
              fp.inner_product false
                (window_residual st.max_history_ st.step_ (history_size st) res (k + 1)
                  - window_residual st.max_history_ st.step_ (history_size st) res k)
                (window_residual st.max_history_ st.step_ (history_size st) res (k + 1)
                  - window_residual st.max_history_ st.step_ (history_size st) res k))).sum
            + fp.inner_product true
                (window_residual st.max_history_ st.step_ (history_size st)
                    st.residual_history_ (k + 1)
                  - window_residual st.max_history_ st.step_ (history_size st)
                    st.residual_history_ k)
                (window_residual st.max_history_ st.step_ (history_size st)
                    st.residual_history_ (k + 1)
                  - window_residual st.max_history_ st.step_ (history_size st)
                    st.residual_history_ k))
          / (global_size fp comm st.residual_history_ : ℚ) := by
    unfold denominator
    rw [gram_apply fp comm st _ k k hk0 hk0, gram_apply fp comm st _ (k + 1) (k + 1) hk hk,
      gram_apply fp comm st _ k (k + 1) hk0 hk, gram_apply fp comm st _ (k + 1) k hk hk0]
    rw [max_self, min_self, max_self, min_self, max_eq_right (Nat.le_succ k),
      min_eq_left (Nat.le_succ k), max_eq_left (Nat.le_succ k), min_eq_right (Nat.le_succ k)]
    rw [← global_size_eq]
    simp only [inner_product_diff_self fp hsym hbil]
    rw [sum_map_diff]
    ring
  refine ⟨key, fun hpsd hpos => ?_⟩
  rw [key]
  apply div_nonneg
  · apply add_nonneg
    · apply List.sum_nonneg
      intro x hx
      obtain ⟨res, _, rfl⟩ := List.mem_map.1 hx
      exact hpsd false _
    · exact hpsd true _
  · exact le_of_lt (by exact_mod_cast hpos)

/-- C10, at the two-process mixer `state_split`, `k = 0`: `d = 14/3`, which is the normalised
global inner product of the residual difference with itself, and is nonnegative. -/
theorem denominator_eq_diff_norm_witness :
    denominator (gram split_prop two_processes state_split (history_size state_split)) 0
        = (((state_split.residual_history_ :: two_processes.peers).map (fun res =>
              split_prop.inner_product false
                (window_residual state_split.max_history_ state_split.step_
                    (history_size state_split) res (0 + 1)
                  - window_residual state_split.max_history_ state_split.step_
                    (history_size state_split) res 0)
                (window_residual state_split.max_history_ state_split.step_
                    (history_size state_split) res (0 + 1)
                  - window_residual state_split.max_history_ state_split.step_
                    (history_size state_split) res 0))).sum
            + split_prop.inner_product true
                (window_residual state_split.max_history_ state_split.step_
                    (history_size state_split) state_split.residual_history_ (0 + 1)
                  - window_residual state_split.max_history_ state_split.step_
                    (history_size state_split) state_split.residual_history_ 0)
                (window_residual state_split.max_history_ state_split.step_
                    (history_size state_split) state_split.residual_history_ (0 + 1)
                  - window_residual state_split.max_history_ state_split.step_
                    (history_size state_split) state_split.residual_history_ 0))
          / (global_size split_prop two_processes state_split.residual_history_ : ℚ)
      ∧ 0 ≤ denominator (gram split_prop two_processes state_split (history_size state_split)) 0
      ∧ denominator (gram split_prop two_processes state_split (history_size state_split)) 0
          = 14 / 3 := by
  have h := denominator_eq_diff_norm split_prop two_processes state_split split_prop_symmetric
    split_prop_bilinear 0 (by decide)
  refine ⟨h.1, h.2 split_prop_positive_semidefinite (by decide), ?_⟩
  rw [h.1]
  norm_num [state_split, two_processes, split_prop, history_size, idx_hist, window_residual,
    global_size, Communicator.allreduce_size]

end claims_denominator

/-! ## The staging buffer after the quasi-Newton block -/

section vectors

theorem vset_apply (v : ℕ → ℚ) (i : ℕ) (x : ℚ) (a : ℕ) :
    vset v i x a = if a = i then x else v a := rfl

/-- A loop that assigns `v[j] = f j` for `j < n`. -/
theorem forLoop_vset (f : ℕ → ℚ) (v0 : ℕ → ℚ) (n a : ℕ) :
    forLoop n (fun j v => vset v j (f j)) v0 a = if a < n then f a else v0 a := by
  induction n with
  | zero => simp [forLoop]
  | succ n ih =>
    rw [forLoop_succ, vset_apply, ih]
    by_cases h : a = n
    · subst h; simp
    · rw [if_neg h]
      by_cases h2 : a < n
      · rw [if_pos h2, if_pos (by omega)]
      · rw [if_neg h2, if_neg (by omega)]

/-- The final combination vector (lines 140-144), entry by entry. -/
theorem v2_final_apply (m : ℕ) (g : ℕ → ℕ → ℚ) (j : ℕ) (hj : j < 2 * m) :
    v2_final m g j = -(g j (m - 1)) + if j = 2 * m - 1 then 1 else 0 := by
  unfold v2_final
  simp only [vset_apply, forLoop_vset]
  by_cases h : j = 2 * m - 1
  · rw [if_pos h, if_pos h, if_pos (by omega), h]
  · rw [if_neg h, if_neg h, if_pos hj, add_zero]

/-- The seed of the recursion (lines 106-111), entry by entry. -/
theorem gamma_init_apply (m a b : ℕ) :
    gamma_init m a b = if a = b ∧ a < m then 1 / 4 else 0 := by
  unfold gamma_init
  induction m with
  | zero => simp [forLoop]
  | succ n ih =>
    rw [forLoop_succ, mdset_apply, ih]
    by_cases h : a = n ∧ b = n
    · obtain ⟨rfl, rfl⟩ := h
      simp
    · rw [if_neg h]
      by_cases h2 : a = b ∧ a < n
      · rw [if_pos h2, if_pos ⟨h2.1, by omega⟩]
      · rw [if_neg h2, if_neg]
        rintro ⟨hab, han⟩
        rcases Nat.lt_succ_iff_lt_or_eq.1 han with h3 | h3
        · exact h2 ⟨hab, h3⟩
        · exact h ⟨h3, hab ▸ h3⟩

end vectors

section staging

variable {T : Type} [AddCommGroup T] [Module ℚ T]

/-- The accumulation loop (lines 150-154), started from any value of the buffer. -/
theorem accumulate_loop (a b : ℕ → ℚ) (r o : ℕ → T) (z : T) (n : ℕ) :
    forLoop n (fun j inp => axpy (b j) (o j) (axpy (a j) (r j) inp)) z
      = z + ∑ j in Finset.range n, (a j • r j + b j • o j) := by
  induction n with
  | zero => simp [forLoop]
  | succ n ih =>
    rw [forLoop_succ, ih, Finset.sum_range_succ]
    simp only [axpy]
    abel

/-- Lines 146-154 in closed form: the buffer is zeroed, so its previous content is lost. -/
theorem accumulate_eq (st : Broyden2 T) (m : ℕ) (v2 : ℕ → ℚ) :
    accumulate st m v2
      = ∑ j in Finset.range m,
          (v2 j • st.residual_history_.getD (idx_hist st.max_history_ (st.step_ - m + j)) 0
            + v2 (j + m)
              • st.output_history_.getD (idx_hist st.max_history_ (st.step_ - m + j)) 0) := by
  unfold accumulate
  refine (accumulate_loop (fun j => v2 j) (fun j => v2 (j + m))
    (fun j => st.residual_history_.getD (idx_hist st.max_history_ (st.step_ - m + j)) 0)
    (fun j => st.output_history_.getD (idx_hist st.max_history_ (st.step_ - m + j)) 0)
    (scale 0 st.input_) m).trans ?_
  simp [scale]

end staging

/-! ## Circular indexing and the fixed point of the linear mode -/

section claims_index

/-- C14: for every `max_history = H >= 1` and every step `s`, `idx_hist(s) = s mod H`, hence
`idx_hist(s) < H` and `idx_hist(s) = idx_hist(s + H)`; the slots `idx_hist(step)` and
`idx_hist(step+1)` used by `mix_impl` are valid history indices, and they coincide exactly when
`H = 1`. -/
theorem idx_hist_circular (H s : ℕ) (hH : 1 ≤ H) :
    idx_hist H s = s % H
      ∧ idx_hist H s < H
      ∧ idx_hist H s = idx_hist H (s + H)
      ∧ idx_hist H (s + 1) < H
      ∧ (idx_hist H (s + 1) = idx_hist H s ↔ H = 1) := by
  refine ⟨rfl, idx_hist_lt H s hH, ?_, idx_hist_lt H (s + 1) hH, ?_⟩
  · unfold idx_hist
    rw [Nat.add_mod_right]
  · constructor
    · intro h
      by_contra hne
      exact idx_hist_succ_ne H s (by omega) h
    · intro h
      subst h
      unfold idx_hist
      rw [Nat.mod_one, Nat.mod_one]

/-- C14, at `H = 3`, `s = 7`: slot 1, the same as for `s = 10`, and the next slot differs. -/
theorem idx_hist_circular_witness :
    idx_hist 3 7 = 7 % 3
      ∧ idx_hist 3 7 < 3
      ∧ idx_hist 3 7 = idx_hist 3 (7 + 3)
      ∧ idx_hist 3 (7 + 1) < 3
      ∧ (idx_hist 3 (7 + 1) = idx_hist 3 7 ↔ 3 = 1) :=
  idx_hist_circular 3 7 (by decide)

end claims_index

section claims_fixed_point

variable {T : Type} [AddCommGroup T] [Module ℚ T]

/-- C15: fixed-point preservation in linear mode. For every `beta` and every `max_history >= 2`,
if the quasi-Newton block is not taken and the staged evaluator result `input_` equals
`output_history[idx_hist(step)]` (zero residual), the next guess
`output_history[idx_hist(step+1)]` written by `mix_impl` equals that same value. -/
theorem mix_impl_fixed_point (fp : FunctionProp T) (comm : Communicator T) (st : Broyden2 T)
    (hH : 2 ≤ st.max_history_) (hlen : st.output_history_.length = st.max_history_)
    (hskip : quasi_newton_cond st = false)
    (hfix : st.input_ = st.output_history_.getD (idx_hist st.max_history_ st.step_) 0) :
    (mix_impl fp comm st).output_history_.getD (idx_hist st.max_history_ (st.step_ + 1)) 0
      = st.output_history_.getD (idx_hist st.max_history_ st.step_) 0 := by
  have hin : (mix_impl fp comm st).input_ = st.input_ := by
    rw [mix_impl_input, hskip]; rfl
  rw [mix_impl_blend fp comm st hH hlen, hin, hfix, ← add_smul]
  simp

/-- C15, at the scalar mixer `state_fixed_point`: the next guess is again `5`. -/
theorem mix_impl_fixed_point_witness :
    (mix_impl scalar_prop single_process state_fixed_point).output_history_.getD
        (idx_hist state_fixed_point.max_history_ (state_fixed_point.step_ + 1)) 0
      = state_fixed_point.output_history_.getD
          (idx_hist state_fixed_point.max_history_ state_fixed_point.step_) 0 :=
  mix_impl_fixed_point scalar_prop single_process state_fixed_point (by decide) rfl
    (by norm_num [quasi_newton_cond, state_fixed_point, history_size, idx_hist]) rfl

end claims_fixed_point

/-! ## The recursion, entry by entry -/

section recursion

/-- The inner loop of the rank-1 update (lines 134-136) after `n` iterations on column `j1`. -/
theorem gamma_update_col (t : ℕ → ℚ) (j1 : ℕ) (g : ℕ → ℕ → ℚ) (n a b : ℕ) :
    forLoop n (fun j2 g => mdset g j2 j1 (g j2 j1 + t j2)) g a b
      = if a < n ∧ b = j1 then g a b + t a else g a b := by
  induction n generalizing a b with
  | zero => simp [forLoop]
  | succ n ih =>
    rw [forLoop_succ, mdset_apply, ih, ih]
    by_cases h1 : a = n ∧ b = j1
    · obtain ⟨rfl, rfl⟩ := h1
      simp
    · rw [if_neg h1]
      by_cases h2 : a < n ∧ b = j1
      · rw [if_pos h2, if_pos ⟨by omega, h2.2⟩]
      · rw [if_neg h2, if_neg]
        rintro ⟨ha, hb⟩
        rcases Nat.lt_succ_iff_lt_or_eq.1 ha with ha | ha
        · exact h2 ⟨ha, hb⟩
        · exact h1 ⟨ha, hb⟩

/-- The rank-1 update (lines 133-137) after `n` columns. -/
theorem gamma_update_apply (v1 v2 : ℕ → ℚ) (d : ℚ) (m : ℕ) (g : ℕ → ℕ → ℚ) (n a b : ℕ) :
    forLoop n (fun j1 g =>
        forLoop (2 * m) (fun j2 g => mdset g j2 j1 (g j2 j1 + v2 j2 * v1 j1 / d)) g) g a b
      = if a < 2 * m ∧ b < n then g a b + v2 a * v1 b / d else g a b := by
  induction n generalizing a b with
  | zero => simp [forLoop]
  | succ n ih =>
    refine (gamma_update_col (fun j2 => v2 j2 * v1 n / d) n _ (2 * m) a b).trans ?_
    rw [ih]
    by_cases h1 : a < 2 * m ∧ b = n
    · obtain ⟨ha, rfl⟩ := h1
      simp [ha]
    · rw [if_neg h1]
      by_cases h2 : a < 2 * m ∧ b < n
      · rw [if_pos h2, if_pos ⟨h2.1, by omega⟩]
      · rw [if_neg h2, if_neg]
        rintro ⟨ha, hb⟩
        rcases Nat.lt_succ_iff_lt_or_eq.1 hb with hb | hb
        · exact h2 ⟨ha, hb⟩
        · exact h1 ⟨ha, hb⟩

/-- The vector `v1` of recursion step `k` (lines 121-124), entry by entry. -/
theorem v1_step_apply (m : ℕ) (S : ℕ → ℕ → ℚ) (k b : ℕ) :
    v1_step m S k b = if b < m then S (k + 1) b - S k b else 0 := by
  unfold v1_step
  rw [forLoop_vset]

/-- The vector `v2` of recursion step `k` (lines 126-131), entry by entry. -/
theorem v2_step_apply (m : ℕ) (g : ℕ → ℕ → ℚ) (k a : ℕ) (ha : a < 2 * m) (hk : k + 1 < m) :
    v2_step m g k a
      = -(g a (k + 1) - g a k)
        + (if a = m + k + 1 then 1 else 0) - (if a = m + k then 1 else 0) := by
  unfold v2_step
  simp only [vset_apply, forLoop_vset]
  have h1 : m + k < 2 * m := by omega
  have h2 : m + k + 1 < 2 * m := by omega
  by_cases e1 : a = m + k + 1
  · subst e1
    have : ¬ (m + k + 1 = m + k) := by omega
    simp [this, h2]
  · by_cases e2 : a = m + k
    · subst e2
      simp [h1]
    · simp [e1, e2, ha]

/-- One step of the recursion (lines 118-137), entry by entry. -/
theorem gamma_step_apply (m : ℕ) (S : ℕ → ℕ → ℚ) (k : ℕ) (g : ℕ → ℕ → ℚ) (a b : ℕ)
    (ha : a < 2 * m) (hb : b < m) (hk : k + 1 < m) :
    gamma_step m S k g a b
      = g a b
        + (-(g a (k + 1) - g a k)
            + (if a = m + k + 1 then 1 else 0) - (if a = m + k then 1 else 0))
          * (S (k + 1) b - S k b) / denominator S k := by
  unfold gamma_step
  refine (gamma_update_apply _ _ _ m g m a b).trans ?_
  rw [if_pos ⟨ha, hb⟩, v1_step_apply, if_pos hb, v2_step_apply m g k a ha hk]

/-- Outside the `2m x m` block the recursion step changes nothing. -/
theorem gamma_step_apply_out (m : ℕ) (S : ℕ → ℕ → ℚ) (k : ℕ) (g : ℕ → ℕ → ℚ) (a b : ℕ)
    (h : ¬ (a < 2 * m ∧ b < m)) :
    gamma_step m S k g a b = g a b := by
  unfold gamma_step
  refine (gamma_update_apply _ _ _ m g m a b).trans ?_
  rw [if_neg h]

end recursion

section secant

/-- After the rank-1 update for index `k` with `d != 0`, the columns `k` and `k+1` of `gamma`
differ by `+1` in row `m+k+1`, by `-1` in row `m+k`, and by `0` in the other rows. -/
theorem gamma_step_secant (m : ℕ) (S : ℕ → ℕ → ℚ) (k : ℕ) (g : ℕ → ℕ → ℚ) (a : ℕ)
    (ha : a < 2 * m) (hk : k + 1 < m) (hd : denominator S k ≠ 0) :
    gamma_step m S k g a (k + 1) - gamma_step m S k g a k
      = (if a = m + k + 1 then 1 else 0) - (if a = m + k then 1 else 0) := by
  rw [gamma_step_apply m S k g a (k + 1) ha hk hk,
    gamma_step_apply m S k g a k ha (by omega) hk]
  have hd' : S k k + S (k + 1) (k + 1) - S k (k + 1) - S (k + 1) k ≠ 0 := hd
  unfold denominator
  field_simp
  ring

/-- For a rank-one matrix `S[a,b] = c * rho a * rho b`, a recursion step leaves
`rho p * gamma[a,q] - rho q * gamma[a,p]` unchanged. -/
theorem gamma_step_rank_one (m : ℕ) (S : ℕ → ℕ → ℚ) (rho : ℕ → ℚ) (c : ℚ)
    (hS : ∀ a b, a < m → b < m → S a b = c * (rho a * rho b))
    (k : ℕ) (g : ℕ → ℕ → ℚ) (a p q : ℕ) (hp : p < m) (hq : q < m) (hk : k + 1 < m) :
    rho p * gamma_step m S k g a q - rho q * gamma_step m S k g a p
      = rho p * g a q - rho q * g a p := by
  by_cases ha : a < 2 * m
  · rw [gamma_step_apply m S k g a q ha hq hk, gamma_step_apply m S k g a p ha hp hk,
      hS (k + 1) q hk hq, hS k q (by omega) hq, hS (k + 1) p hk hp, hS k p (by omega) hp]
    ring
  · rw [gamma_step_apply_out m S k g a q (fun h => ha h.1),
      gamma_step_apply_out m S k g a p (fun h => ha h.1)]

/-- The invariant of `gamma_step_rank_one` along the first `n` steps of the recursion. -/
theorem gamma_loop_rank_one (m : ℕ) (S : ℕ → ℕ → ℚ) (rho : ℕ → ℚ) (c : ℚ)
    (hS : ∀ a b, a < m → b < m → S a b = c * (rho a * rho b))
    (g : ℕ → ℕ → ℚ) (a p q : ℕ) (hp : p < m) (hq : q < m) (n : ℕ) (hn : n + 1 ≤ m) :
    rho p * forLoop n (gamma_step m S) g a q - rho q * forLoop n (gamma_step m S) g a p
      = rho p * g a q - rho q * g a p := by
  induction n with
  | zero => rfl
  | succ n ih =>
    rw [forLoop_succ, gamma_step_rank_one m S rho c hS n _ a p q hp hq (by omega)]
    exact ih (by omega)

/-- For a rank-one matrix `S` and `m >= 2`, the last column of `gamma` after the recursion. -/
theorem gamma_rec_rank_one (m : ℕ) (S : ℕ → ℕ → ℚ) (rho : ℕ → ℚ) (c : ℚ) (hm : 2 ≤ m)
    (hS : ∀ a b, a < m → b < m → S a b = c * (rho a * rho b))
    (hd : denominator S (m - 2) ≠ 0) (a : ℕ) (ha : a < 2 * m) :
    (rho (m - 1) - rho (m - 2)) * gamma_rec m S a (m - 1)
      = rho (m - 1) * ((if a = 2 * m - 1 then 1 else 0) - (if a = 2 * m - 2 then 1 else 0))
        - (rho (m - 2) * (if a = m - 1 then 1 / 4 else 0)
            - rho (m - 1) * (if a = m - 2 then 1 / 4 else 0)) := by
  obtain ⟨n, rfl⟩ : ∃ n, m = n + 2 := ⟨m - 2, by omega⟩
  have e1 : n + 2 - 1 = n + 1 := by omega
  have e2 : n + 2 - 2 = n := by omega
  rw [e2] at hd
  rw [e1, e2]
  have hq := gamma_loop_rank_one (n + 2) S rho c hS (gamma_init (n + 2)) a n (n + 1)
    (by omega) (by omega) (n + 1) (by omega)
  have hs : gamma_rec (n + 2) S a (n + 1) - gamma_rec (n + 2) S a n
      = (if a = n + 2 + n + 1 then 1 else 0) - (if a = n + 2 + n then 1 else 0) := by
    have := gamma_step_secant (n + 2) S n (forLoop n (gamma_step (n + 2) S) (gamma_init (n + 2)))
      a ha (by omega) hd
    exact this
  have hg : gamma_rec (n + 2) S = forLoop (n + 1) (gamma_step (n + 2) S) (gamma_init (n + 2)) :=
    rfl
  rw [← hg, gamma_init_apply, gamma_init_apply] at hq
  have i1 : (n + 1 = n + 1 ∧ n + 1 < n + 2) := ⟨rfl, by omega⟩
  have i2 : (a = n + 1 ∧ a < n + 2) ↔ a = n + 1 := ⟨fun h => h.1, fun h => ⟨h, by omega⟩⟩
  have i3 : (a = n ∧ a < n + 2) ↔ a = n := ⟨fun h => h.1, fun h => ⟨h, by omega⟩⟩
  have i4 : 2 * (n + 2) - 1 = n + 2 + n + 1 := by omega
  have i5 : 2 * (n + 2) - 2 = n + 2 + n := by omega
  simp only [i2, i3] at hq
  rw [i4, i5]
  linear_combination (rho (n + 1)) * hs - hq

end secant

/-! ## The quasi-Newton block for a scalar quantity -/

section scalar_secant

/-- The combination of lines 150-154 for the weights of `gamma_rec_rank_one`: the secant step
through the last two points of the window. -/
theorem secant_sum (n : ℕ) (rho x w : ℕ → ℚ) (hne : rho (n + 1) ≠ rho n)
    (hw : ∀ a, a < 2 * (n + 2) → w a
      = -((rho (n + 1) * ((if a = 2 * (n + 2) - 1 then 1 else 0)
              - (if a = 2 * (n + 2) - 2 then 1 else 0))
            - (rho n * (if a = n + 1 then 1 / 4 else 0)
                - rho (n + 1) * (if a = n then 1 / 4 else 0)))
          / (rho (n + 1) - rho n))
        + if a = 2 * (n + 2) - 1 then 1 else 0) :
    ∑ j in Finset.range (n + 2), (w j * rho j + w (j + (n + 2)) * x j)
      = x (n + 1) - rho (n + 1) * (x (n + 1) - x n) / (rho (n + 1) - rho n) := by
  have hδ : rho (n + 1) - rho n ≠ 0 := sub_ne_zero.2 hne
  have h0 : ∀ j ∈ Finset.range n, w j * rho j + w (j + (n + 2)) * x j = 0 := by
    intro j hj
    have hjn : j < n := Finset.mem_range.1 hj
    rw [hw j (by omega), hw (j + (n + 2)) (by omega)]
    simp [show ¬ (j = 2 * (n + 2) - 1) by omega, show ¬ (j = 2 * (n + 2) - 2) by omega,
      show ¬ (j = n + 1) by omega, show ¬ (j = n) by omega,
      show ¬ (j + (n + 2) = 2 * (n + 2) - 1) by omega,
      show ¬ (j + (n + 2) = 2 * (n + 2) - 2) by omega,
      show ¬ (j + (n + 2) = n + 1) by omega, show ¬ (j + (n + 2) = n) by omega]
  rw [Finset.sum_range_succ, Finset.sum_range_succ, Finset.sum_eq_zero h0, zero_add]
  rw [hw n (by omega), hw (n + (n + 2)) (by omega), hw (n + 1) (by omega),
    hw (n + 1 + (n + 2)) (by omega)]
  simp only [show ¬ (n = 2 * (n + 2) - 1) by omega, show ¬ (n = 2 * (n + 2) - 2) by omega,
    show ¬ (n = n + 1) by omega,
    show (n + (n + 2) = 2 * (n + 2) - 2) by omega,
    show ¬ (2 * (n + 2) - 2 = 2 * (n + 2) - 1) by omega,
    show ¬ (2 * (n + 2) - 2 = n + 1) by omega, show ¬ (2 * (n + 2) - 2 = n) by omega,
    show ¬ (n + 1 = 2 * (n + 2) - 1) by omega, show ¬ (n + 1 = 2 * (n + 2) - 2) by omega,
    show ¬ (n + 1 = n) by omega,
    show (n + 1 + (n + 2) = 2 * (n + 2) - 1) by omega,
    show ¬ (2 * (n + 2) - 1 = 2 * (n + 2) - 2) by omega,
    show ¬ (2 * (n + 2) - 1 = n + 1) by omega, show ¬ (2 * (n + 2) - 1 = n) by omega,
    if_true, if_false]
  field_simp
  ring

/-- The matrix `S` of the scalar adapter on one process is rank one. -/
theorem gram_scalar (st : Broyden2 ℚ) (m a b : ℕ) (ha : a < m) (hb : b < m) :
    gram scalar_prop single_process st m a b
      = 1 * (window_residual st.max_history_ st.step_ m st.residual_history_ a
              * window_residual st.max_history_ st.step_ m st.residual_history_ b) := by
  rw [gram_apply scalar_prop single_process st m a b ha hb]
  simp only [scalar_prop, single_process, List.map_cons, List.map_nil, List.sum_cons,
    List.sum_nil]
  rcases le_total a b with h | h
  · rw [max_eq_right h, min_eq_left h]
    simp [mul_comm]
  · rw [max_eq_left h, min_eq_right h]
    simp

/-- For the scalar adapter on one process, the quasi-Newton block leaves in `input_` the secant
step through the last two points of the window, whatever the length `m >= 2` of the window. -/
theorem quasi_newton_update_scalar (st : Broyden2 ℚ) (hm : 2 ≤ history_size st)
    (hne : window_residual st.max_history_ st.step_ (history_size st) st.residual_history_
              (history_size st - 1)
            ≠ window_residual st.max_history_ st.step_ (history_size st) st.residual_history_
              (history_size st - 2)) :
    quasi_newton_update scalar_prop single_process st
      = st.output_history_.getD
            (idx_hist st.max_history_ (st.step_ - history_size st + (history_size st - 1))) 0
        - window_residual st.max_history_ st.step_ (history_size st) st.residual_history_
              (history_size st - 1)
          * (st.output_history_.getD
                (idx_hist st.max_history_ (st.step_ - history_size st + (history_size st - 1))) 0
              - st.output_history_.getD
                (idx_hist st.max_history_ (st.step_ - history_size st + (history_size st - 2))) 0)
          / (window_residual st.max_history_ st.step_ (history_size st) st.residual_history_
                (history_size st - 1)
              - window_residual st.max_history_ st.step_ (history_size st) st.residual_history_
                (history_size st - 2)) := by
  unfold quasi_newton_update
  simp only []
  rw [accumulate_eq]
  generalize history_size st = m at hm hne ⊢
  obtain ⟨n, rfl⟩ : ∃ n, m = n + 2 := ⟨m - 2, by omega⟩
  have e1 : n + 2 - 1 = n + 1 := by omega
  have e2 : n + 2 - 2 = n := by omega
  rw [e1, e2] at hne
  rw [e1, e2]
  have hδ : window_residual st.max_history_ st.step_ (n + 2) st.residual_history_ (n + 1)
      - window_residual st.max_history_ st.step_ (n + 2) st.residual_history_ n ≠ 0 :=
    sub_ne_zero.2 hne
  have hd : denominator (gram scalar_prop single_process st (n + 2)) (n + 2 - 2) ≠ 0 := by
    rw [e2]
    unfold denominator
    rw [gram_scalar st _ n n (by omega) (by omega),
      gram_scalar st _ (n + 1) (n + 1) (by omega) (by omega),
      gram_scalar st _ n (n + 1) (by omega) (by omega),
      gram_scalar st _ (n + 1) n (by omega) (by omega)]
    intro h
    apply hδ
    have h2 : (window_residual st.max_history_ st.step_ (n + 2) st.residual_history_ (n + 1)
      - window_residual st.max_history_ st.step_ (n + 2) st.residual_history_ n) ^ 2 = 0 := by
      linear_combination h
    exact pow_eq_zero_iff (two_ne_zero) |>.1 h2
  have hw := fun a (ha : a < 2 * (n + 2)) =>
    gamma_rec_rank_one (n + 2) (gram scalar_prop single_process st (n + 2))
      (window_residual st.max_history_ st.step_ (n + 2) st.residual_history_) 1 (by omega)
      (fun a b ha hb => gram_scalar st (n + 2) a b ha hb) hd a ha
  simp only [e1, e2] at hw
  refine (secant_sum n
    (window_residual st.max_history_ st.step_ (n + 2) st.residual_history_)
    (fun j => st.output_history_.getD (idx_hist st.max_history_ (st.step_ - (n + 2) + j)) 0)
    (v2_final (n + 2) (gamma_rec (n + 2) (gram scalar_prop single_process st (n + 2))))
    hne ?_).trans ?_
  · intro a ha
    rw [v2_final_apply _ _ a ha, e1]
    congr 1
    rw [neg_inj, eq_div_iff hδ, mul_comm]
    exact hw a ha
  · rfl

end scalar_secant

/-! ## The end-to-end scalar scenario, iteration by iteration -/

section scenario_steps

theorem rmse_scalar (sqrt : ℚ → ℚ) (hsqrt : ∀ q : ℚ, sqrt (q * q) = |q|) (res : List ℚ)
    (idx : ℕ) :
    rmse sqrt scalar_prop single_process res idx = |res.getD idx 0| := by
  unfold rmse
  simp only [scalar_prop, single_process, Communicator.allreduce, Communicator.allreduce_size,
    List.map_nil, List.sum_nil, add_zero, if_true, Nat.cast_one, div_one]
  simpa using hsqrt (res.getD idx 0)

/-- The final blend as one assignment, when the two slots differ. -/
theorem final_blend_eq_set {T : Type} [AddCommGroup T] [Module ℚ T] (beta : ℚ) (input : T)
    (i n : ℕ) (out : List T) (hne : n ≠ i) (hn : n < out.length) :
    final_blend beta input i n out = out.set n (beta • input + (1 - beta) • out.getD i 0) := by
  unfold final_blend
  simp only [copy, scale, axpy]
  rw [getD_set_eq _ _ _ _ hn, List.set_set, getD_set_ne _ _ _ _ _ hne,
    getD_set_eq _ _ _ _ (by simp [hn]), List.set_set, getD_set_ne _ _ _ _ _ hne]

/-- What `mix_impl` returns, from the values of its three assignments. -/
theorem mix_impl_eq (fp : FunctionProp ℚ) (comm : Communicator ℚ) (st : Broyden2 ℚ)
    (beta input : ℚ) (hbeta : beta_scaling st = beta)
    (hinput : (if quasi_newton_cond st then quasi_newton_update fp comm st else st.input_)
      = input) :
    mix_impl fp comm st
      = { st with
          beta_ := beta
          input_ := input
          output_history_ := final_blend beta input (idx_hist st.max_history_ st.step_)
            (idx_hist st.max_history_ (st.step_ + 1)) st.output_history_ } := by
  subst hbeta hinput
  rfl

/-- The state in which `mix_impl` is entered in an iteration of the scalar scenario. -/
theorem scenario_record (sqrt : ℚ → ℚ) (hsqrt : ∀ q : ℚ, sqrt (q * q) = |q|)
    (k : ℕ) (rm out res : List ℚ) (inp b f x y r : ℚ) (hres : res.length = 4)
    (hx : out.getD (k % 4) 0 = x) (hy : scenario_f x = y) (hr : y - x = r) (hr0 : 0 ≤ r) :
    record_residual sqrt scalar_prop single_process
        (set_output (scenario_f (next_guess (scenario_state k rm out res inp b f)))
          (scenario_state k rm out res inp b f))
      = scenario_state k (rm.set (k % 4) r) out (res.set (k % 4) r) y b f := by
  subst hy
  have hk : k % 4 < 4 := Nat.mod_lt _ (by decide)
  have hng : next_guess (scenario_state k rm out res inp b f) = x := hx
  have hres' : residual (set_output (scenario_f x) (scenario_state k rm out res inp b f)) = r := by
    simp only [residual, set_output, scenario_state, copy, axpy, idx_hist, hx]
    rw [← hr]; simp; ring
  have hrmse : rmse sqrt scalar_prop single_process (res.set (k % 4) r) (k % 4) = r := by
    rw [rmse_scalar sqrt hsqrt, getD_set_eq _ _ _ _ (by omega), abs_of_nonneg hr0]
  unfold record_residual
  rw [hng, hres']
  simp only [set_output, scenario_state, idx_hist, copy]
  rw [hrmse]

/-- The step size is kept on entry with the state of `scenario_record`. -/
theorem scenario_beta (k : ℕ) (rm out res : List ℚ) (y b f r : ℚ) (hrm : rm.length = 4)
    (havg : ¬ (4 < k ∧ (rm.set (k % 4) r).sum / 4 < r)) :
    beta_scaling (scenario_state k (rm.set (k % 4) r) out (res.set (k % 4) r) y b f) = 4 / 5 := by
  have hk : k % 4 < 4 := Nat.mod_lt _ (by decide)
  unfold beta_scaling
  simp only [scenario_state, idx_hist, rmse_avg_eq, List.length_set, hrm]
  rw [getD_set_eq _ _ _ _ (by omega)]
  by_cases h4 : 4 < k
  · rw [if_pos h4, if_neg]
    intro h
    exact havg ⟨h4, by simpa using h⟩
  · rw [if_neg h4]

/-- The mode selection on entry with the state of `scenario_record`. -/
theorem scenario_cond (k : ℕ) (rm out res : List ℚ) (y b f r : ℚ) (hrm : rm.length = 4) :
    quasi_newton_cond (scenario_state k (rm.set (k % 4) r) out (res.set (k % 4) r) y b f) = true
      ↔ 1 < min k 4 ∧ r < 1 / 1000 := by
  have hk : k % 4 < 4 := Nat.mod_lt _ (by decide)
  rw [quasi_newton_cond_eq_true_iff]
  simp only [scenario_state, idx_hist]
  rw [getD_set_eq _ _ _ _ (by omega)]
  constructor
  · rintro (⟨h1, h2, _⟩ | ⟨h1, _⟩)
    · exact ⟨h1, h2⟩
    · norm_num at h1
  · rintro ⟨h1, h2⟩
    exact Or.inl ⟨h1, h2, by norm_num⟩

/-- An iteration of the scalar scenario in which the quasi-Newton block is skipped and the step
size is kept. -/
theorem scenario_linear_step (sqrt : ℚ → ℚ) (hsqrt : ∀ q : ℚ, sqrt (q * q) = |q|)
    (k : ℕ) (rm out res : List ℚ) (inp b f x y r x' : ℚ)
    (hrm : rm.length = 4) (hout : out.length = 4) (hres : res.length = 4)
    (hx : out.getD (k % 4) 0 = x) (hy : scenario_f x = y) (hr : y - x = r) (hr0 : 0 ≤ r)
    (hskip : ¬ (1 < min k 4 ∧ r < 1 / 1000))
    (havg : ¬ (4 < k ∧ (rm.set (k % 4) r).sum / 4 < r))
    (hx' : 4 / 5 * y + 1 / 5 * x = x') :
    iteration sqrt scalar_prop single_process scenario_f (scenario_state k rm out res inp b f)
      = scenario_state (k + 1) (rm.set (k % 4) r) (out.set ((k + 1) % 4) x')
          (res.set (k % 4) r) y b f := by
  unfold iteration mix
  rw [scenario_record sqrt hsqrt k rm out res inp b f x y r hres hx hy hr hr0]
  rw [mix_impl_eq scalar_prop single_process _ (4 / 5) y (scenario_beta k rm out res y b f r hrm havg)]
  · have hne : (k + 1) % 4 ≠ k % 4 := idx_hist_succ_ne 4 k (by decide)
    simp only [scenario_state, idx_hist]
    rw [final_blend_eq_set _ _ _ _ _ hne (by rw [hout]; exact Nat.mod_lt _ (by decide))]
    simp only [hx, smul_eq_mul]
    rw [show (4 / 5 : ℚ) * y + (1 - 4 / 5) * x = x' by rw [← hx']; ring]
  · rw [if_neg]
    · rfl
    · intro h
      exact hskip ((scenario_cond k rm out res y b f r hrm).1 h)

end scenario_steps

section scenario_steps2

/-- An iteration of the scalar scenario with a full history in which the quasi-Newton block is
taken and the step size is kept. -/
theorem scenario_newton_step (sqrt : ℚ → ℚ) (hsqrt : ∀ q : ℚ, sqrt (q * q) = |q|)
    (k : ℕ) (rm out res : List ℚ) (inp b f x y r R2 R3 X2 X3 xt x' : ℚ)
    (hrm : rm.length = 4) (hout : out.length = 4) (hres : res.length = 4) (hk4 : 4 ≤ k)
    (hx : out.getD (k % 4) 0 = x) (hy : scenario_f x = y) (hr : y - x = r) (hr0 : 0 ≤ r)
    (hrun : r < 1 / 1000)
    (havg : ¬ (4 < k ∧ (rm.set (k % 4) r).sum / 4 < r))
    (hR2 : (res.set (k % 4) r).getD ((k - 4 + 2) % 4) 0 = R2)
    (hR3 : (res.set (k % 4) r).getD ((k - 4 + 3) % 4) 0 = R3)
    (hX2 : out.getD ((k - 4 + 2) % 4) 0 = X2)
    (hX3 : out.getD ((k - 4 + 3) % 4) 0 = X3)
    (hne : R3 ≠ R2)
    (hxt : X3 - R3 * (X3 - X2) / (R3 - R2) = xt)
    (hx' : 4 / 5 * xt + 1 / 5 * x = x') :
    iteration sqrt scalar_prop single_process scenario_f (scenario_state k rm out res inp b f)
      = scenario_state (k + 1) (rm.set (k % 4) r) (out.set ((k + 1) % 4) x')
          (res.set (k % 4) r) xt b f := by
  unfold iteration mix
  rw [scenario_record sqrt hsqrt k rm out res inp b f x y r hres hx hy hr hr0]
  rw [mix_impl_eq scalar_prop single_process _ (4 / 5) xt
    (scenario_beta k rm out res y b f r hrm havg)]
  · have hne4 : (k + 1) % 4 ≠ k % 4 := idx_hist_succ_ne 4 k (by decide)
    simp only [scenario_state, idx_hist]
    rw [final_blend_eq_set _ _ _ _ _ hne4 (by rw [hout]; exact Nat.mod_lt _ (by decide))]
    simp only [hx, smul_eq_mul]
    rw [show (4 / 5 : ℚ) * xt + (1 - 4 / 5) * x = x' by rw [← hx']; ring]
  · have hm : history_size
        (scenario_state k (rm.set (k % 4) r) out (res.set (k % 4) r) y b f) = 4 :=
      min_eq_right hk4
    rw [if_pos ((scenario_cond k rm out res y b f r hrm).2
      ⟨by rw [min_eq_right hk4]; decide, hrun⟩)]
    rw [quasi_newton_update_scalar]
    · rw [hm]
      simp only [scenario_state, window_residual, idx_hist]
      rw [show (4 : ℕ) - 1 = 3 by rfl, show (4 : ℕ) - 2 = 2 by rfl, hR2, hR3, hX2, hX3]
      exact hxt
    · rw [hm]
      decide
    · rw [hm]
      simp only [scenario_state, window_residual, idx_hist]
      rw [show (4 : ℕ) - 1 = 3 by rfl, show (4 : ℕ) - 2 = 2 by rfl, hR2, hR3]
      exact hne

end scenario_steps2

theorem scenario_step_0 (sqrt : ℚ → ℚ) (hsqrt : ∀ q : ℚ, sqrt (q * q) = |q|) (b f : ℚ) :
    iteration sqrt scalar_prop single_process scenario_f (scenario_trace b f 0)
      = scenario_trace b f 1 :=
  scenario_linear_step sqrt hsqrt 0
    [0, 0, 0, 0]
    [0, 0, 0, 0]
    [0, 0, 0, 0]
    (0) b f (0) (1 / 2) (1 / 2) (2 / 5)
    rfl rfl rfl rfl (by norm_num [scenario_f]) (by norm_num) (by norm_num) (by norm_num)
    (by norm_num) (by norm_num)

theorem scenario_step_1 (sqrt : ℚ → ℚ) (hsqrt : ∀ q : ℚ, sqrt (q * q) = |q|) (b f : ℚ) :
    iteration sqrt scalar_prop single_process scenario_f (scenario_trace b f 1)
      = scenario_trace b f 2 :=
  scenario_linear_step sqrt hsqrt 1
    [1 / 2, 0, 0, 0]
    [0, 2 / 5, 0, 0]
    [1 / 2, 0, 0, 0]
    (1 / 2) b f (2 / 5) (31 / 50) (11 / 50) (72 / 125)
    rfl rfl rfl rfl (by norm_num [scenario_f]) (by norm_num) (by norm_num) (by norm_num)
    (by norm_num) (by norm_num)

theorem scenario_step_2 (sqrt : ℚ → ℚ) (hsqrt : ∀ q : ℚ, sqrt (q * q) = |q|) (b f : ℚ) :
    iteration sqrt scalar_prop single_process scenario_f (scenario_trace b f 2)
      = scenario_trace b f 3 :=
  scenario_linear_step sqrt hsqrt 2
    [1 / 2, 11 / 50, 0, 0]
    [0, 2 / 5, 72 / 125, 0]
    [1 / 2, 11 / 50, 0, 0]
    (31 / 50) b f (72 / 125) (841 / 1250) (121 / 1250) (2042 / 3125)
    rfl rfl rfl rfl (by norm_num [scenario_f]) (by norm_num) (by norm_num) (by norm_num)
    (by norm_num) (by norm_num)

theorem scenario_step_3 (sqrt : ℚ → ℚ) (hsqrt : ∀ q : ℚ, sqrt (q * q) = |q|) (b f : ℚ) :
    iteration sqrt scalar_prop single_process scenario_f (scenario_trace b f 3)
      = scenario_trace b f 4 :=
  scenario_linear_step sqrt hsqrt 3
    [1 / 2, 11 / 50, 121 / 1250, 0]
    [0, 2 / 5, 72 / 125, 2042 / 3125]
    [1 / 2, 11 / 50, 121 / 1250, 0]
    (841 / 1250) b f (2042 / 3125) (21751 / 31250) (1331 / 31250) (53712 / 78125)
    rfl rfl rfl rfl (by norm_num [scenario_f]) (by norm_num) (by norm_num) (by norm_num)
    (by norm_num) (by norm_num)

theorem scenario_step_4 (sqrt : ℚ → ℚ) (hsqrt : ∀ q : ℚ, sqrt (q * q) = |q|) (b f : ℚ) :
    iteration sqrt scalar_prop single_process scenario_f (scenario_trace b f 4)
      = scenario_trace b f 5 :=
  scenario_linear_step sqrt hsqrt 4
    [1 / 2, 11 / 50, 121 / 1250, 1331 / 31250]
    [53712 / 78125, 2 / 5, 72 / 125, 2042 / 3125]
    [1 / 2, 11 / 50, 121 / 1250, 1331 / 31250]
    (21751 / 31250) b f (53712 / 78125) (551761 / 781250) (14641 / 781250) (1372082 / 1953125)
    rfl rfl rfl rfl (by norm_num [scenario_f]) (by norm_num) (by norm_num) (by norm_num)
    (by norm_num) (by norm_num)

theorem scenario_step_5 (sqrt : ℚ → ℚ) (hsqrt : ∀ q : ℚ, sqrt (q * q) = |q|) (b f : ℚ) :
    iteration sqrt scalar_prop single_process scenario_f (scenario_trace b f 5)
      = scenario_trace b f 6 :=
  scenario_linear_step sqrt hsqrt 5
    [14641 / 781250, 11 / 50, 121 / 1250, 1331 / 31250]
    [53712 / 78125, 1372082 / 1953125, 72 / 125, 2042 / 3125]
    [14641 / 781250, 11 / 50, 121 / 1250, 1331 / 31250]
    (551761 / 781250) b f (1372082 / 1953125) (13881871 / 19531250) (161051 / 19531250) (34624152 / 48828125)
    rfl rfl rfl rfl (by norm_num [scenario_f]) (by norm_num) (by norm_num) (by norm_num)
    (by norm_num) (by norm_num)

theorem scenario_step_6 (sqrt : ℚ → ℚ) (hsqrt : ∀ q : ℚ, sqrt (q * q) = |q|) (b f : ℚ) :
    iteration sqrt scalar_prop single_process scenario_f (scenario_trace b f 6)
      = scenario_trace b f 7 :=
  scenario_linear_step sqrt hsqrt 6
    [14641 / 781250, 161051 / 19531250, 121 / 1250, 1331 / 31250]
    [53712 / 78125, 1372082 / 1953125, 34624152 / 48828125, 2042 / 3125]
    [14641 / 781250, 161051 / 19531250, 121 / 1250, 1331 / 31250]
    (13881871 / 19531250) b f (34624152 / 48828125) (348013081 / 488281250) (1771561 / 488281250) (869146922 / 1220703125)
    rfl rfl rfl rfl (by norm_num [scenario_f]) (by norm_num) (by norm_num) (by norm_num)
    (by norm_num) (by norm_num)

theorem scenario_step_7 (sqrt : ℚ → ℚ) (hsqrt : ∀ q : ℚ, sqrt (q * q) = |q|) (b f : ℚ) :
    iteration sqrt scalar_prop single_process scenario_f (scenario_trace b f 7)
      = scenario_trace b f 8 :=
  scenario_linear_step sqrt hsqrt 7
    [14641 / 781250, 161051 / 19531250, 1771561 / 488281250, 1331 / 31250]
    [53712 / 78125, 1372082 / 1953125, 34624152 / 48828125, 869146922 / 1220703125]
    [14641 / 781250, 161051 / 19531250, 1771561 / 488281250, 1331 / 31250]
    (348013081 / 488281250) b f (869146922 / 1220703125) (8710956391 / 12207031250) (19487171 / 12207031250) (21767647392 / 30517578125)
    rfl rfl rfl rfl (by norm_num [scenario_f]) (by norm_num) (by norm_num) (by norm_num)
    (by norm_num) (by norm_num)

theorem scenario_step_8 (sqrt : ℚ → ℚ) (hsqrt : ∀ q : ℚ, sqrt (q * q) = |q|) (b f : ℚ) :
    iteration sqrt scalar_prop single_process scenario_f (scenario_trace b f 8)
      = scenario_trace b f 9 :=
  scenario_newton_step sqrt hsqrt 8
    [14641 / 781250, 161051 / 19531250, 1771561 / 488281250, 19487171 / 12207031250]
    [21767647392 / 30517578125, 1372082 / 1953125, 34624152 / 48828125, 869146922 / 1220703125]
    [14641 / 781250, 161051 / 19531250, 1771561 / 488281250, 19487171 / 12207031250]
    (8710956391 / 12207031250) b f (21767647392 / 30517578125) (217890832801 / 305175781250) (214358881 / 305175781250)
    (1771561 / 488281250) (19487171 / 12207031250) (34624152 / 48828125) (869146922 / 1220703125) (5 / 7) (762725094244 / 1068115234375)
    rfl rfl rfl (by decide) rfl (by norm_num [scenario_f]) (by norm_num) (by norm_num) (by norm_num)
    (by norm_num) rfl rfl rfl rfl (by norm_num) (by norm_num) (by norm_num)

theorem scenario_step_9 (sqrt : ℚ → ℚ) (hsqrt : ∀ q : ℚ, sqrt (q * q) = |q|) (b f : ℚ) :
    iteration sqrt scalar_prop single_process scenario_f (scenario_trace b f 9)
      = scenario_trace b f 10 :=
  scenario_newton_step sqrt hsqrt 9
    [214358881 / 305175781250, 161051 / 19531250, 1771561 / 488281250, 19487171 / 12207031250]
    [21767647392 / 30517578125, 762725094244 / 1068115234375, 34624152 / 48828125, 869146922 / 1220703125]
    [214358881 / 305175781250, 161051 / 19531250, 1771561 / 488281250, 19487171 / 12207031250]
    (5 / 7) b f (762725094244 / 1068115234375) (7628751454607 / 10681152343750) (214358881 / 1525878906250)
    (19487171 / 12207031250) (214358881 / 305175781250) (869146922 / 1220703125) (21767647392 / 30517578125) (5 / 7) (3814482906744 / 5340576171875)
    rfl rfl rfl (by decide) rfl (by norm_num [scenario_f]) (by norm_num) (by norm_num) (by norm_num)
    (by norm_num) rfl rfl rfl rfl (by norm_num) (by norm_num) (by norm_num)

theorem scenario_succ (sqrt : ℚ → ℚ) (b f : ℚ) (n : ℕ) :
    scenario sqrt b f (n + 1)
      = iteration sqrt scalar_prop single_process scenario_f (scenario sqrt b f n) := rfl

/-- The scenario follows the trace during its ten iterations. -/
theorem scenario_eq_trace (sqrt : ℚ → ℚ) (hsqrt : ∀ q : ℚ, sqrt (q * q) = |q|) (b f : ℚ)
    (n : ℕ) (hn : n ≤ 10) : scenario sqrt b f n = scenario_trace b f n := by
  have h0 : scenario sqrt b f 0 = scenario_trace b f 0 := rfl
  have h1 : scenario sqrt b f 1 = scenario_trace b f 1 := by
    rw [scenario_succ, h0, scenario_step_0 sqrt hsqrt]
  have h2 : scenario sqrt b f 2 = scenario_trace b f 2 := by
    rw [scenario_succ, h1, scenario_step_1 sqrt hsqrt]
  have h3 : scenario sqrt b f 3 = scenario_trace b f 3 := by
    rw [scenario_succ, h2, scenario_step_2 sqrt hsqrt]
  have h4 : scenario sqrt b f 4 = scenario_trace b f 4 := by
    rw [scenario_succ, h3, scenario_step_3 sqrt hsqrt]
  have h5 : scenario sqrt b f 5 = scenario_trace b f 5 := by
    rw [scenario_succ, h4, scenario_step_4 sqrt hsqrt]
  have h6 : scenario sqrt b f 6 = scenario_trace b f 6 := by
    rw [scenario_succ, h5, scenario_step_5 sqrt hsqrt]
  have h7 : scenario sqrt b f 7 = scenario_trace b f 7 := by
    rw [scenario_succ, h6, scenario_step_6 sqrt hsqrt]
  have h8 : scenario sqrt b f 8 = scenario_trace b f 8 := by
    rw [scenario_succ, h7, scenario_step_7 sqrt hsqrt]
  have h9 : scenario sqrt b f 9 = scenario_trace b f 9 := by
    rw [scenario_succ, h8, scenario_step_8 sqrt hsqrt]
  have h10 : scenario sqrt b f 10 = scenario_trace b f 10 := by
    rw [scenario_succ, h9, scenario_step_9 sqrt hsqrt]
  interval_cases n
  · exact h0
  · exact h1
  · exact h2
  · exact h3
  · exact h4
  · exact h5
  · exact h6
  · exact h7
  · exact h8
  · exact h9
  · exact h10

theorem scenario_entry_0 (sqrt : ℚ → ℚ) (hsqrt : ∀ q : ℚ, sqrt (q * q) = |q|) (b f : ℚ) :
    scenario_rmse sqrt b f 0 = 1 / 2
      ∧ quasi_newton_cond (scenario_entry sqrt b f 0) = false := by
  have he : scenario_entry sqrt b f 0
      = scenario_state 0 ([0, 0, 0, 0].set (0 % 4) (1 / 2))
          [0, 0, 0, 0]
          ([0, 0, 0, 0].set (0 % 4) (1 / 2))
          (1 / 2) b f := by
    unfold scenario_entry
    rw [scenario_eq_trace sqrt hsqrt b f 0 (by decide)]
    exact scenario_record sqrt hsqrt 0 _ _ _ _ b f (0) (1 / 2) (1 / 2) rfl rfl
      (by norm_num [scenario_f]) (by norm_num) (by norm_num)
  refine ⟨?_, ?_⟩
  · unfold scenario_rmse
    rw [he]
    rfl
  · rw [he]
    rw [← Bool.not_eq_true, scenario_cond 0 [0, 0, 0, 0] _ _ _ _ _ _ rfl]
    norm_num

theorem scenario_entry_1 (sqrt : ℚ → ℚ) (hsqrt : ∀ q : ℚ, sqrt (q * q) = |q|) (b f : ℚ) :
    scenario_rmse sqrt b f 1 = 11 / 50
      ∧ quasi_newton_cond (scenario_entry sqrt b f 1) = false := by
  have he : scenario_entry sqrt b f 1
      = scenario_state 1 ([1 / 2, 0, 0, 0].set (1 % 4) (11 / 50))
          [0, 2 / 5, 0, 0]
          ([1 / 2, 0, 0, 0].set (1 % 4) (11 / 50))
          (31 / 50) b f := by
    unfold scenario_entry
    rw [scenario_eq_trace sqrt hsqrt b f 1 (by decide)]
    exact scenario_record sqrt hsqrt 1 _ _ _ _ b f (2 / 5) (31 / 50) (11 / 50) rfl rfl
      (by norm_num [scenario_f]) (by norm_num) (by norm_num)
  refine ⟨?_, ?_⟩
  · unfold scenario_rmse
    rw [he]
    rfl
  · rw [he]
    rw [← Bool.not_eq_true, scenario_cond 1 [1 / 2, 0, 0, 0] _ _ _ _ _ _ rfl]
    norm_num

theorem scenario_entry_2 (sqrt : ℚ → ℚ) (hsqrt : ∀ q : ℚ, sqrt (q * q) = |q|) (b f : ℚ) :
    scenario_rmse sqrt b f 2 = 121 / 1250
      ∧ quasi_newton_cond (scenario_entry sqrt b f 2) = false := by
  have he : scenario_entry sqrt b f 2
      = scenario_state 2 ([1 / 2, 11 / 50, 0, 0].set (2 % 4) (121 / 1250))
          [0, 2 / 5, 72 / 125, 0]
          ([1 / 2, 11 / 50, 0, 0].set (2 % 4) (121 / 1250))
          (841 / 1250) b f := by
    unfold scenario_entry
    rw [scenario_eq_trace sqrt hsqrt b f 2 (by decide)]
    exact scenario_record sqrt hsqrt 2 _ _ _ _ b f (72 / 125) (841 / 1250) (121 / 1250) rfl rfl
      (by norm_num [scenario_f]) (by norm_num) (by norm_num)
  refine ⟨?_, ?_⟩
  · unfold scenario_rmse
    rw [he]
    rfl
  · rw [he]
    rw [← Bool.not_eq_true, scenario_cond 2 [1 / 2, 11 / 50, 0, 0] _ _ _ _ _ _ rfl]
    norm_num

theorem scenario_entry_3 (sqrt : ℚ → ℚ) (hsqrt : ∀ q : ℚ, sqrt (q * q) = |q|) (b f : ℚ) :
    scenario_rmse sqrt b f 3 = 1331 / 31250
      ∧ quasi_newton_cond (scenario_entry sqrt b f 3) = false := by
  have he : scenario_entry sqrt b f 3
      = scenario_state 3 ([1 / 2, 11 / 50, 121 / 1250, 0].set (3 % 4) (1331 / 31250))
          [0, 2 / 5, 72 / 125, 2042 / 3125]
          ([1 / 2, 11 / 50, 121 / 1250, 0].set (3 % 4) (1331 / 31250))
          (21751 / 31250) b f := by
    unfold scenario_entry
    rw [scenario_eq_trace sqrt hsqrt b f 3 (by decide)]
    exact scenario_record sqrt hsqrt 3 _ _ _ _ b f (2042 / 3125) (21751 / 31250) (1331 / 31250) rfl rfl
      (by norm_num [scenario_f]) (by norm_num) (by norm_num)
  refine ⟨?_, ?_⟩
  · unfold scenario_rmse
    rw [he]
    rfl
  · rw [he]
    rw [← Bool.not_eq_true, scenario_cond 3 [1 / 2, 11 / 50, 121 / 1250, 0] _ _ _ _ _ _ rfl]
    norm_num

theorem scenario_entry_4 (sqrt : ℚ → ℚ) (hsqrt : ∀ q : ℚ, sqrt (q * q) = |q|) (b f : ℚ) :
    scenario_rmse sqrt b f 4 = 14641 / 781250
      ∧ quasi_newton_cond (scenario_entry sqrt b f 4) = false := by
  have he : scenario_entry sqrt b f 4
      = scenario_state 4 ([1 / 2, 11 / 50, 121 / 1250, 1331 / 31250].set (4 % 4) (14641 / 781250))
          [53712 / 78125, 2 / 5, 72 / 125, 2042 / 3125]
          ([1 / 2, 11 / 50, 121 / 1250, 1331 / 31250].set (4 % 4) (14641 / 781250))
          (551761 / 781250) b f := by
    unfold scenario_entry
    rw [scenario_eq_trace sqrt hsqrt b f 4 (by decide)]
    exact scenario_record sqrt hsqrt 4 _ _ _ _ b f (53712 / 78125) (551761 / 781250) (14641 / 781250) rfl rfl
      (by norm_num [scenario_f]) (by norm_num) (by norm_num)
  refine ⟨?_, ?_⟩
  · unfold scenario_rmse
    rw [he]
    rfl
  · rw [he]
    rw [← Bool.not_eq_true, scenario_cond 4 [1 / 2, 11 / 50, 121 / 1250, 1331 / 31250] _ _ _ _ _ _ rfl]
    norm_num

theorem scenario_entry_5 (sqrt : ℚ → ℚ) (hsqrt : ∀ q : ℚ, sqrt (q * q) = |q|) (b f : ℚ) :
    scenario_rmse sqrt b f 5 = 161051 / 19531250
      ∧ quasi_newton_cond (scenario_entry sqrt b f 5) = false := by
  have he : scenario_entry sqrt b f 5
      = scenario_state 5 ([14641 / 781250, 11 / 50, 121 / 1250, 1331 / 31250].set (5 % 4) (161051 / 19531250))
          [53712 / 78125, 1372082 / 1953125, 72 / 125, 2042 / 3125]
          ([14641 / 781250, 11 / 50, 121 / 1250, 1331 / 31250].set (5 % 4) (161051 / 19531250))
          (13881871 / 19531250) b f := by
    unfold scenario_entry
    rw [scenario_eq_trace sqrt hsqrt b f 5 (by decide)]
    exact scenario_record sqrt hsqrt 5 _ _ _ _ b f (1372082 / 1953125) (13881871 / 19531250) (161051 / 19531250) rfl rfl
      (by norm_num [scenario_f]) (by norm_num) (by norm_num)
  refine ⟨?_, ?_⟩
  · unfold scenario_rmse
    rw [he]
    rfl
  · rw [he]
    rw [← Bool.not_eq_true, scenario_cond 5 [14641 / 781250, 11 / 50, 121 / 1250, 1331 / 31250] _ _ _ _ _ _ rfl]
    norm_num

theorem scenario_entry_6 (sqrt : ℚ → ℚ) (hsqrt : ∀ q : ℚ, sqrt (q * q) = |q|) (b f : ℚ) :
    scenario_rmse sqrt b f 6 = 1771561 / 488281250
      ∧ quasi_newton_cond (scenario_entry sqrt b f 6) = false := by
  have he : scenario_entry sqrt b f 6
      = scenario_state 6 ([14641 / 781250, 161051 / 19531250, 121 / 1250, 1331 / 31250].set (6 % 4) (1771561 / 488281250))
          [53712 / 78125, 1372082 / 1953125, 34624152 / 48828125, 2042 / 3125]
          ([14641 / 781250, 161051 / 19531250, 121 / 1250, 1331 / 31250].set (6 % 4) (1771561 / 488281250))
          (348013081 / 488281250) b f := by
    unfold scenario_entry
    rw [scenario_eq_trace sqrt hsqrt b f 6 (by decide)]
    exact scenario_record sqrt hsqrt 6 _ _ _ _ b f (34624152 / 48828125) (348013081 / 488281250) (1771561 / 488281250) rfl rfl
      (by norm_num [scenario_f]) (by norm_num) (by norm_num)
  refine ⟨?_, ?_⟩
  · unfold scenario_rmse
    rw [he]
    rfl
  · rw [he]
    rw [← Bool.not_eq_true, scenario_cond 6 [14641 / 781250, 161051 / 19531250, 121 / 1250, 1331 / 31250] _ _ _ _ _ _ rfl]
    norm_num

theorem scenario_entry_7 (sqrt : ℚ → ℚ) (hsqrt : ∀ q : ℚ, sqrt (q * q) = |q|) (b f : ℚ) :
    scenario_rmse sqrt b f 7 = 19487171 / 12207031250
      ∧ quasi_newton_cond (scenario_entry sqrt b f 7) = false := by
  have he : scenario_entry sqrt b f 7
      = scenario_state 7 ([14641 / 781250, 161051 / 19531250, 1771561 / 488281250, 1331 / 31250].set (7 % 4) (19487171 / 12207031250))
          [53712 / 78125, 1372082 / 1953125, 34624152 / 48828125, 869146922 / 1220703125]
          ([14641 / 781250, 161051 / 19531250, 1771561 / 488281250, 1331 / 31250].set (7 % 4) (19487171 / 12207031250))
          (8710956391 / 12207031250) b f := by
    unfold scenario_entry
    rw [scenario_eq_trace sqrt hsqrt b f 7 (by decide)]
    exact scenario_record sqrt hsqrt 7 _ _ _ _ b f (869146922 / 1220703125) (8710956391 / 12207031250) (19487171 / 12207031250) rfl rfl
      (by norm_num [scenario_f]) (by norm_num) (by norm_num)
  refine ⟨?_, ?_⟩
  · unfold scenario_rmse
    rw [he]
    rfl
  · rw [he]
    rw [← Bool.not_eq_true, scenario_cond 7 [14641 / 781250, 161051 / 19531250, 1771561 / 488281250, 1331 / 31250] _ _ _ _ _ _ rfl]
    norm_num

theorem scenario_entry_8 (sqrt : ℚ → ℚ) (hsqrt : ∀ q : ℚ, sqrt (q * q) = |q|) (b f : ℚ) :
    scenario_rmse sqrt b f 8 = 214358881 / 305175781250
      ∧ quasi_newton_cond (scenario_entry sqrt b f 8) = true := by
  have he : scenario_entry sqrt b f 8
      = scenario_state 8 ([14641 / 781250, 161051 / 19531250, 1771561 / 488281250, 19487171 / 12207031250].set (8 % 4) (214358881 / 305175781250))
          [21767647392 / 30517578125, 1372082 / 1953125, 34624152 / 48828125, 869146922 / 1220703125]
          ([14641 / 781250, 161051 / 19531250, 1771561 / 488281250, 19487171 / 12207031250].set (8 % 4) (214358881 / 305175781250))
          (217890832801 / 305175781250) b f := by
    unfold scenario_entry
    rw [scenario_eq_trace sqrt hsqrt b f 8 (by decide)]
    exact scenario_record sqrt hsqrt 8 _ _ _ _ b f (21767647392 / 30517578125) (217890832801 / 305175781250) (214358881 / 305175781250) rfl rfl
      (by norm_num [scenario_f]) (by norm_num) (by norm_num)
  refine ⟨?_, ?_⟩
  · unfold scenario_rmse
    rw [he]
    rfl
  · rw [he]
    rw [scenario_cond 8 [14641 / 781250, 161051 / 19531250, 1771561 / 488281250, 19487171 / 12207031250] _ _ _ _ _ _ rfl]
    norm_num

theorem scenario_entry_9 (sqrt : ℚ → ℚ) (hsqrt : ∀ q : ℚ, sqrt (q * q) = |q|) (b f : ℚ) :
    scenario_rmse sqrt b f 9 = 214358881 / 1525878906250
      ∧ quasi_newton_cond (scenario_entry sqrt b f 9) = true := by
  have he : scenario_entry sqrt b f 9
      = scenario_state 9 ([214358881 / 305175781250, 161051 / 19531250, 1771561 / 488281250, 19487171 / 12207031250].set (9 % 4) (214358881 / 1525878906250))
          [21767647392 / 30517578125, 762725094244 / 1068115234375, 34624152 / 48828125, 869146922 / 1220703125]
          ([214358881 / 305175781250, 161051 / 19531250, 1771561 / 488281250, 19487171 / 12207031250].set (9 % 4) (214358881 / 1525878906250))
          (7628751454607 / 10681152343750) b f := by
    unfold scenario_entry
    rw [scenario_eq_trace sqrt hsqrt b f 9 (by decide)]
    exact scenario_record sqrt hsqrt 9 _ _ _ _ b f (762725094244 / 1068115234375) (7628751454607 / 10681152343750) (214358881 / 1525878906250) rfl rfl
      (by norm_num [scenario_f]) (by norm_num) (by norm_num)
  refine ⟨?_, ?_⟩
  · unfold scenario_rmse
    rw [he]
    rfl
  · rw [he]
    rw [scenario_cond 9 [214358881 / 305175781250, 161051 / 19531250, 1771561 / 488281250, 19487171 / 12207031250] _ _ _ _ _ _ rfl]
    norm_num

section claims_scenario

theorem scenario_guess_value (sqrt : ℚ → ℚ) (hsqrt : ∀ q : ℚ, sqrt (q * q) = |q|) (b f : ℚ) :
    next_guess (scenario sqrt b f 10) = 3814482906744 / 5340576171875 := by
  rw [scenario_eq_trace sqrt hsqrt b f 10 (le_refl _)]
  simp [next_guess, scenario_trace, scenario_state, idx_hist]

/-- C12, as stated, fails: in the end-to-end scalar scenario (`f(x) = 0.5 + 0.3 x`, `x0 = 0`,
`beta = 0.8`, `max_history = 4`, `linear_mix_rmse_tol = 1e-3`), with the floor `beta0 = 0.1` in
`(0, 0.8]` and `beta_scaling_factor = 0.5` in `(0, 1)`, the guess returned after 10 iterations is
not within `1e-6` of `5/7`. -/
theorem scenario_guess_not_converged :
    (0 < (1 / 10 : ℚ) ∧ (1 / 10 : ℚ) ≤ 4 / 5) ∧ (0 < (1 / 2 : ℚ) ∧ (1 / 2 : ℚ) < 1)
      ∧ ¬ (|next_guess (scenario Rat.sqrt (1 / 10) (1 / 2) 10) - 5 / 7| < 1 / 1000000) := by
  refine ⟨by norm_num, by norm_num, ?_⟩
  rw [scenario_guess_value Rat.sqrt Rat.sqrt_eq, abs_lt]
  norm_num

/-- C12, amended: in the end-to-end scalar scenario, for every square root that is exact on
squares and every `beta0` and `beta_scaling_factor`, the guess returned after 10 iterations is
`x = 3814482906744/5340576171875`, and `|x - 5/7| < 5e-5` (about `4.01e-5`). -/
theorem scenario_guess (sqrt : ℚ → ℚ) (hsqrt : ∀ q : ℚ, sqrt (q * q) = |q|) (b f : ℚ) :
    next_guess (scenario sqrt b f 10) = 3814482906744 / 5340576171875
      ∧ |next_guess (scenario sqrt b f 10) - 5 / 7| < 5 / 100000 := by
  refine ⟨scenario_guess_value sqrt hsqrt b f, ?_⟩
  rw [scenario_guess_value sqrt hsqrt b f, abs_lt]
  norm_num

/-- C12 amended, with `Rat.sqrt`, `beta0 = 0.1` and `beta_scaling_factor = 0.5`. -/
theorem scenario_guess_witness :
    next_guess (scenario Rat.sqrt (1 / 10) (1 / 2) 10) = 3814482906744 / 5340576171875
      ∧ |next_guess (scenario Rat.sqrt (1 / 10) (1 / 2) 10) - 5 / 7| < 5 / 100000 :=
  scenario_guess Rat.sqrt Rat.sqrt_eq (1 / 10) (1 / 2)

/-- C13: in the end-to-end scalar scenario the quasi-Newton block is first taken at iteration 8
(counting from 0) and is taken at iterations 8 and 9; from that iteration onward the recorded
rmse does not increase from one iteration to the next. -/
theorem scenario_rmse_monotone (sqrt : ℚ → ℚ) (hsqrt : ∀ q : ℚ, sqrt (q * q) = |q|) (b f : ℚ) :
    (∀ k, k < 10 → (quasi_newton_cond (scenario_entry sqrt b f k) = true ↔ 8 ≤ k))
      ∧ (∀ k, 8 ≤ k → k + 1 < 10 →
          scenario_rmse sqrt b f (k + 1) ≤ scenario_rmse sqrt b f k) := by
  constructor
  · intro k hk
    interval_cases k
    · simp [(scenario_entry_0 sqrt hsqrt b f).2]
    · simp [(scenario_entry_1 sqrt hsqrt b f).2]
    · simp [(scenario_entry_2 sqrt hsqrt b f).2]
    · simp [(scenario_entry_3 sqrt hsqrt b f).2]
    · simp [(scenario_entry_4 sqrt hsqrt b f).2]
    · simp [(scenario_entry_5 sqrt hsqrt b f).2]
    · simp [(scenario_entry_6 sqrt hsqrt b f).2]
    · simp [(scenario_entry_7 sqrt hsqrt b f).2]
    · simp [(scenario_entry_8 sqrt hsqrt b f).2]
    · simp [(scenario_entry_9 sqrt hsqrt b f).2]
  · intro k h8 h10
    have hk : k = 8 := by omega
    subst hk
    rw [(scenario_entry_8 sqrt hsqrt b f).1, (scenario_entry_9 sqrt hsqrt b f).1]
    norm_num

/-- C13, with `Rat.sqrt`, `beta0 = 0.1` and `beta_scaling_factor = 0.5`: the rmse recorded at
iteration 9 is not above the one recorded at iteration 8. -/
theorem scenario_rmse_monotone_witness :
    (quasi_newton_cond (scenario_entry Rat.sqrt (1 / 10) (1 / 2) 7) = true ↔ 8 ≤ 7)
      ∧ (quasi_newton_cond (scenario_entry Rat.sqrt (1 / 10) (1 / 2) 8) = true ↔ 8 ≤ 8)
      ∧ scenario_rmse Rat.sqrt (1 / 10) (1 / 2) (8 + 1) ≤ scenario_rmse Rat.sqrt (1 / 10) (1 / 2) 8 :=
  ⟨(scenario_rmse_monotone Rat.sqrt Rat.sqrt_eq (1 / 10) (1 / 2)).1 7 (by decide),
   (scenario_rmse_monotone Rat.sqrt Rat.sqrt_eq (1 / 10) (1 / 2)).1 8 (by decide),
   (scenario_rmse_monotone Rat.sqrt Rat.sqrt_eq (1 / 10) (1 / 2)).2 8 (le_refl _) (by decide)⟩

end claims_scenario

/-! ## The adapters, loop by loop -/

section list_loops

/-- An accumulation loop `result += t i`. -/
theorem forLoop_add (t : ℕ → ℚ) (r0 : ℚ) (n : ℕ) :
    forLoop n (fun i result => result + t i) r0 = r0 + ∑ i in Finset.range n, t i := by
  induction n with
  | zero => simp [forLoop]
  | succ n ih => rw [forLoop_succ, ih, Finset.sum_range_succ, add_assoc]

/-- Two nested accumulation loops. -/
theorem forLoop_add_nested (len : ℕ → ℕ) (t : ℕ → ℕ → ℚ) (r0 : ℚ) (n : ℕ) :
    forLoop n (fun a result => forLoop (len a) (fun i result => result + t a i) result) r0
      = r0 + ∑ a in Finset.range n, ∑ i in Finset.range (len a), t a i := by
  induction n with
  | zero => simp [forLoop]
  | succ n ih =>
    rw [forLoop_succ, ih, Finset.sum_range_succ, ← add_assoc]
    exact forLoop_add (t n) _ (len n)

/-- A loop `l[i] = g i l[i]` keeps the length of the array. -/
theorem forLoop_update_length {α : Type} (d : α) (g : ℕ → α → α) (l : List α) (n : ℕ) :
    (forLoop n (fun i l => l.set i (g i (l.getD i d))) l).length = l.length := by
  induction n with
  | zero => rfl
  | succ n ih => rw [forLoop_succ, List.length_set, ih]

/-- A loop `l[i] = g i l[i]`, entry by entry. -/
theorem forLoop_update_getD {α : Type} (d : α) (g : ℕ → α → α) (l : List α) (n j : ℕ) :
    (forLoop n (fun i l => l.set i (g i (l.getD i d))) l).getD j d
      = if j < n ∧ j < l.length then g j (l.getD j d) else l.getD j d := by
  induction n with
  | zero => simp [forLoop]
  | succ n ih =>
    rw [forLoop_succ]
    by_cases hj : n = j
    · subst hj
      have ihn : (forLoop n (fun i l => l.set i (g i (l.getD i d))) l).getD n d = l.getD n d := by
        rw [ih, if_neg (fun h => absurd h.1 (lt_irrefl _))]
      by_cases hl : n < l.length
      · rw [getD_set_eq _ _ _ _ (by rw [forLoop_update_length]; exact hl), ihn,
          if_pos ⟨Nat.lt_succ_self _, hl⟩]
      · rw [if_neg (fun h => hl h.2)]
        have hlen : (forLoop n (fun i l => l.set i (g i (l.getD i d))) l).length ≤ n := by
          rw [forLoop_update_length]; omega
        rw [List.set_eq_of_length_le hlen, ihn]
    · rw [getD_set_ne _ _ _ _ _ hj, ih]
      by_cases h : j < n ∧ j < l.length
      · rw [if_pos h, if_pos ⟨by omega, h.2⟩]
      · rw [if_neg h, if_neg]
        rintro ⟨h1, h2⟩
        exact h ⟨by omega, h2⟩

/-- Two arrays of the same length with the same entries are equal. -/
theorem list_ext_getD {α : Type} (d : α) (l1 l2 : List α) (hlen : l1.length = l2.length)
    (h : ∀ i, i < l1.length → l1.getD i d = l2.getD i d) : l1 = l2 := by
  apply List.ext_getElem hlen
  intro i h1 h2
  have := h i h1
  rwa [List.getD_eq_getElem _ _ h1, List.getD_eq_getElem _ _ h2] at this

end list_loops

section adapter_lemmas

theorem conj_mul_re (a b : double_complex) : (a.conj.mul b).re = a.re * b.re + a.im * b.im := by
  simp [double_complex.conj, double_complex.mul]

theorem of_real_conj_mul_re (a b : ℚ) :
    ((double_complex.of_real a).conj.mul (double_complex.of_real b)).re = a * b := by
  simp [double_complex.conj, double_complex.mul, double_complex.of_real]

theorem double_complex_zero_re : (0 : double_complex).re = 0 := rfl

theorem double_complex_zero_im : (0 : double_complex).im = 0 := rfl

theorem same_shape_f_mt_length (x y : Periodic_function) (h : x.same_shape y) :
    x.f_mt.length = y.f_mt.length := by
  have := congrArg List.length h.2.1
  simpa using this

theorem same_shape_block_length (x y : Periodic_function) (h : x.same_shape y) (a : ℕ) :
    (x.f_mt.getD a []).length = (y.f_mt.getD a []).length := by
  have h1 := congrArg (fun l => l.getD a ([] : List ℚ).length) h.2.1
  simp only [List.getD_map] at h1
  exact h1

/-- The inner product of the full-potential adapter as a sum. -/
theorem full_potential_inner_eq (x y : Periodic_function) :
    full_potential.inner_prod_func x y
      = ∑ i in Finset.range x.f_rg.length, x.f_rg.getD i 0 * y.f_rg.getD i 0
        + ∑ a in Finset.range x.f_mt.length,
            ∑ i in Finset.range (x.f_mt.getD a []).length,
              (x.f_mt.getD a []).getD i 0 * (y.f_mt.getD a []).getD i 0 := by
  unfold full_potential.inner_prod_func
  simp only [of_real_conj_mul_re]
  rw [forLoop_add_nested (fun a => (x.f_mt.getD a []).length)
    (fun a i => (x.f_mt.getD a []).getD i 0 * (y.f_mt.getD a []).getD i 0), forLoop_add, zero_add]

/-- The inner product of the pseudo-potential adapter as a sum. -/
theorem pseudo_potential_inner_eq (x y : Periodic_function) :
    pseudo_potential.inner_prod_func x y
      = ∑ i in Finset.range x.f_pw_local.length,
          ((x.f_pw_local.getD i 0).re * (y.f_pw_local.getD i 0).re
            + (x.f_pw_local.getD i 0).im * (y.f_pw_local.getD i 0).im) := by
  unfold pseudo_potential.inner_prod_func
  simp only [conj_mul_re]
  rw [forLoop_add, zero_add]

/-- The `axpy` loop on a real array, entry by entry. -/
theorem axpy_real_getD (alpha : ℚ) (xs ys : List ℚ) (h : xs.length = ys.length) (i : ℕ) :
    (forLoop xs.length (fun i l => l.set i (l.getD i 0 + alpha * xs.getD i 0)) ys).getD i 0
      = ys.getD i 0 + alpha * xs.getD i 0 := by
  refine (forLoop_update_getD 0 (fun i a => a + alpha * xs.getD i 0) ys xs.length i).trans ?_
  by_cases hi : i < xs.length
  · rw [if_pos ⟨hi, h ▸ hi⟩]
  · rw [if_neg (fun hh => hi hh.1)]
    have : xs.getD i 0 = 0 := by
      rw [List.getD_eq_getElem?_getD, List.getElem?_eq_none (by omega)]; rfl
    rw [this, mul_zero, add_zero]

theorem axpy_real_length (alpha : ℚ) (xs ys : List ℚ) :
    (forLoop xs.length (fun i l => l.set i (l.getD i 0 + alpha * xs.getD i 0)) ys).length
      = ys.length :=
  forLoop_update_length 0 (fun i a => a + alpha * xs.getD i 0) ys xs.length

/-- The `axpy` loop on a complex array, entry by entry. -/
theorem axpy_complex_getD (alpha : ℚ) (xs ys : List double_complex)
    (h : xs.length = ys.length) (i : ℕ) (hi : i < ys.length) :
    (forLoop xs.length (fun i l => l.set i ((l.getD i 0).add ((xs.getD i 0).scale alpha)))
        ys).getD i 0
      = (ys.getD i 0).add ((xs.getD i 0).scale alpha) := by
  refine (forLoop_update_getD 0 (fun i a => a.add ((xs.getD i 0).scale alpha))
    ys xs.length i).trans ?_
  rw [if_pos ⟨h ▸ hi, hi⟩]

theorem axpy_complex_length (alpha : ℚ) (xs ys : List double_complex) :
    (forLoop xs.length (fun i l => l.set i ((l.getD i 0).add ((xs.getD i 0).scale alpha)))
        ys).length = ys.length :=
  forLoop_update_length 0 (fun i a => a.add ((xs.getD i 0).scale alpha)) ys xs.length

/-- The muffin-tin part of `axpy_function` of the full-potential adapter, block by block. -/
theorem axpy_blocks_getD (alpha : ℚ) (x y : Periodic_function) (h : x.same_shape y) (a : ℕ) :
    (full_potential.axpy_function alpha x y).2.f_mt.getD a []
      = forLoop (x.f_mt.getD a []).length (fun i y_f_mt =>
          y_f_mt.set i (y_f_mt.getD i 0 + alpha * (x.f_mt.getD a []).getD i 0))
          (y.f_mt.getD a []) := by
  unfold full_potential.axpy_function
  refine (forLoop_update_getD [] (fun ialoc l =>
    forLoop (x.f_mt.getD ialoc []).length (fun i y_f_mt =>
      y_f_mt.set i (y_f_mt.getD i 0 + alpha * (x.f_mt.getD ialoc []).getD i 0)) l)
    y.f_mt x.f_mt.length a).trans ?_
  by_cases ha : a < x.f_mt.length
  · rw [if_pos ⟨ha, same_shape_f_mt_length x y h ▸ ha⟩]
  · rw [if_neg (fun hh => ha hh.1)]
    have hx : x.f_mt.getD a [] = [] := by
      rw [List.getD_eq_getElem?_getD, List.getElem?_eq_none (by omega)]; rfl
    rw [hx]
    rfl

theorem axpy_blocks_length (alpha : ℚ) (x y : Periodic_function) :
    (full_potential.axpy_function alpha x y).2.f_mt.length = y.f_mt.length := by
  unfold full_potential.axpy_function
  exact forLoop_update_length [] (fun ialoc l =>
    forLoop (x.f_mt.getD ialoc []).length (fun i y_f_mt =>
      y_f_mt.set i (y_f_mt.getD i 0 + alpha * (x.f_mt.getD ialoc []).getD i 0)) l) y.f_mt _

theorem axpy_block_entry (alpha : ℚ) (x y : Periodic_function) (h : x.same_shape y) (a i : ℕ) :
    ((full_potential.axpy_function alpha x y).2.f_mt.getD a []).getD i 0
      = (y.f_mt.getD a []).getD i 0 + alpha * (x.f_mt.getD a []).getD i 0 := by
  rw [axpy_blocks_getD alpha x y h a]
  exact axpy_real_getD alpha _ _ (same_shape_block_length x y h a) i

theorem axpy_block_length (alpha : ℚ) (x y : Periodic_function) (h : x.same_shape y) (a : ℕ) :
    ((full_potential.axpy_function alpha x y).2.f_mt.getD a []).length
      = (y.f_mt.getD a []).length := by
  rw [axpy_blocks_getD alpha x y h a]
  exact axpy_real_length alpha _ _

theorem axpy_f_rg_entry (alpha : ℚ) (x y : Periodic_function) (h : x.same_shape y) (i : ℕ) :
    (full_potential.axpy_function alpha x y).2.f_rg.getD i 0
      = y.f_rg.getD i 0 + alpha * x.f_rg.getD i 0 :=
  axpy_real_getD alpha _ _ h.1 i

theorem axpy_f_rg_length (alpha : ℚ) (x y : Periodic_function) :
    (full_potential.axpy_function alpha x y).2.f_rg.length = y.f_rg.length :=
  axpy_real_length alpha _ _

end adapter_lemmas

/-! ## Claims on the adapters -/

section claims_adapters

/-- C16: for each of the three adapters built in `mixer_functions.hpp`, for both values of the
flag `local` and all `x`, `y` of equal shape, `inner_product(x, y) = inner_product(y, x)`. -/
theorem adapters_inner_symmetric (is_local : Bool) :
    (∀ x y : Periodic_function, x.same_shape y →
        (full_potential_periodic_function_property is_local).inner x y
          = (full_potential_periodic_function_property is_local).inner y x)
      ∧ (∀ x y : Periodic_function, x.same_shape y →
        (pseudo_potential_periodic_function_property is_local).inner x y
          = (pseudo_potential_periodic_function_property is_local).inner y x)
      ∧ (∀ x y : List double_complex, x.length = y.length →
        (density_function_property is_local).inner x y
          = (density_function_property is_local).inner y x) := by
  refine ⟨fun x y h => ?_, fun x y h => ?_, fun x y _ => rfl⟩
  · show full_potential.inner_prod_func x y = full_potential.inner_prod_func y x
    rw [full_potential_inner_eq, full_potential_inner_eq, h.1, same_shape_f_mt_length x y h]
    congr 1
    · exact Finset.sum_congr rfl (fun i _ => mul_comm _ _)
    · apply Finset.sum_congr rfl
      intro a _
      rw [same_shape_block_length x y h a]
      exact Finset.sum_congr rfl (fun i _ => mul_comm _ _)
  · show pseudo_potential.inner_prod_func x y = pseudo_potential.inner_prod_func y x
    rw [pseudo_potential_inner_eq, pseudo_potential_inner_eq, h.2.2]
    exact Finset.sum_congr rfl (fun i _ => by ring)

/-- C17: bilinearity under `axpy`. For the pseudo-potential and the full-potential adapter, every
`alpha` and all `x`, `y`, `z` of equal shape, if `y'` is `y` after `axpy(alpha, x, y)`, then
`inner_product(y', z) = inner_product(y, z) + alpha * inner_product(x, z)`. -/
theorem adapters_inner_axpy (is_local : Bool) (alpha : ℚ) (x y z : Periodic_function)
    (hxy : x.same_shape y) (_hyz : y.same_shape z) :
    (pseudo_potential_periodic_function_property is_local).inner
          ((pseudo_potential_periodic_function_property is_local).axpy alpha x y).2 z
        = (pseudo_potential_periodic_function_property is_local).inner y z
          + alpha * (pseudo_potential_periodic_function_property is_local).inner x z
      ∧ (full_potential_periodic_function_property is_local).inner
          ((full_potential_periodic_function_property is_local).axpy alpha x y).2 z
        = (full_potential_periodic_function_property is_local).inner y z
          + alpha * (full_potential_periodic_function_property is_local).inner x z := by
  constructor
  · show pseudo_potential.inner_prod_func (pseudo_potential.axpy_function alpha x y).2 z
      = pseudo_potential.inner_prod_func y z + alpha * pseudo_potential.inner_prod_func x z
    have hlen : (pseudo_potential.axpy_function alpha x y).2.f_pw_local.length
        = y.f_pw_local.length := axpy_complex_length alpha _ _
    rw [pseudo_potential_inner_eq, pseudo_potential_inner_eq, pseudo_potential_inner_eq,
      hlen, hxy.2.2, Finset.mul_sum, ← Finset.sum_add_distrib]
    apply Finset.sum_congr rfl
    intro i hi
    have hi' : i < y.f_pw_local.length := Finset.mem_range.1 hi
    have he : (pseudo_potential.axpy_function alpha x y).2.f_pw_local.getD i 0
        = (y.f_pw_local.getD i 0).add ((x.f_pw_local.getD i 0).scale alpha) :=
      axpy_complex_getD alpha _ _ hxy.2.2 i hi'
    rw [he]
    simp only [double_complex.add, double_complex.scale]
    ring
  · show full_potential.inner_prod_func (full_potential.axpy_function alpha x y).2 z
      = full_potential.inner_prod_func y z + alpha * full_potential.inner_prod_func x z
    rw [full_potential_inner_eq, full_potential_inner_eq, full_potential_inner_eq,
      axpy_f_rg_length, axpy_blocks_length, hxy.1, same_shape_f_mt_length x y hxy]
    have h1 : ∑ i in Finset.range y.f_rg.length,
          (full_potential.axpy_function alpha x y).2.f_rg.getD i 0 * z.f_rg.getD i 0
        = ∑ i in Finset.range y.f_rg.length, y.f_rg.getD i 0 * z.f_rg.getD i 0
          + alpha * ∑ i in Finset.range y.f_rg.length, x.f_rg.getD i 0 * z.f_rg.getD i 0 := by
      rw [Finset.mul_sum, ← Finset.sum_add_distrib]
      apply Finset.sum_congr rfl
      intro i _
      rw [axpy_f_rg_entry alpha x y hxy]
      ring
    have h2 : ∑ a in Finset.range y.f_mt.length,
          ∑ i in Finset.range ((full_potential.axpy_function alpha x y).2.f_mt.getD a []).length,
            ((full_potential.axpy_function alpha x y).2.f_mt.getD a []).getD i 0
              * (z.f_mt.getD a []).getD i 0
        = ∑ a in Finset.range y.f_mt.length,
            ∑ i in Finset.range (y.f_mt.getD a []).length,
              (y.f_mt.getD a []).getD i 0 * (z.f_mt.getD a []).getD i 0
          + alpha * ∑ a in Finset.range y.f_mt.length,
              ∑ i in Finset.range (x.f_mt.getD a []).length,
                (x.f_mt.getD a []).getD i 0 * (z.f_mt.getD a []).getD i 0 := by
      rw [Finset.mul_sum, ← Finset.sum_add_distrib]
      apply Finset.sum_congr rfl
      intro a _
      rw [axpy_block_length alpha x y hxy a, same_shape_block_length x y hxy a,
        Finset.mul_sum, ← Finset.sum_add_distrib]
      apply Finset.sum_congr rfl
      intro i _
      rw [axpy_block_entry alpha x y hxy]
      ring
    rw [h1, h2]
    ring

end claims_adapters

section claims_adapters2

/-- C17, at `alpha = 2` and the periodic functions `pf_x`, `pf_y`, `pf_z`: for the
pseudo-potential adapter both sides are `16`. -/
theorem adapters_inner_axpy_witness :
    (pseudo_potential_periodic_function_property true).inner
          ((pseudo_potential_periodic_function_property true).axpy 2 pf_x pf_y).2 pf_z
        = (pseudo_potential_periodic_function_property true).inner pf_y pf_z
          + 2 * (pseudo_potential_periodic_function_property true).inner pf_x pf_z
      ∧ (full_potential_periodic_function_property true).inner
          ((full_potential_periodic_function_property true).axpy 2 pf_x pf_y).2 pf_z
        = (full_potential_periodic_function_property true).inner pf_y pf_z
          + 2 * (full_potential_periodic_function_property true).inner pf_x pf_z :=
  adapters_inner_axpy true 2 pf_x pf_y pf_z ⟨rfl, rfl, rfl⟩ ⟨rfl, rfl, rfl⟩

theorem periodic_function_eq (y : Periodic_function) (f_rg : List ℚ) (f_mt : List (List ℚ))
    (h1 : f_rg = y.f_rg) (h2 : f_mt = y.f_mt) :
    ({ y with f_rg := f_rg, f_mt := f_mt } : Periodic_function) = y := by
  subst h1 h2
  rfl

/-- C18: for each adapter of `mixer_functions.hpp`, `axpy(alpha, x, y)` with `x` and `y` of equal
shape sets every element `y[i]` to `y[i] + alpha * x[i]`, keeps the shape of `y` and leaves `x`
unchanged; and `axpy(0, x, y)` leaves `y` unchanged. -/
theorem adapters_axpy (is_local : Bool) (alpha : ℚ) :
    (∀ x y : Periodic_function, x.same_shape y →
        ((full_potential_periodic_function_property is_local).axpy alpha x y).1 = x
          ∧ (∀ i, ((full_potential_periodic_function_property is_local).axpy alpha x y).2.f_rg.getD
                i 0 = y.f_rg.getD i 0 + alpha * x.f_rg.getD i 0)
          ∧ (∀ a i, (((full_potential_periodic_function_property is_local).axpy alpha x
                y).2.f_mt.getD a []).getD i 0
              = (y.f_mt.getD a []).getD i 0 + alpha * (x.f_mt.getD a []).getD i 0)
          ∧ ((full_potential_periodic_function_property is_local).axpy alpha x y).2.same_shape y
          ∧ ((full_potential_periodic_function_property is_local).axpy 0 x y).2 = y)
      ∧ (∀ x y : Periodic_function, x.same_shape y →
        ((pseudo_potential_periodic_function_property is_local).axpy alpha x y).1 = x
          ∧ (∀ i, i < y.f_pw_local.length →
              ((pseudo_potential_periodic_function_property is_local).axpy alpha x
                y).2.f_pw_local.getD i 0
              = (y.f_pw_local.getD i 0).add ((x.f_pw_local.getD i 0).scale alpha))
          ∧ ((pseudo_potential_periodic_function_property is_local).axpy alpha x y).2.same_shape y
          ∧ ((pseudo_potential_periodic_function_property is_local).axpy 0 x y).2 = y)
      ∧ (∀ x y : List double_complex, x.length = y.length →
        ((density_function_property is_local).axpy alpha x y).1 = x
          ∧ (∀ i, i < y.length →
              ((density_function_property is_local).axpy alpha x y).2.getD i 0
              = (y.getD i 0).add ((x.getD i 0).scale alpha))
          ∧ ((density_function_property is_local).axpy alpha x y).2.length = y.length
          ∧ ((density_function_property is_local).axpy 0 x y).2 = y) := by
  have hzero : ∀ a b : double_complex, a.add (b.scale 0) = a := by
    intro a b
    ext <;> simp [double_complex.add, double_complex.scale]
  refine ⟨fun x y h => ⟨rfl, axpy_f_rg_entry alpha x y h, axpy_block_entry alpha x y h,
      ⟨axpy_f_rg_length alpha x y, ?_, rfl⟩, ?_⟩,
    fun x y h => ⟨rfl, fun i hi => axpy_complex_getD alpha _ _ h.2.2 i hi,
      ⟨rfl, rfl, axpy_complex_length alpha _ _⟩, ?_⟩,
    fun x y h => ⟨rfl, fun i hi => axpy_complex_getD alpha _ _ h i hi,
      axpy_complex_length alpha _ _, ?_⟩⟩
  · apply list_ext_getD 0
    · simp only [List.length_map]
      exact axpy_blocks_length alpha x y
    · intro a _
      have e : ∀ l : List (List ℚ), (l.map List.length).getD a 0 = (l.getD a []).length :=
        fun l => List.getD_map (l := l) (d := []) (n := a) List.length
      rw [e, e]
      exact axpy_block_length alpha x y h a
  · show (full_potential.axpy_function 0 x y).2 = y
    apply periodic_function_eq
    · apply list_ext_getD 0 _ _ (axpy_f_rg_length 0 x y)
      intro i _
      rw [axpy_f_rg_entry 0 x y h, zero_mul, add_zero]
    · apply list_ext_getD [] _ _ (axpy_blocks_length 0 x y)
      intro a _
      apply list_ext_getD 0 _ _ (axpy_block_length 0 x y h a)
      intro i _
      rw [axpy_block_entry 0 x y h, zero_mul, add_zero]
  · show (pseudo_potential.axpy_function 0 x y).2 = y
    have : (pseudo_potential.axpy_function 0 x y).2.f_pw_local = y.f_pw_local := by
      apply list_ext_getD 0 _ _ (axpy_complex_length 0 _ _)
      intro i hi
      rw [axpy_complex_length] at hi
      rw [axpy_complex_getD 0 _ _ h.2.2 i hi, hzero]
    unfold pseudo_potential.axpy_function at this ⊢
    simp only [] at this ⊢
    rw [this]
  · show (density.axpy_function 0 x y).2 = y
    apply list_ext_getD 0 _ _ (axpy_complex_length 0 _ _)
    intro i hi
    rw [axpy_complex_length] at hi
    rw [axpy_complex_getD 0 _ _ h i hi, hzero]

end claims_adapters2

section claims_density

/-- C20: the inner product of the adapter returned by `density_function_property` is 0 for every
pair of density matrices (for both values of the flag), so it adds nothing to a sum of inner
products, while `scale`, `copy` and `axpy` of the adapter act on every element. -/
theorem density_adapter (is_local : Bool) :
    (∀ x y : List double_complex, (density_function_property is_local).inner x y = 0)
      ∧ (∀ (c : ℚ) (x y : List double_complex),
          c + (density_function_property is_local).inner x y = c)
      ∧ (∀ (alpha : ℚ) (x : List double_complex),
          ((density_function_property is_local).scal alpha x).length = x.length
            ∧ ∀ i, i < x.length →
                ((density_function_property is_local).scal alpha x).getD i 0
                  = (x.getD i 0).scale alpha)
      ∧ (∀ x y : List double_complex, x.length = y.length →
          ((density_function_property is_local).copy x y).2 = x)
      ∧ (∀ (alpha : ℚ) (x y : List double_complex), x.length = y.length →
          ((density_function_property is_local).axpy alpha x y).2.length = y.length
            ∧ ∀ i, i < y.length →
                ((density_function_property is_local).axpy alpha x y).2.getD i 0
                  = (y.getD i 0).add ((x.getD i 0).scale alpha)) := by
  refine ⟨fun _ _ => rfl, fun c _ _ => add_zero c, fun alpha x => ⟨?_, fun i hi => ?_⟩,
    fun x y h => ?_,
    fun alpha x y h => ⟨axpy_complex_length alpha _ _,
      fun i hi => axpy_complex_getD alpha _ _ h i hi⟩⟩
  · exact forLoop_update_length 0 (fun _ a => a.scale alpha) x x.length
  · refine (forLoop_update_getD 0 (fun _ a => a.scale alpha) x x.length i).trans ?_
    rw [if_pos ⟨hi, hi⟩]
  · show (forLoop x.length (fun i y => y.set i (x.getD i 0)) y) = x
    have hlen : (forLoop x.length (fun i y => y.set i (x.getD i 0)) y).length = y.length :=
      forLoop_update_length 0 (fun i _ => x.getD i 0) y x.length
    apply list_ext_getD 0 _ _ (hlen.trans h.symm)
    intro i hi
    rw [hlen] at hi
    refine (forLoop_update_getD 0 (fun i _ => x.getD i 0) y x.length i).trans ?_
    rw [if_pos ⟨h ▸ hi, hi⟩]

end claims_density

/-! ## Index bounds in the quasi-Newton block -/

section claims_bounds

variable {T : Type}

/-- C19: `history_size = min(step, max_history)`; whenever the quasi-Newton block is entered with
`max_history >= 1`, `1 <= history_size <= max_history` and `history_size <= step`, so the
unsigned expressions `step - history_size + j` (`j < history_size`) and `history_size - 1` do not
wrap around, every `idx_hist` result is below `max_history`, and the indices used with `S`,
`gamma_k`, `v1` and `v2` are within the bounds `history_size` and `2 * history_size` of these
arrays, including `v2[history_size + k + 1]` for `k < history_size - 1` and
`v2[2 * history_size - 1]`. -/
theorem quasi_newton_bounds (st : Broyden2 T) (hH : 1 ≤ st.max_history_)
    (hstep : st.step_ < 2 ^ 64) (hc : quasi_newton_cond st = true) :
    history_size st = min st.step_ st.max_history_
      ∧ (1 ≤ history_size st ∧ history_size st ≤ st.max_history_
          ∧ history_size st ≤ st.step_)
      ∧ (∀ j, j < history_size st →
          size_t_add (size_t_sub st.step_ (history_size st)) j
              = st.step_ - history_size st + j
            ∧ ((st.step_ - history_size st + j : ℕ) : ℤ)
              = (st.step_ : ℤ) - (history_size st : ℤ) + (j : ℤ))
      ∧ (size_t_sub (history_size st) 1 = history_size st - 1
          ∧ ((history_size st - 1 : ℕ) : ℤ) = (history_size st : ℤ) - 1)
      ∧ (∀ s, idx_hist st.max_history_ s < st.max_history_)
      ∧ (∀ k, k < history_size st - 1 →
          k < history_size st ∧ k + 1 < history_size st
            ∧ history_size st + k < 2 * history_size st
            ∧ history_size st + k + 1 < 2 * history_size st)
      ∧ (history_size st - 1 < history_size st
          ∧ 2 * history_size st - 1 < 2 * history_size st)
      ∧ (∀ j, j < history_size st →
          j < 2 * history_size st ∧ j + history_size st < 2 * history_size st) := by
  have hm : 1 ≤ history_size st := by
    rcases (quasi_newton_cond_eq_true_iff st).1 hc with ⟨h, _, _⟩ | ⟨_, h⟩
    · exact le_of_lt h
    · unfold history_size
      exact le_min (by omega) hH
  have hmH : history_size st ≤ st.max_history_ := min_le_right _ _
  have hms : history_size st ≤ st.step_ := min_le_left _ _
  refine ⟨rfl, ⟨hm, hmH, hms⟩, fun j hj => ⟨?_, by omega⟩, ⟨?_, by omega⟩,
    fun s => idx_hist_lt _ s hH, fun k hk => by omega, by omega, fun j hj => by omega⟩
  · unfold size_t_add size_t_sub
    have h64 : (2 : ℕ) ^ 64 = 18446744073709551616 := by norm_num
    rw [h64] at hstep ⊢
    omega
  · unfold size_t_sub
    have h64 : (2 : ℕ) ^ 64 = 18446744073709551616 := by norm_num
    rw [h64] at hstep ⊢
    omega

/-- C19, at the mixer `state_split` (`step = 2`, `max_history = 2`), which takes the
quasi-Newton block: `history_size = 2` and the window starts at `step - history_size = 0`. -/
theorem quasi_newton_bounds_witness :
    quasi_newton_cond state_split = true
      ∧ (1 ≤ history_size state_split ∧ history_size state_split ≤ state_split.max_history_
          ∧ history_size state_split ≤ state_split.step_)
      ∧ (size_t_sub (history_size state_split) 1 = history_size state_split - 1
          ∧ ((history_size state_split - 1 : ℕ) : ℤ) = (history_size state_split : ℤ) - 1) :=
  ⟨by norm_num [quasi_newton_cond, state_split, history_size, idx_hist],
   (quasi_newton_bounds state_split (by decide) (by norm_num [state_split])
      (by norm_num [quasi_newton_cond, state_split, history_size, idx_hist])).2.1,
   (quasi_newton_bounds state_split (by decide) (by norm_num [state_split])
      (by norm_num [quasi_newton_cond, state_split, history_size, idx_hist])).2.2.2.1⟩

end claims_bounds

/-! ## The two blocks of `gamma` -/

section block_sums

/-- Every column of the lower `m x m` block of `gamma` sums to zero after `n <= m - 1` steps of
the recursion. -/
theorem gamma_loop_lower_column_sum (m : ℕ) (S : ℕ → ℕ → ℚ) (n : ℕ) (hn : n + 1 ≤ m) :
    ∀ c, c < m →
      ∑ j in Finset.range m, forLoop n (gamma_step m S) (gamma_init m) (m + j) c = 0 := by
  induction n with
  | zero =>
    intro c _
    refine Finset.sum_eq_zero fun j _ => ?_
    show gamma_init m (m + j) c = 0
    rw [gamma_init_apply, if_neg (by omega)]
  | succ n ih =>
    intro c hc
    have ih' := ih (by omega)
    have key : ∀ j ∈ Finset.range m,
        forLoop (n + 1) (gamma_step m S) (gamma_init m) (m + j) c
          = forLoop n (gamma_step m S) (gamma_init m) (m + j) c
            + (-(forLoop n (gamma_step m S) (gamma_init m) (m + j) (n + 1))
                + forLoop n (gamma_step m S) (gamma_init m) (m + j) n
                + (if j = n + 1 then 1 else 0) - (if j = n then 1 else 0))
              * ((S (n + 1) c - S n c) / denominator S n) := by
      intro j hj
      have hj' : j < m := Finset.mem_range.1 hj
      rw [forLoop_succ, gamma_step_apply m S n _ (m + j) c (by omega) hc (by omega)]
      have e1 : (m + j = m + n + 1) ↔ (j = n + 1) := by omega
      have e2 : (m + j = m + n) ↔ (j = n) := by omega
      simp only [e1, e2]
      ring
    rw [Finset.sum_congr rfl key, Finset.sum_add_distrib, ← Finset.sum_mul,
      Finset.sum_sub_distrib, Finset.sum_add_distrib, Finset.sum_add_distrib,
      Finset.sum_neg_distrib, ih' c hc, ih' (n + 1) (by omega), ih' n (by omega),
      Finset.sum_ite_eq', Finset.sum_ite_eq', if_pos (Finset.mem_range.2 (by omega)),
      if_pos (Finset.mem_range.2 (by omega))]
    ring

/-- The upper block of `gamma` is determined by the lower block after `n <= m - 1` steps of the
recursion. -/
theorem gamma_loop_upper_block (m : ℕ) (S : ℕ → ℕ → ℚ) (n : ℕ) (hn : n + 1 ≤ m) :
    ∀ j c, j < m → c < m →
      forLoop n (gamma_step m S) (gamma_init m) j c
        = 1 / 4 * ((if j = c then 1 else 0)
            - forLoop n (gamma_step m S) (gamma_init m) (m + j) c) := by
  induction n with
  | zero =>
    intro j c hj _
    show gamma_init m j c = 1 / 4 * ((if j = c then 1 else 0) - gamma_init m (m + j) c)
    have e : ¬ (m + j = c ∧ m + j < m) := by omega
    rw [gamma_init_apply m j c, gamma_init_apply m (m + j) c, if_neg e]
    by_cases h : j = c
    · rw [if_pos ⟨h, hj⟩, if_pos h]; ring
    · rw [if_neg (fun hh => h hh.1), if_neg h]; ring
  | succ n ih =>
    intro j c hj hc
    have ih' := ih (by omega)
    rw [forLoop_succ, gamma_step_apply m S n _ j c (by omega) hc (by omega),
      gamma_step_apply m S n _ (m + j) c (by omega) hc (by omega),
      ih' j c hj hc, ih' j (n + 1) hj (by omega), ih' j n hj (by omega)]
    have e1 : (m + j = m + n + 1) ↔ (j = n + 1) := by omega
    have e2 : (m + j = m + n) ↔ (j = n) := by omega
    have e3 : ¬ (j = m + n + 1) := by omega
    have e4 : ¬ (j = m + n) := by omega
    simp only [e1, e2, if_neg e3, if_neg e4]
    ring

end block_sums

section claims_secant

/-- C22: secant condition. Immediately after the rank-1 update for index `k` (`k + 1 < m`) with
`d != 0`, for every row `j < 2m` the difference `gamma[j,k+1] - gamma[j,k]` is `+1` if
`j = m+k+1`, `-1` if `j = m+k` and `0` otherwise, for every matrix `S` and every prior `gamma`. -/
theorem gamma_secant_condition (m : ℕ) (S : ℕ → ℕ → ℚ) (g : ℕ → ℕ → ℚ) (k j : ℕ)
    (hk : k + 1 < m) (hj : j < 2 * m) (hd : denominator S k ≠ 0) :
    gamma_step m S k g j (k + 1) - gamma_step m S k g j k
      = if j = m + k + 1 then 1 else if j = m + k then -1 else 0 := by
  rw [gamma_step_secant m S k g j hj hk hd]
  by_cases h1 : j = m + k + 1
  · have h2 : ¬ (j = m + k) := by omega
    rw [if_pos h1, if_neg h2, if_pos h1]; ring
  · by_cases h2 : j = m + k
    · rw [if_neg h1, if_pos h2, if_neg h1, if_pos h2]; ring
    · rw [if_neg h1, if_neg h2, if_neg h1, if_neg h2]; ring

/-- C22, at `m = 2`, `k = 0`, the identity matrix `S` (`d = 2`) and the seed `gamma`: in row
`j = 3 = m + k + 1` the difference of the two columns is `+1`. -/
theorem gamma_secant_condition_witness :
    gamma_step 2 gram_identity 0 (gamma_init 2) 3 (0 + 1)
        - gamma_step 2 gram_identity 0 (gamma_init 2) 3 0
      = if 3 = 2 + 0 + 1 then 1 else if 3 = 2 + 0 then -1 else 0 :=
  gamma_secant_condition 2 gram_identity (gamma_init 2) 0 3 (by decide) (by decide)
    (by norm_num [denominator, gram_identity])

/-- C23: for `m >= 1` and a matrix `S` with all denominators non-zero, every column of the lower
`m x m` block of `gamma` sums to zero throughout the recursion, and the weights `v2[m + j]`,
`j < m`, that the quasi-Newton branch applies to the output history sum to exactly `1`. The
hypothesis on the denominators keeps the divisions of the recursion defined. -/
theorem v2_final_weights_sum_one (m : ℕ) (S : ℕ → ℕ → ℚ) (hm : 1 ≤ m)
    (_hd : ∀ k, k + 1 < m → denominator S k ≠ 0) :
    (∀ n c, n + 1 ≤ m → c < m →
        ∑ j in Finset.range m, forLoop n (gamma_step m S) (gamma_init m) (m + j) c = 0)
      ∧ ∑ j in Finset.range m, v2_final m (gamma_rec m S) (m + j) = 1 := by
  refine ⟨fun n c hn hc => gamma_loop_lower_column_sum m S n hn c hc, ?_⟩
  have key : ∀ j ∈ Finset.range m,
      v2_final m (gamma_rec m S) (m + j)
        = -(gamma_rec m S (m + j) (m - 1)) + if j = m - 1 then 1 else 0 := by
    intro j hj
    have hj' : j < m := Finset.mem_range.1 hj
    rw [v2_final_apply m _ (m + j) (by omega)]
    have e : (m + j = 2 * m - 1) ↔ (j = m - 1) := by omega
    simp only [e]
  rw [Finset.sum_congr rfl key, Finset.sum_add_distrib, Finset.sum_neg_distrib,
    Finset.sum_ite_eq', if_pos (Finset.mem_range.2 (by omega))]
  have h0 := gamma_loop_lower_column_sum m S (m - 1) (by omega) (m - 1) (by omega)
  have hg : gamma_rec m S = forLoop (m - 1) (gamma_step m S) (gamma_init m) := rfl
  rw [hg, h0]
  ring

/-- C23, at `m = 2` and the identity matrix `S` (`d = 2`): the two output weights sum to `1`. -/
theorem v2_final_weights_sum_one_witness :
    ∑ j in Finset.range 2, v2_final 2 (gamma_rec 2 gram_identity) (2 + j) = 1 :=
  (v2_final_weights_sum_one 2 gram_identity (by decide)
    (fun k _ => by simp [denominator, gram_identity])).2

end claims_secant

section upper_lower

/-- In the final combination the residual weight is `-0.25` times the output weight. -/
theorem v2_final_upper (m : ℕ) (S : ℕ → ℕ → ℚ) (j : ℕ) (hj : j < m) :
    v2_final m (gamma_rec m S) j = -(1 / 4) * v2_final m (gamma_rec m S) (m + j) := by
  rw [v2_final_apply m _ j (by omega), v2_final_apply m _ (m + j) (by omega)]
  have hg : gamma_rec m S = forLoop (m - 1) (gamma_step m S) (gamma_init m) := rfl
  rw [hg, gamma_loop_upper_block m S (m - 1) (by omega) j (m - 1) hj (by omega)]
  have e1 : ¬ (j = 2 * m - 1) := by omega
  have e2 : (m + j = 2 * m - 1) ↔ (j = m - 1) := by omega
  simp only [if_neg e1, e2]
  ring

end upper_lower

section claims_upper_lower

variable {T : Type} [AddCommGroup T] [Module ℚ T]

/-- C25: for a window of two iterations, a symmetric `S` and
`d = S[0,0] + S[1,1] - 2 S[0,1] != 0`, the output weights are `v2[2] = (S[1,1] - S[0,1]) / d`
and `v2[3] = 1 - v2[2]`, and the weighted residual is orthogonal to the residual difference. -/
theorem v2_final_two_slots (S : ℕ → ℕ → ℚ) (hsym : S 0 1 = S 1 0)
    (hd : S 0 0 + S 1 1 - 2 * S 0 1 ≠ 0) :
    v2_final 2 (gamma_rec 2 S) 2 = (S 1 1 - S 0 1) / (S 0 0 + S 1 1 - 2 * S 0 1)
      ∧ v2_final 2 (gamma_rec 2 S) 3 = 1 - v2_final 2 (gamma_rec 2 S) 2
      ∧ v2_final 2 (gamma_rec 2 S) 2 * (S 0 1 - S 0 0)
          + v2_final 2 (gamma_rec 2 S) 3 * (S 1 1 - S 0 1) = 0 := by
  have hg : gamma_rec 2 S = gamma_step 2 S 0 (gamma_init 2) := rfl
  have hden : denominator S 0 = S 0 0 + S 1 1 - 2 * S 0 1 := by
    unfold denominator
    rw [← hsym]
    ring
  have h2 : v2_final 2 (gamma_rec 2 S) 2 = (S 1 1 - S 0 1) / (S 0 0 + S 1 1 - 2 * S 0 1) := by
    rw [v2_final_apply 2 _ 2 (by decide), hg,
      gamma_step_apply 2 S 0 _ 2 1 (by decide) (by decide) (by decide), hden]
    simp only [gamma_init_apply]
    norm_num
    ring
  have h3 : v2_final 2 (gamma_rec 2 S) 3 = 1 - (S 1 1 - S 0 1) / (S 0 0 + S 1 1 - 2 * S 0 1) := by
    rw [v2_final_apply 2 _ 3 (by decide), hg,
      gamma_step_apply 2 S 0 _ 3 1 (by decide) (by decide) (by decide), hden]
    simp only [gamma_init_apply]
    norm_num
    ring
  refine ⟨h2, by rw [h3, h2], ?_⟩
  rw [h3, h2]
  field_simp
  ring

/-- C25, at the symmetric matrix `S = [[2, 1], [1, 3]]` (`d = 3`): the weights are `2/3` and
`1/3`. -/
theorem v2_final_two_slots_witness :
    v2_final 2 (gamma_rec 2 gram_two) 2
        = (gram_two 1 1 - gram_two 0 1) / (gram_two 0 0 + gram_two 1 1 - 2 * gram_two 0 1)
      ∧ v2_final 2 (gamma_rec 2 gram_two) 3 = 1 - v2_final 2 (gamma_rec 2 gram_two) 2
      ∧ v2_final 2 (gamma_rec 2 gram_two) 2 * (gram_two 0 1 - gram_two 0 0)
          + v2_final 2 (gamma_rec 2 gram_two) 3 * (gram_two 1 1 - gram_two 0 1) = 0 :=
  v2_final_two_slots gram_two (by simp [gram_two]) (by norm_num [gram_two])

end claims_upper_lower

/-! ## The frame of `mix_impl` and the step size over a sequence of calls -/

section step_size

variable {T : Type}

/-- One evaluation of lines 63-70 keeps the step size between the floor and its old value. -/
theorem beta_scaling_bounds (st : Broyden2 T) (hfloor : st.beta0_ ≤ st.beta_)
    (hbeta : 0 < st.beta_) (hf0 : 0 < st.beta_scaling_factor_)
    (hf1 : st.beta_scaling_factor_ ≤ 1) :
    st.beta0_ ≤ beta_scaling st ∧ beta_scaling st ≤ st.beta_ ∧ 0 < beta_scaling st := by
  have hmul : st.beta_ * st.beta_scaling_factor_ ≤ st.beta_ := by
    have := mul_le_mul_of_nonneg_left hf1 hbeta.le
    simpa using this
  have hpos : 0 < st.beta_ * st.beta_scaling_factor_ := mul_pos hbeta hf0
  unfold beta_scaling
  split
  · split
    · exact ⟨le_max_left _ _, max_le hfloor hmul, lt_of_lt_of_le hpos (le_max_right _ _)⟩
    · exact ⟨hfloor, le_refl _, hbeta⟩
  · exact ⟨hfloor, le_refl _, hbeta⟩

end step_size

section claims_frame

variable {T : Type} [AddCommGroup T] [Module ℚ T]

/-- C26: with `max_history >= 1` slots allocated, `idx_hist(step+1) != idx_hist(step)` holds
exactly when `max_history >= 2`, and then the final blend writes
`beta * input_ + (1 - beta) * output_history[idx_hist(step)]` into
`output_history[idx_hist(step+1)]` and leaves `output_history[idx_hist(step)]` unchanged. -/
theorem mix_impl_blend_two_slots (fp : FunctionProp T) (comm : Communicator T)
    (st : Broyden2 T) (hpos : 0 < st.max_history_)
    (hlen : st.output_history_.length = st.max_history_) :
    (idx_hist st.max_history_ (st.step_ + 1) ≠ idx_hist st.max_history_ st.step_
        ↔ 2 ≤ st.max_history_)
      ∧ (idx_hist st.max_history_ (st.step_ + 1) ≠ idx_hist st.max_history_ st.step_ →
          (mix_impl fp comm st).output_history_.getD (idx_hist st.max_history_ (st.step_ + 1)) 0
              = (mix_impl fp comm st).beta_ • (mix_impl fp comm st).input_
                + (1 - (mix_impl fp comm st).beta_)
                  • st.output_history_.getD (idx_hist st.max_history_ st.step_) 0
            ∧ (mix_impl fp comm st).output_history_.getD (idx_hist st.max_history_ st.step_) 0
              = st.output_history_.getD (idx_hist st.max_history_ st.step_) 0) := by
  have hiff : idx_hist st.max_history_ (st.step_ + 1) ≠ idx_hist st.max_history_ st.step_
      ↔ 2 ≤ st.max_history_ := by
    constructor
    · intro hne
      by_contra h
      have h1 : st.max_history_ = 1 := by omega
      apply hne
      unfold idx_hist
      rw [h1, Nat.mod_one, Nat.mod_one]
    · intro h
      exact idx_hist_succ_ne _ _ h
  refine ⟨hiff, fun hne => ⟨mix_impl_blend fp comm st (hiff.1 hne) hlen, ?_⟩⟩
  rw [mix_impl_output_history,
    final_blend_eq_set _ _ _ _ _ hne (by rw [hlen]; exact idx_hist_lt _ _ hpos)]
  exact getD_set_ne _ _ _ _ _ hne

/-- C26, at the scalar mixer `state_linear` (step 1, two slots `[3, 5]`, `beta = 1/2`, staged
value `7`): slot 0 receives `1/2 * 7 + 1/2 * 5 = 6` and slot 1 keeps `5`. -/
theorem mix_impl_blend_two_slots_witness :
    (mix_impl scalar_prop single_process state_linear).output_history_.getD
          (idx_hist state_linear.max_history_ (state_linear.step_ + 1)) 0
        = (mix_impl scalar_prop single_process state_linear).beta_
            • (mix_impl scalar_prop single_process state_linear).input_
          + (1 - (mix_impl scalar_prop single_process state_linear).beta_)
            • state_linear.output_history_.getD
                (idx_hist state_linear.max_history_ state_linear.step_) 0
      ∧ (mix_impl scalar_prop single_process state_linear).output_history_.getD
          (idx_hist state_linear.max_history_ state_linear.step_) 0
        = state_linear.output_history_.getD
            (idx_hist state_linear.max_history_ state_linear.step_) 0 :=
  (mix_impl_blend_two_slots scalar_prop single_process state_linear (by decide) rfl).2
    (by decide)

/-- C27: if `beta0 <= beta`, `beta > 0` and `0 < beta_scaling_factor <= 1` hold before a call
of `mix_impl`, then `beta0 <= beta_new <= beta_old` after it; and over any sequence of calls
between which the caller leaves `beta_`, `beta0_` and `beta_scaling_factor_` alone, `beta` is
non-increasing and never falls below `beta0`. -/
theorem mix_impl_beta_monotone (fp : FunctionProp T) (comm : Communicator T)
    (between : ℕ → Broyden2 T → Broyden2 T) (st : Broyden2 T)
    (hfloor : st.beta0_ ≤ st.beta_) (hbeta : 0 < st.beta_)
    (hf0 : 0 < st.beta_scaling_factor_) (hf1 : st.beta_scaling_factor_ ≤ 1)
    (hbetween : ∀ n s, (between n s).beta_ = s.beta_ ∧ (between n s).beta0_ = s.beta0_
      ∧ (between n s).beta_scaling_factor_ = s.beta_scaling_factor_) :
    (st.beta0_ ≤ (mix_impl fp comm st).beta_ ∧ (mix_impl fp comm st).beta_ ≤ st.beta_)
      ∧ ∀ n, st.beta0_ ≤ (mix_impl_calls fp comm between st (n + 1)).beta_
          ∧ (mix_impl_calls fp comm between st (n + 1)).beta_
              ≤ (mix_impl_calls fp comm between st n).beta_ := by
  have h1 := beta_scaling_bounds st hfloor hbeta hf0 hf1
  refine ⟨⟨h1.1, h1.2.1⟩, ?_⟩
  have inv : ∀ n, (mix_impl_calls fp comm between st n).beta0_ = st.beta0_
      ∧ (mix_impl_calls fp comm between st n).beta_scaling_factor_ = st.beta_scaling_factor_
      ∧ st.beta0_ ≤ (mix_impl_calls fp comm between st n).beta_
      ∧ 0 < (mix_impl_calls fp comm between st n).beta_ := by
    intro n
    induction n with
    | zero => exact ⟨rfl, rfl, hfloor, hbeta⟩
    | succ n ih =>
      obtain ⟨i1, i2, i3, i4⟩ := ih
      obtain ⟨b1, b2, b3⟩ := hbetween n (mix_impl_calls fp comm between st n)
      have hb := beta_scaling_bounds (between n (mix_impl_calls fp comm between st n))
        (by rw [b1, b2, i1]; exact i3) (by rw [b1]; exact i4) (by rw [b3, i2]; exact hf0)
        (by rw [b3, i2]; exact hf1)
      rw [b2, i1] at hb
      refine ⟨?_, ?_, hb.1, hb.2.2⟩
      · show (between n (mix_impl_calls fp comm between st n)).beta0_ = st.beta0_
        rw [b2, i1]
      · show (between n (mix_impl_calls fp comm between st n)).beta_scaling_factor_
          = st.beta_scaling_factor_
        rw [b3, i2]
  intro n
  obtain ⟨i1, i2, i3, i4⟩ := inv n
  obtain ⟨b1, b2, b3⟩ := hbetween n (mix_impl_calls fp comm between st n)
  have hb := beta_scaling_bounds (between n (mix_impl_calls fp comm between st n))
    (by rw [b1, b2, i1]; exact i3) (by rw [b1]; exact i4) (by rw [b3, i2]; exact hf0)
    (by rw [b3, i2]; exact hf1)
  rw [b2, i1, b1] at hb
  exact ⟨hb.1, hb.2.1⟩

/-- C27, at the scalar mixer `state_rmse_up (1/8)` (`beta = 1/2`, factor `1/2`) with a caller
that advances `step_` between the calls. -/
theorem mix_impl_beta_monotone_witness :
    ((state_rmse_up (1 / 8)).beta0_
          ≤ (mix_impl scalar_prop single_process (state_rmse_up (1 / 8))).beta_
        ∧ (mix_impl scalar_prop single_process (state_rmse_up (1 / 8))).beta_
          ≤ (state_rmse_up (1 / 8)).beta_)
      ∧ ∀ n, (state_rmse_up (1 / 8)).beta0_
            ≤ (mix_impl_calls scalar_prop single_process
                (fun _ s => { s with step_ := s.step_ + 1 }) (state_rmse_up (1 / 8)) (n + 1)).beta_
          ∧ (mix_impl_calls scalar_prop single_process
                (fun _ s => { s with step_ := s.step_ + 1 }) (state_rmse_up (1 / 8)) (n + 1)).beta_
            ≤ (mix_impl_calls scalar_prop single_process
                (fun _ s => { s with step_ := s.step_ + 1 }) (state_rmse_up (1 / 8)) n).beta_ :=
  mix_impl_beta_monotone scalar_prop single_process
    (fun _ s => { s with step_ := s.step_ + 1 }) (state_rmse_up (1 / 8))
    (by norm_num [state_rmse_up]) (by norm_num [state_rmse_up])
    (by norm_num [state_rmse_up]) (by norm_num [state_rmse_up])
    (fun _ _ => ⟨rfl, rfl, rfl⟩)

/-- C28: `mix_impl` leaves `step_`, `max_history_`, `rmse_history_`, `residual_history_`,
`beta0_`, `beta_scaling_factor_` and `linear_mix_rmse_tol_` unchanged, keeps the number of
slots of `output_history_` and every slot other than `idx_hist(step+1)`, and leaves `input_`
unchanged when the quasi-Newton block is skipped; what it may modify is
`output_history[idx_hist(step+1)]`, `beta_` and, when the block is entered, `input_`. -/
theorem mix_impl_frame (fp : FunctionProp T) (comm : Communicator T) (st : Broyden2 T)
    (i : ℕ) (hi : i ≠ idx_hist st.max_history_ (st.step_ + 1)) :
    (mix_impl fp comm st).step_ = st.step_
      ∧ (mix_impl fp comm st).max_history_ = st.max_history_
      ∧ (mix_impl fp comm st).rmse_history_ = st.rmse_history_
      ∧ (mix_impl fp comm st).residual_history_ = st.residual_history_
      ∧ (mix_impl fp comm st).beta0_ = st.beta0_
      ∧ (mix_impl fp comm st).beta_scaling_factor_ = st.beta_scaling_factor_
      ∧ (mix_impl fp comm st).linear_mix_rmse_tol_ = st.linear_mix_rmse_tol_
      ∧ (mix_impl fp comm st).output_history_.length = st.output_history_.length
      ∧ (mix_impl fp comm st).output_history_.getD i 0 = st.output_history_.getD i 0
      ∧ (mix_impl fp comm st).output_history_[i]? = st.output_history_[i]?
      ∧ (quasi_newton_cond st = false → (mix_impl fp comm st).input_ = st.input_) := by
  have hout : (mix_impl fp comm st).output_history_
      = final_blend (mix_impl fp comm st).beta_ (mix_impl fp comm st).input_
          (idx_hist st.max_history_ st.step_) (idx_hist st.max_history_ (st.step_ + 1))
          st.output_history_ := rfl
  refine ⟨rfl, rfl, rfl, rfl, rfl, rfl, rfl, ?_, ?_, ?_, ?_⟩
  · rw [hout]
    simp [final_blend]
  · rw [hout]
    unfold final_blend
    dsimp only
    rw [getD_set_ne _ _ _ _ _ hi.symm, getD_set_ne _ _ _ _ _ hi.symm,
      getD_set_ne _ _ _ _ _ hi.symm]
  · rw [hout]
    unfold final_blend
    simp [List.getElem?_set_ne (Ne.symm hi)]
  · intro h
    rw [mix_impl_input, h]
    rfl

/-- C28, at the scalar mixer `state_linear` (step 1, two slots, block skipped): slot `1` and
the staging buffer are unchanged. -/
theorem mix_impl_frame_witness :
    (mix_impl scalar_prop single_process state_linear).output_history_.getD 1 0
        = state_linear.output_history_.getD 1 0
      ∧ (mix_impl scalar_prop single_process state_linear).input_ = state_linear.input_ :=
  ⟨(mix_impl_frame scalar_prop single_process state_linear 1 (by decide)).2.2.2.2.2.2.2.2.1,
    (mix_impl_frame scalar_prop single_process state_linear 1 (by decide)).2.2.2.2.2.2.2.2.2.2
      (by decide)⟩

end claims_frame

/-! ## The move constructor of the Hubbard descriptor and the blocked product -/

section claims_move

/-- The move constructor carries over every member it names, and the four coefficients. -/
theorem move_construct_carries (src : hubbard_orbital_descriptor) :
    (src.move_construct).1.n = src.n
      ∧ (src.move_construct).1.l = src.l
      ∧ (src.move_construct).1.occupancy = src.occupancy
      ∧ (src.move_construct).1.rindex = src.rindex
      ∧ (src.move_construct).1.Hubbard_J = src.Hubbard_J
      ∧ (src.move_construct).1.Hubbard_U = src.Hubbard_U
      ∧ (src.move_construct).1.Hubbard_alpha = src.Hubbard_alpha
      ∧ (src.move_construct).1.Hubbard_beta = src.Hubbard_beta
      ∧ (src.move_construct).1.Hubbard_B = src.Hubbard_B
      ∧ (src.move_construct).1.Hubbard_E2 = src.Hubbard_E2
      ∧ (src.move_construct).1.Hubbard_E3 = src.Hubbard_E3
      ∧ (∀ s, s < 4 → (src.move_construct).1.hubbard_coefficients_ s
          = src.hubbard_coefficients_ s) := by
  refine ⟨rfl, rfl, rfl, rfl, rfl, rfl, rfl, rfl, rfl, rfl, rfl, ?_⟩
  intro s hs
  show forLoop 4 (fun s c => vset c s (src.hubbard_coefficients_ s)) _ s = _
  rw [forLoop_vset, if_pos hs]

/-- The member `hubbard_J0_` is not named by the move constructor: the new object holds the
default `0.0`, whatever the source held. -/
theorem move_construct_J0 (src : hubbard_orbital_descriptor) :
    (src.move_construct).1.Hubbard_J0 = 0 := rfl

/-- C29 fails on `Hubbard_J0()`: the descriptor `hubbard_example` has `J0 = 1/2`, and the object
move-constructed from it has `J0 = 0`, while the other accessors agree. -/
theorem move_construct_drops_J0 :
    hubbard_example.Hubbard_J0 = 1 / 2
      ∧ (hubbard_example.move_construct).1.Hubbard_J0 = 0
      ∧ (hubbard_example.move_construct).1.Hubbard_J0 ≠ hubbard_example.Hubbard_J0
      ∧ (hubbard_example.move_construct).1.n = hubbard_example.n
      ∧ (hubbard_example.move_construct).1.Hubbard_U = hubbard_example.Hubbard_U := by
  refine ⟨rfl, rfl, ?_, rfl, rfl⟩
  show (0 : ℚ) ≠ 1 / 2
  norm_num

end claims_move

section claims_gemm

/-- With `M = 2` and `N = 1` a single block is issued, of one row and one column. -/
theorem test_gemm_2_single_block (K : ℕ) :
    (test_gemm_2 2 1 K).s = 1
      ∧ (test_gemm_2 2 1 K).dims 0 0 = 0 ∧ (test_gemm_2 2 1 K).dims 0 1 = 0
      ∧ (test_gemm_2 2 1 K).dims 0 2 = 1 ∧ (test_gemm_2 2 1 K).dims 0 3 = 1 := by
  simp [test_gemm_2, forLoop, gemm_block, gemm_store]

/-- With `M = 2` and `N = 1` the entry `c(1, 0)` is never set. -/
theorem test_gemm_2_row_not_stored (K : ℕ) : (test_gemm_2 2 1 K).c 1 0 = 0 := by
  simp [test_gemm_2, forLoop, gemm_block, gemm_store, mdset]

/-- C21 fails for `M = 2`, `N = 1`, `K = 1000`: the row blocks are cut with `N` instead of `M`,
the single issued block has one row, `c(1, 0)` keeps the `0` of `c.zero()`, and the final check
finds the result wrong. -/
theorem test_gemm_2_result_is_wrong :
    (test_gemm_2 2 1 1000).dims 0 2 = 1
      ∧ (test_gemm_2 2 1 1000).c 1 0 = 0
      ∧ result_is_wrong 2 1 1000 (test_gemm_2 2 1 1000).c := by
  refine ⟨(test_gemm_2_single_block 1000).2.2.2.1, test_gemm_2_row_not_stored 1000, ?_⟩
  refine ⟨0, by decide, 1, by decide, ?_⟩
  rw [test_gemm_2_row_not_stored 1000]
  norm_num

end claims_gemm

section gemm_more

/-- The fill loops of lines 252-259, entry by entry. -/
theorem gemm_fill_apply (K n j i : ℕ) :
    gemm_fill K n j i = if j < K ∧ i < n then 1 / 10 else 0 := by
  unfold gemm_fill
  have inner : ∀ (i0 : ℕ) (a : ℕ → ℕ → ℚ) (k : ℕ),
      forLoop k (fun j a => mdset a j i0 (1 / 10)) a j i
        = if j < k ∧ i = i0 then 1 / 10 else a j i := by
    intro i0 a k
    induction k with
    | zero => simp [forLoop]
    | succ k ih =>
      rw [forLoop_succ, mdset_apply, ih]
      by_cases h1 : j = k ∧ i = i0
      · rw [if_pos h1, if_pos ⟨by omega, h1.2⟩]
      · rw [if_neg h1]
        by_cases h2 : j < k ∧ i = i0
        · rw [if_pos h2, if_pos ⟨by omega, h2.2⟩]
        · rw [if_neg h2, if_neg]
          rintro ⟨ha, hb⟩
          rcases Nat.lt_succ_iff_lt_or_eq.1 ha with ha | ha
          · exact h2 ⟨ha, hb⟩
          · exact h1 ⟨ha, hb⟩
  induction n with
  | zero => simp [forLoop]
  | succ n ih =>
    rw [forLoop_succ]
    refine (inner n _ K).trans ?_
    rw [ih]
    by_cases h1 : j < K ∧ i = n
    · rw [if_pos h1, if_pos ⟨h1.1, by omega⟩]
    · rw [if_neg h1]
      by_cases h2 : j < K ∧ i < n
      · rw [if_pos h2, if_pos ⟨h2.1, by omega⟩]
      · rw [if_neg h2, if_neg]
        rintro ⟨ha, hb⟩
        rcases Nat.lt_succ_iff_lt_or_eq.1 hb with hb | hb
        · exact h2 ⟨ha, hb⟩
        · exact h1 ⟨ha, hb⟩

/-- With `M = 2` and `N = 1` the entry `c(0, 0)` receives the reduced product `0.01 * K`. -/
theorem test_gemm_2_stored_entry (K : ℕ) : (test_gemm_2 2 1 K).c 0 0 = 1 / 100 * K := by
  have hsum : ∑ k in Finset.range K, gemm_fill K 2 k 0 * gemm_fill K 1 k 0 = 1 / 100 * K := by
    have : ∀ k ∈ Finset.range K, gemm_fill K 2 k 0 * gemm_fill K 1 k 0 = 1 / 100 := by
      intro k hk
      rw [gemm_fill_apply, gemm_fill_apply, if_pos ⟨Finset.mem_range.1 hk, by decide⟩,
        if_pos ⟨Finset.mem_range.1 hk, by decide⟩]
      norm_num
    rw [Finset.sum_congr rfl this]
    simp
    ring
  simp [test_gemm_2, forLoop, gemm_block, gemm_store, gemm_reduce, mdset]
  linarith [hsum]

end gemm_more

/-! ## The blocked product for a square matrix -/

section gemm_square

theorem forLoop_congr {σ : Type} (n : ℕ) (f g : ℕ → σ → σ) (s : σ)
    (h : ∀ i, i < n → ∀ t, f i t = g i t) : forLoop n f s = forLoop n g s := by
  induction n with
  | zero => rfl
  | succ n ih =>
    rw [forLoop_succ, forLoop_succ, ih (fun i hi t => h i (by omega) t), h n (by omega)]

/-- The two store loops (lines 287-293), entry by entry. -/
theorem gemm_store_loop (f : ℕ → ℕ → ℚ) (r0 c0 nr nc : ℕ) (c : ℕ → ℕ → ℚ) (j i : ℕ) :
    forLoop nc (fun icol c =>
        forLoop nr (fun irow c => mdset c (irow + r0) (icol + c0) (f irow icol)) c) c j i
      = if r0 ≤ j ∧ j < r0 + nr ∧ c0 ≤ i ∧ i < c0 + nc then f (j - r0) (i - c0) else c j i := by
  have inner : ∀ (icol : ℕ) (c : ℕ → ℕ → ℚ) (k : ℕ),
      forLoop k (fun irow c => mdset c (irow + r0) (icol + c0) (f irow icol)) c j i
        = if r0 ≤ j ∧ j < r0 + k ∧ i = icol + c0 then f (j - r0) icol else c j i := by
    intro icol c k
    induction k with
    | zero => rw [if_neg (by omega)]; rfl
    | succ k ih =>
      rw [forLoop_succ, mdset_apply, ih]
      by_cases h1 : j = k + r0 ∧ i = icol + c0
      · rw [if_pos h1, if_pos ⟨by omega, by omega, h1.2⟩]
        have : j - r0 = k := by omega
        rw [this]
      · rw [if_neg h1]
        by_cases h2 : r0 ≤ j ∧ j < r0 + k ∧ i = icol + c0
        · rw [if_pos h2, if_pos ⟨h2.1, by omega, h2.2.2⟩]
        · rw [if_neg h2, if_neg]
          rintro ⟨ha, hb, hc⟩
          by_cases h3 : j = k + r0
          · exact h1 ⟨h3, hc⟩
          · exact h2 ⟨ha, by omega, hc⟩
  induction nc with
  | zero => rw [if_neg (by omega)]; rfl
  | succ n ih =>
    rw [forLoop_succ]
    refine (inner n _ nr).trans ?_
    rw [ih]
    by_cases h1 : r0 ≤ j ∧ j < r0 + nr ∧ i = n + c0
    · rw [if_pos h1, if_pos ⟨h1.1, h1.2.1, by omega, by omega⟩]
      have : i - c0 = n := by omega
      rw [this]
    · rw [if_neg h1]
      by_cases h2 : r0 ≤ j ∧ j < r0 + nr ∧ c0 ≤ i ∧ i < c0 + n
      · rw [if_pos h2, if_pos ⟨h2.1, h2.2.1, h2.2.2.1, by omega⟩]
      · rw [if_neg h2, if_neg]
        rintro ⟨ha, hb, hc, hd⟩
        by_cases h3 : i = n + c0
        · exact h1 ⟨ha, hb, h3⟩
        · exact h2 ⟨ha, hb, hc, by omega⟩

/-- The matrix `c` after the "store" block for buffer `b`. -/
theorem gemm_store_c (b : ℕ) (st : gemm_buffers) (j i : ℕ) :
    (gemm_store b st).c j i
      = if (st.dims b 0).toNat ≤ j ∧ j < (st.dims b 0).toNat + (st.dims b 2).toNat
            ∧ (st.dims b 1).toNat ≤ i ∧ i < (st.dims b 1).toNat + (st.dims b 3).toNat
        then st.c_tmp ((j - (st.dims b 0).toNat)
              + (st.dims b 2).toNat * (i - (st.dims b 1).toNat)) b
        else st.c j i :=
  gemm_store_loop (fun irow icol => st.c_tmp (irow + (st.dims b 2).toNat * icol) b)
    (st.dims b 0).toNat (st.dims b 1).toNat (st.dims b 2).toNat (st.dims b 3).toNat st.c j i

/-- Two loops that write the same value `v` into the entries `irow + nr * icol` of buffer `b`. -/
theorem gemm_reduce_loop (v : ℚ) (nr nc b : ℕ) (t : ℕ → ℕ → ℚ) (x b0 : ℕ) :
    forLoop nc (fun icol t =>
        forLoop nr (fun irow t => mdset t (irow + nr * icol) b v) t) t x b0
      = if b0 = b ∧ ∃ icol, icol < nc ∧ ∃ irow, irow < nr ∧ x = irow + nr * icol then v
        else t x b0 := by
  have inner : ∀ (icol : ℕ) (t : ℕ → ℕ → ℚ) (k : ℕ),
      forLoop k (fun irow t => mdset t (irow + nr * icol) b v) t x b0
        = if b0 = b ∧ ∃ irow, irow < k ∧ x = irow + nr * icol then v else t x b0 := by
    intro icol t k
    induction k with
    | zero =>
      rw [if_neg]
      · rfl
      · rintro ⟨_, irow, h, _⟩
        omega
    | succ k ih =>
      rw [forLoop_succ, mdset_apply, ih]
      by_cases h1 : x = k + nr * icol ∧ b0 = b
      · rw [if_pos h1, if_pos ⟨h1.2, k, by omega, h1.1⟩]
      · rw [if_neg h1]
        by_cases h2 : b0 = b ∧ ∃ irow, irow < k ∧ x = irow + nr * icol
        · obtain ⟨hb, irow, hi, hx⟩ := h2
          rw [if_pos ⟨hb, irow, hi, hx⟩, if_pos ⟨hb, irow, by omega, hx⟩]
        · rw [if_neg h2, if_neg]
          rintro ⟨hb, irow, hi, hx⟩
          by_cases h3 : irow = k
          · exact h1 ⟨h3 ▸ hx, hb⟩
          · exact h2 ⟨hb, irow, by omega, hx⟩
  induction nc with
  | zero =>
    rw [if_neg]
    · rfl
    · rintro ⟨_, icol, h, _⟩
      omega
  | succ n ih =>
    rw [forLoop_succ]
    refine (inner n _ nr).trans ?_
    rw [ih]
    by_cases h1 : b0 = b ∧ ∃ irow, irow < nr ∧ x = irow + nr * n
    · obtain ⟨hb, irow, hi, hx⟩ := h1
      rw [if_pos ⟨hb, irow, hi, hx⟩, if_pos ⟨hb, n, by omega, irow, hi, hx⟩]
    · rw [if_neg h1]
      by_cases h2 : b0 = b ∧ ∃ icol, icol < n ∧ ∃ irow, irow < nr ∧ x = irow + nr * icol
      · obtain ⟨hb, icol, hc, irow, hi, hx⟩ := h2
        rw [if_pos ⟨hb, icol, hc, irow, hi, hx⟩, if_pos ⟨hb, icol, by omega, irow, hi, hx⟩]
      · rw [if_neg h2, if_neg]
        rintro ⟨hb, icol, hc, irow, hi, hx⟩
        by_cases h3 : icol = n
        · exact h1 ⟨hb, irow, hi, h3 ▸ hx⟩
        · exact h2 ⟨hb, icol, by omega, irow, hi, hx⟩

/-- The reduced product of a column of `a` and a column of `b`, both inside the matrices. -/
theorem gemm_reduced_value (M N K r c : ℕ) (hr : r < M) (hc : c < N) :
    ∑ k in Finset.range K, gemm_fill K M k r * gemm_fill K N k c = 1 / 100 * K := by
  have : ∀ k ∈ Finset.range K, gemm_fill K M k r * gemm_fill K N k c = 1 / 100 := by
    intro k hk
    rw [gemm_fill_apply, gemm_fill_apply, if_pos ⟨Finset.mem_range.1 hk, hr⟩,
      if_pos ⟨Finset.mem_range.1 hk, hc⟩]
    norm_num
  rw [Finset.sum_congr rfl this]
  simp
  ring

/-- The buffer after the product and the reduction of a block that lies inside the matrices. -/
theorem gemm_reduce_apply (M N K : ℕ) (row0 col0 nrow ncol : ℤ) (b : ℕ) (t : ℕ → ℕ → ℚ)
    (hrow : row0.toNat + nrow.toNat ≤ M) (hcol : col0.toNat + ncol.toNat ≤ N) (x b0 : ℕ) :
    gemm_reduce M N K row0 col0 nrow ncol b t x b0
      = if b0 = b ∧ ∃ icol, icol < ncol.toNat ∧ ∃ irow, irow < nrow.toNat
            ∧ x = irow + nrow.toNat * icol then (1 / 100 * K : ℚ)
        else t x b0 := by
  unfold gemm_reduce
  rw [← gemm_reduce_loop (1 / 100 * K) nrow.toNat ncol.toNat b t x b0]
  refine congrFun (congrFun ?_ x) b0
  refine forLoop_congr _ _ _ _ fun icol hicol t => ?_
  refine forLoop_congr _ _ _ _ fun irow hirow t => ?_
  rw [gemm_reduced_value M N K _ _ (by omega) (by omega)]

theorem gemm_invariant_mono (v : ℚ) (P Q : ℕ → ℕ → Prop) (B B0 : ℕ → Prop)
    (st : gemm_buffers) (hQ : ∀ j i, Q j i → P j i) (hB : ∀ b, B b → B0 b)
    (h : gemm_invariant v P B st) : gemm_invariant v Q B0 st := by
  refine ⟨fun j i hq => ?_, h.2⟩
  rcases h.1 j i (hQ j i hq) with hv | ⟨b, hb, hp⟩
  · exact Or.inl hv
  · exact Or.inr ⟨b, hB b hb, hp⟩

/-- The "store" block, run when the request of buffer `b` is pending, keeps the invariant and
leaves no cell waiting in buffer `b`. -/
theorem gemm_store_invariant (v : ℚ) (P : ℕ → ℕ → Prop) (B : ℕ → Prop) (b : ℕ)
    (st : gemm_buffers) (h : gemm_invariant v P B st) :
    gemm_invariant v P (fun b0 => B b0 ∧ b0 ≠ b)
      (if st.req b then gemm_store b st else st) := by
  by_cases hreq : st.req b = true
  · rw [if_pos hreq]
    have hstored : ∀ j i, gemm_pending st b j i → (gemm_store b st).c j i = v := by
      intro j i hp
      obtain ⟨_, h1, h2, h3, h4⟩ := hp
      rw [gemm_store_c, if_pos ⟨h1, h2, h3, h4⟩]
      exact h.2 b hreq _ _ (by omega) (by omega)
    have hkeep : ∀ j i, st.c j i = v → (gemm_store b st).c j i = v := by
      intro j i hv
      rw [gemm_store_c]
      split
      · next hc => exact h.2 b hreq _ _ (by omega) (by omega)
      · exact hv
    have hother : ∀ b0, b0 ≠ b → (gemm_store b st).req b0 = st.req b0 := by
      intro b0 hb
      show (if b0 = b then false else st.req b0) = st.req b0
      rw [if_neg hb]
    refine ⟨fun j i hp => ?_, fun b0 hr => ?_⟩
    · rcases h.1 j i hp with hv | ⟨b0, hB, hpend⟩
      · exact Or.inl (hkeep j i hv)
      · by_cases hb : b0 = b
        · subst hb
          exact Or.inl (hstored j i hpend)
        · refine Or.inr ⟨b0, ⟨hB, hb⟩, ?_⟩
          obtain ⟨h0, h1, h2, h3, h4⟩ := hpend
          exact ⟨(hother b0 hb).trans h0, h1, h2, h3, h4⟩
    · have hb : b0 ≠ b := by
        intro hb
        subst hb
        have : (gemm_store b0 st).req b0 = false := by
          show (if b0 = b0 then false else st.req b0) = false
          rw [if_pos rfl]
        rw [this] at hr
        exact Bool.false_ne_true hr
      exact h.2 b0 ((hother b0 hb).symm.trans hr)
  · rw [if_neg hreq]
    refine ⟨fun j i hp => ?_, h.2⟩
    rcases h.1 j i hp with hv | ⟨b0, hB, hpend⟩
    · exact Or.inl hv
    · refine Or.inr ⟨b0, ⟨hB, ?_⟩, hpend⟩
      intro hb
      subst hb
      exact hreq hpend.1

end gemm_square

section gemm_square2

/-- One pass of the inner block loop for a block inside a square matrix keeps the invariant and
adds the cells of the block to the issued ones. -/
theorem gemm_block_invariant (N K ibc ibr : ℕ) (hc : ibc * 256 < N) (hr : ibr * 256 < N)
    (P : ℕ → ℕ → Prop) (st : gemm_buffers)
    (h : gemm_invariant (1 / 100 * K) P (fun b => b < 2) st) :
    gemm_invariant (1 / 100 * K)
      (fun j i => P j i ∨ (ibr * 256 ≤ j ∧ j < min N ((ibr + 1) * 256)
        ∧ ibc * 256 ≤ i ∧ i < min N ((ibc + 1) * 256)))
      (fun b => b < 2) (gemm_block N N K ibc ibr st) := by
  have h1 := gemm_store_invariant _ P _ (st.s % 2) st h
  obtain ⟨st1, hst1⟩ : ∃ st1, st1 = if st.req (st.s % 2) then gemm_store (st.s % 2) st else st :=
    ⟨_, rfl⟩
  rw [← hst1] at h1
  have e0 : ((ibr : ℤ) * 256).toNat = ibr * 256 := by omega
  have e1 : ((ibc : ℤ) * 256).toNat = ibc * 256 := by omega
  have e2 : (min (N : ℤ) (((ibr : ℤ) + 1) * 256) - (ibr : ℤ) * 256).toNat
      = min N ((ibr + 1) * 256) - ibr * 256 := by omega
  have e3 : (min (N : ℤ) (((ibc : ℤ) + 1) * 256) - (ibc : ℤ) * 256).toNat
      = min N ((ibc + 1) * 256) - ibc * 256 := by omega
  have hc_eq : (gemm_block N N K ibc ibr st).c = st1.c := by rw [hst1]; rfl
  have hreq : ∀ b0, (gemm_block N N K ibc ibr st).req b0
      = if b0 = st.s % 2 then true else st1.req b0 := by
    intro b0; rw [hst1]; rfl
  have hdims : ∀ b0 d, (gemm_block N N K ibc ibr st).dims b0 d
      = if b0 = st.s % 2 then
          (if d = 0 then (ibr : ℤ) * 256 else if d = 1 then (ibc : ℤ) * 256
            else if d = 2 then min (N : ℤ) (((ibr : ℤ) + 1) * 256) - (ibr : ℤ) * 256
            else min (N : ℤ) (((ibc : ℤ) + 1) * 256) - (ibc : ℤ) * 256)
        else st1.dims b0 d := by
    intro b0 d; rw [hst1]; rfl
  have htmp : (gemm_block N N K ibc ibr st).c_tmp
      = gemm_reduce N N K ((ibr : ℤ) * 256) ((ibc : ℤ) * 256)
          (min (N : ℤ) (((ibr : ℤ) + 1) * 256) - (ibr : ℤ) * 256)
          (min (N : ℤ) (((ibc : ℤ) + 1) * 256) - (ibc : ℤ) * 256) (st.s % 2) st1.c_tmp := by
    rw [hst1]; rfl
  have hred := gemm_reduce_apply N N K ((ibr : ℤ) * 256) ((ibc : ℤ) * 256)
    (min (N : ℤ) (((ibr : ℤ) + 1) * 256) - (ibr : ℤ) * 256)
    (min (N : ℤ) (((ibc : ℤ) + 1) * 256) - (ibc : ℤ) * 256) (st.s % 2) st1.c_tmp
    (by omega) (by omega)
  have hd0 : (gemm_block N N K ibc ibr st).dims (st.s % 2) 0 = (ibr : ℤ) * 256 := by
    rw [hdims, if_pos rfl]; rfl
  have hd1 : (gemm_block N N K ibc ibr st).dims (st.s % 2) 1 = (ibc : ℤ) * 256 := by
    rw [hdims, if_pos rfl]; rfl
  have hd2 : (gemm_block N N K ibc ibr st).dims (st.s % 2) 2
      = min (N : ℤ) (((ibr : ℤ) + 1) * 256) - (ibr : ℤ) * 256 := by
    rw [hdims, if_pos rfl]; rfl
  have hd3 : (gemm_block N N K ibc ibr st).dims (st.s % 2) 3
      = min (N : ℤ) (((ibc : ℤ) + 1) * 256) - (ibc : ℤ) * 256 := by
    rw [hdims, if_pos rfl]; rfl
  refine ⟨fun j i hp => ?_, fun b0 hr0 irow icol hi hcl => ?_⟩
  · rcases hp with hp | ⟨p1, p2, p3, p4⟩
    · rcases h1.1 j i hp with hv | ⟨b0, ⟨hB, hne⟩, hpend⟩
      · exact Or.inl (by rw [hc_eq]; exact hv)
      · refine Or.inr ⟨b0, hB, ?_⟩
        obtain ⟨q0, q1, q2, q3, q4⟩ := hpend
        unfold gemm_pending
        rw [hreq, if_neg hne, hdims, if_neg hne, hdims, if_neg hne, hdims, if_neg hne, hdims,
          if_neg hne]
        exact ⟨q0, q1, q2, q3, q4⟩
    · refine Or.inr ⟨st.s % 2, Nat.mod_lt _ (by decide), ?_⟩
      unfold gemm_pending
      rw [hreq, if_pos rfl, hd0, hd1, hd2, hd3, e0, e1, e2, e3]
      refine ⟨rfl, p1, ?_, p3, ?_⟩ <;> omega
  · rw [htmp, hred]
    by_cases hb : b0 = st.s % 2
    · subst hb
      rw [hd2] at hi
      rw [hd3] at hcl
      rw [hd2, if_pos ⟨rfl, icol, hcl, irow, hi, rfl⟩]
    · rw [hreq, if_neg hb] at hr0
      rw [hdims, if_neg hb] at hi hcl
      rw [hdims, if_neg hb, if_neg (fun hh => hb hh.1)]
      exact h1.2 b0 hr0 irow icol hi hcl

end gemm_square2

section gemm_square3

/-- The inner block loop over the first `k` row blocks of the column block `ibc`. -/
theorem gemm_rows_invariant (N K ibc : ℕ) (hc : ibc * 256 < N) (P : ℕ → ℕ → Prop)
    (st : gemm_buffers) (h : gemm_invariant (1 / 100 * K) P (fun b => b < 2) st) (k : ℕ)
    (hk : k ≤ N / 256 + min 1 (N % 256)) :
    gemm_invariant (1 / 100 * K)
      (fun j i => P j i ∨ (j < min N (k * 256) ∧ ibc * 256 ≤ i ∧ i < min N ((ibc + 1) * 256)))
      (fun b => b < 2) (forLoop k (fun ibr st => gemm_block N N K ibc ibr st) st) := by
  induction k with
  | zero =>
    refine gemm_invariant_mono _ P _ _ _ _ ?_ (fun _ hb => hb) h
    rintro j i (hp | ⟨h1, _⟩)
    · exact hp
    · omega
  | succ k ih =>
    rw [forLoop_succ]
    have h2 := gemm_block_invariant N K ibc k hc (by omega) _ _ (ih (by omega))
    refine gemm_invariant_mono _ _ _ _ _ _ ?_ (fun _ hb => hb) h2
    rintro j i (hp | ⟨h1, h3, h4⟩)
    · exact Or.inl (Or.inl hp)
    · by_cases hj : j < k * 256
      · exact Or.inl (Or.inr ⟨by omega, h3, h4⟩)
      · exact Or.inr ⟨by omega, by omega, h3, h4⟩

/-- The outer block loop over the first `k` column blocks. -/
theorem gemm_columns_invariant (N K : ℕ) (k : ℕ) (hk : k ≤ N / 256 + min 1 (N % 256)) :
    gemm_invariant (1 / 100 * K) (fun j i => j < N ∧ i < min N (k * 256)) (fun b => b < 2)
      (forLoop k (fun ibc st =>
          forLoop (N / 256 + min 1 (N % 256)) (fun ibr st => gemm_block N N K ibc ibr st) st)
        ⟨fun _ _ => 0, fun _ _ => 0, fun _ => false, fun _ _ => 0, 0⟩) := by
  induction k with
  | zero =>
    refine ⟨fun j i hp => ?_, fun b hb => ?_⟩
    · have := hp.2
      omega
    · exact absurd hb Bool.false_ne_true
  | succ k ih =>
    rw [forLoop_succ]
    have h2 := gemm_rows_invariant N K k (by omega) _ _ (ih (by omega))
      (N / 256 + min 1 (N % 256)) (le_refl _)
    refine gemm_invariant_mono _ _ _ _ _ _ ?_ (fun _ hb => hb) h2
    rintro j i ⟨h1, h3⟩
    by_cases hi : i < k * 256
    · exact Or.inl ⟨h1, by omega⟩
    · exact Or.inr ⟨by omega, by omega, h3⟩

/-- For a square result matrix (`M = N`) the blocks tile the matrix and the double-buffered
store writes every block: after the final flush every entry of `c` is `0.01 * K`, and the final
check passes. -/
theorem test_gemm_2_square (N K : ℕ) :
    (∀ j i, j < N → i < N → (test_gemm_2 N N K).c j i = 1 / 100 * K)
      ∧ ¬ result_is_wrong N N K (test_gemm_2 N N K).c := by
  have hall : ∀ j i, j < N → i < N → (test_gemm_2 N N K).c j i = 1 / 100 * K := by
    intro j i hj hi
    have h0 := gemm_columns_invariant N K (N / 256 + min 1 (N % 256)) (le_refl _)
    have h1 := gemm_store_invariant _ _ _ (0 % 2) _ h0
    have h2 := gemm_store_invariant _ _ _ (1 % 2) _ h1
    rcases h2.1 j i ⟨hj, by omega⟩ with hv | ⟨b, ⟨⟨hb, hb0⟩, hb1⟩, _⟩
    · exact hv
    · exfalso
      have e0 : 0 % 2 = 0 := rfl
      have e1 : 1 % 2 = 1 := rfl
      rw [e0] at hb0
      rw [e1] at hb1
      omega
  refine ⟨hall, ?_⟩
  rintro ⟨i, hi, j, hj, hw⟩
  rw [hall j i hj hi, sub_self, abs_zero] at hw
  norm_num at hw

end gemm_square3

/-! ## The recursion where line 135 divides by a non-zero `d`, and where it does not -/

section checked_recursion

/-- While the denominators are non-zero the checked recursion is the recursion. -/
theorem gamma_loop_checked_some (m : ℕ) (S : ℕ → ℕ → ℚ) (g0 : ℕ → ℕ → ℚ) (n : ℕ)
    (hd : ∀ k, k < n → denominator S k ≠ 0) :
    forLoop n (gamma_step_checked m S) (some g0) = some (forLoop n (gamma_step m S) g0) := by
  induction n with
  | zero => rfl
  | succ n ih =>
    rw [forLoop_succ, ih (fun k hk => hd k (by omega)), forLoop_succ]
    show (if denominator S n = 0 then none else some _) = _
    rw [if_neg (hd n (by omega))]

/-- Once a step has divided by zero the checked recursion has no value. -/
theorem gamma_loop_checked_none (m : ℕ) (S : ℕ → ℕ → ℚ) (g0 : ℕ → ℕ → ℚ) (n k : ℕ)
    (hk : k < n) (h0 : denominator S k = 0) :
    forLoop n (gamma_step_checked m S) (some g0) = none := by
  induction n with
  | zero => omega
  | succ n ih =>
    rw [forLoop_succ]
    by_cases h : k < n
    · rw [ih h]
      rfl
    · have hkn : k = n := by omega
      subst hkn
      cases forLoop k (gamma_step_checked m S) (some g0) with
      | none => rfl
      | some g =>
        show (if denominator S k = 0 then none else some _) = none
        rw [if_pos h0]

theorem gamma_rec_checked_some (m : ℕ) (S : ℕ → ℕ → ℚ)
    (hd : ∀ k, k + 1 < m → denominator S k ≠ 0) :
    gamma_rec_checked m S = some (gamma_rec m S) :=
  gamma_loop_checked_some m S (gamma_init m) (m - 1) (fun k hk => hd k (by omega))

theorem quasi_newton_update_checked_some {T : Type} [AddCommGroup T] [Module ℚ T]
    (fp : FunctionProp T) (comm : Communicator T) (st : Broyden2 T)
    (hd : ∀ k, k + 1 < history_size st →
      denominator (gram fp comm st (history_size st)) k ≠ 0) :
    quasi_newton_update_checked fp comm st = some (quasi_newton_update fp comm st) := by
  unfold quasi_newton_update_checked
  rw [gamma_rec_checked_some _ _ hd]
  rfl

/-- The mixer `state_converged` enters the quasi-Newton block with a window of two. -/
theorem state_converged_cond :
    quasi_newton_cond state_converged = true ∧ history_size state_converged = 2 := by
  refine ⟨?_, rfl⟩
  norm_num [quasi_newton_cond, state_converged, history_size, idx_hist]

/-- At the mixer `state_converged` the matrix `S` is zero and so is the denominator. -/
theorem state_converged_denominator :
    denominator (gram scalar_prop single_process state_converged 2) 0 = 0 := by
  unfold denominator
  rw [gram_scalar _ _ _ _ (by decide) (by decide), gram_scalar _ _ _ _ (by decide) (by decide),
    gram_scalar _ _ _ _ (by decide) (by decide), gram_scalar _ _ _ _ (by decide) (by decide)]
  norm_num [window_residual, state_converged, idx_hist]

/-- At the mixer `state_converged` the recursion divides by zero. -/
theorem state_converged_gamma :
    gamma_rec_checked 2 (gram scalar_prop single_process state_converged 2) = none :=
  gamma_loop_checked_none 2 _ (gamma_init 2) 1 0 (by decide) state_converged_denominator

/-- The denominators of the recursion at the two-process mixer `state_split` are non-zero
(the only one is `14/3`). -/
theorem state_split_denominators :
    ∀ k, k + 1 < history_size state_split →
      denominator (gram split_prop two_processes state_split (history_size state_split)) k ≠ 0 := by
  intro k hk
  have h2 : history_size state_split = 2 := rfl
  rw [h2] at hk ⊢
  have hk0 : k = 0 := by omega
  subst hk0
  unfold denominator
  rw [gram_apply _ _ _ _ _ _ (by decide) (by decide),
    gram_apply _ _ _ _ _ _ (by decide) (by decide),
    gram_apply _ _ _ _ _ _ (by decide) (by decide),
    gram_apply _ _ _ _ _ _ (by decide) (by decide)]
  norm_num [split_prop, two_processes, window_residual, state_split, idx_hist]

/-- The denominators of the recursion at the scalar mixer `state_gating 4` are non-zero
(they are `4` and `9`). -/
theorem state_gating_denominators :
    ∀ k, k + 1 < history_size (state_gating 4) →
      denominator (gram scalar_prop single_process (state_gating 4)
        (history_size (state_gating 4))) k ≠ 0 := by
  intro k hk
  have h3 : history_size (state_gating 4) = 3 := rfl
  rw [h3] at hk ⊢
  have hk01 : k = 0 ∨ k = 1 := by omega
  rcases hk01 with rfl | rfl
  · unfold denominator
    rw [gram_scalar _ _ _ _ (by decide) (by decide), gram_scalar _ _ _ _ (by decide) (by decide),
      gram_scalar _ _ _ _ (by decide) (by decide), gram_scalar _ _ _ _ (by decide) (by decide)]
    norm_num [window_residual, state_gating, idx_hist]
  · unfold denominator
    rw [gram_scalar _ _ _ _ (by decide) (by decide), gram_scalar _ _ _ _ (by decide) (by decide),
      gram_scalar _ _ _ _ (by decide) (by decide), gram_scalar _ _ _ _ (by decide) (by decide)]
    norm_num [window_residual, state_gating, idx_hist]

end checked_recursion

section claims_nonzero_denominators

variable {T : Type} [AddCommGroup T] [Module ℚ T]

/-- C11, as stated for every run of the quasi-Newton block, fails: the mixer `state_converged`
enters the block with two equal residuals in the window, the denominator of the only recursion
step is `0`, every quotient of line 135 is `0/0`, and what the block leaves in the staging buffer
is not a number, so it equals no sum. -/
theorem quasi_newton_staging_degenerate :
    quasi_newton_cond state_converged = true
      ∧ denominator (gram scalar_prop single_process state_converged
          (history_size state_converged)) 0 = 0
      ∧ quasi_newton_update_checked scalar_prop single_process state_converged = none
      ∧ ∀ x : ℚ, quasi_newton_update_checked scalar_prop single_process state_converged
          ≠ some x := by
  have h : quasi_newton_update_checked scalar_prop single_process state_converged = none := by
    unfold quasi_newton_update_checked
    rw [state_converged_cond.2, state_converged_gamma]
    rfl
  refine ⟨state_converged_cond.1, state_converged_denominator, h, fun x hx => ?_⟩
  rw [h] at hx
  exact Option.noConfusion hx

/-- C11 amended: when the quasi-Newton block runs with `m = history_size` and every denominator
`d` of the recursion is non-zero, the block stages a number, and the staging buffer afterwards
equals the sum over `j = 0..m-1` of
`v2[j] * residual_history[i(j)] + v2[j+m] * output_history[i(j)]` with
`i(j) = idx_hist(step - m + j)`, where `v2[j] = -gamma[j, m-1]` for `j < 2m`, increased by 1 at
`j = 2m-1`; `gamma` is the result of the recursion, which starts from `gamma[i,i] = 0.25`
(`i < m`), zero elsewhere, and whose step `k` adds `v2[a] * v1[b] / d` to `gamma[a,b]` with
`v1[b] = S[k+1,b] - S[k,b]`, `v2[a] = -(gamma[a,k+1] - gamma[a,k])` plus `1` at `a = m+k+1`
minus `1` at `a = m+k`, and `d = S[k,k] + S[k+1,k+1] - S[k,k+1] - S[k+1,k]`; and the result
does not depend on what `input_` held before the call. -/
theorem quasi_newton_staging (fp : FunctionProp T) (comm : Communicator T) (st : Broyden2 T)
    (hc : quasi_newton_cond st = true)
    (hd : ∀ k, k + 1 < history_size st →
      denominator (gram fp comm st (history_size st)) k ≠ 0) :
    quasi_newton_update_checked fp comm st = some (mix_impl fp comm st).input_
      ∧ (mix_impl fp comm st).input_
        = ∑ j in Finset.range (history_size st),
            ((-(gamma_rec (history_size st) (gram fp comm st (history_size st)) j
                  (history_size st - 1))
                + if j = 2 * history_size st - 1 then 1 else 0)
              • st.residual_history_.getD
                  (idx_hist st.max_history_ (st.step_ - history_size st + j)) 0
            + (-(gamma_rec (history_size st) (gram fp comm st (history_size st))
                    (j + history_size st) (history_size st - 1))
                + if j + history_size st = 2 * history_size st - 1 then 1 else 0)
              • st.output_history_.getD
                  (idx_hist st.max_history_ (st.step_ - history_size st + j)) 0)
      ∧ (∀ S : ℕ → ℕ → ℚ, gamma_rec (history_size st) S
            = forLoop (history_size st - 1) (gamma_step (history_size st) S)
                (gamma_init (history_size st)))
      ∧ (∀ a b : ℕ, gamma_init (history_size st) a b
            = if a = b ∧ a < history_size st then 1 / 4 else 0)
      ∧ (∀ (S : ℕ → ℕ → ℚ) (g : ℕ → ℕ → ℚ) (k a b : ℕ), k + 1 < history_size st →
            a < 2 * history_size st → b < history_size st →
            gamma_step (history_size st) S k g a b
              = g a b
                + (-(g a (k + 1) - g a k)
                    + (if a = history_size st + k + 1 then 1 else 0)
                    - (if a = history_size st + k then 1 else 0))
                  * (S (k + 1) b - S k b)
                  / (S k k + S (k + 1) (k + 1) - S k (k + 1) - S (k + 1) k))
      ∧ (∀ x : T, (mix_impl fp comm { st with input_ := x }).input_
            = (mix_impl fp comm st).input_) := by
  have hupd : ∀ st' : Broyden2 T, quasi_newton_update fp comm st'
      = ∑ j in Finset.range (history_size st'),
            ((-(gamma_rec (history_size st') (gram fp comm st' (history_size st')) j
                  (history_size st' - 1))
                + if j = 2 * history_size st' - 1 then 1 else 0)
              • st'.residual_history_.getD
                  (idx_hist st'.max_history_ (st'.step_ - history_size st' + j)) 0
            + (-(gamma_rec (history_size st') (gram fp comm st' (history_size st'))
                    (j + history_size st') (history_size st' - 1))
                + if j + history_size st' = 2 * history_size st' - 1 then 1 else 0)
              • st'.output_history_.getD
                  (idx_hist st'.max_history_ (st'.step_ - history_size st' + j)) 0) := by
    intro st'
    unfold quasi_newton_update
    simp only []
    rw [accumulate_eq]
    apply Finset.sum_congr rfl
    intro j hj
    have hjm : j < history_size st' := Finset.mem_range.1 hj
    rw [v2_final_apply _ _ j (by omega), v2_final_apply _ _ (j + history_size st') (by omega)]
  refine ⟨?_, ?_, fun S => rfl, gamma_init_apply _, ?_, fun x => ?_⟩
  · rw [quasi_newton_update_checked_some fp comm st hd, mix_impl_input, if_pos hc]
  · rw [mix_impl_input, if_pos hc, hupd]
  · intro S g k a b hk ha hb
    exact gamma_step_apply _ S k g a b ha hb hk
  · have hc' : quasi_newton_cond ({ st with input_ := x } : Broyden2 T) = true := hc
    rw [mix_impl_input, mix_impl_input, if_pos hc, if_pos hc', hupd, hupd]
    rfl

/-- C11 amended, at the two-process mixer `state_split`, which takes the quasi-Newton block with
the denominator `14/3`: the block stages a number, the same when `input_` held `(0, 0)` before
the call. -/
theorem quasi_newton_staging_witness :
    quasi_newton_cond state_split = true
      ∧ quasi_newton_update_checked split_prop two_processes state_split
          = some (mix_impl split_prop two_processes state_split).input_
      ∧ (mix_impl split_prop two_processes { state_split with input_ := (0, 0) }).input_
          = (mix_impl split_prop two_processes state_split).input_ :=
  ⟨by norm_num [quasi_newton_cond, state_split, history_size, idx_hist],
   (quasi_newton_staging split_prop two_processes state_split
      (by norm_num [quasi_newton_cond, state_split, history_size, idx_hist])
      state_split_denominators).1,
   (quasi_newton_staging split_prop two_processes state_split
      (by norm_num [quasi_newton_cond, state_split, history_size, idx_hist])
      state_split_denominators).2.2.2.2.2 (0, 0)⟩

/-- C24, as stated for the whole recursion of every window, fails: at the mixer
`state_converged`, which enters the quasi-Newton block with two equal residuals, the only step
of the recursion divides by `d = 0`; no entry of the `4 x 2` block of `gamma` is a number
afterwards, and there is no `gamma` whose upper block is `0.25 * (delta - lower block)`. -/
theorem gamma_upper_block_degenerate :
    quasi_newton_cond state_converged = true
      ∧ denominator (gram scalar_prop single_process state_converged
          (history_size state_converged)) 0 = 0
      ∧ gamma_rec_checked (history_size state_converged)
          (gram scalar_prop single_process state_converged (history_size state_converged))
          = none
      ∧ ¬ ∃ g : ℕ → ℕ → ℚ,
          gamma_rec_checked (history_size state_converged)
              (gram scalar_prop single_process state_converged (history_size state_converged))
            = some g
          ∧ ∀ j c, j < 2 → c < 2 → g j c = 1 / 4 * ((if j = c then 1 else 0) - g (2 + j) c) := by
  refine ⟨state_converged_cond.1, state_converged_denominator, ?_, ?_⟩
  · rw [state_converged_cond.2]
    exact state_converged_gamma
  · rintro ⟨g, hg, _⟩
    rw [state_converged_cond.2, state_converged_gamma] at hg
    exact Option.noConfusion hg

/-- C24 amended: provided every denominator `d` of the recursion is non-zero, the recursion
produces numbers, and throughout it (after `n <= m - 1` steps) the upper block of `gamma` is
determined by the lower block, `gamma[j,c] = 0.25 * (delta(j,c) - gamma[m+j,c])` for
`j, c < m`; in the final combination `v2[j] = -0.25 * v2[m+j]` for `j < m`; and the value
staged by the quasi-Newton block is the sum over the window of
`v2[m+j] * (output_history[i(j)] - 0.25 * residual_history[i(j)])`. -/
theorem gamma_upper_block_from_lower (fp : FunctionProp T) (comm : Communicator T)
    (st : Broyden2 T) (m : ℕ) (S : ℕ → ℕ → ℚ) (n j c : ℕ)
    (hn : n + 1 ≤ m) (hj : j < m) (hc : c < m)
    (hd : ∀ k, k + 1 < m → denominator S k ≠ 0)
    (hdst : ∀ k, k + 1 < history_size st →
      denominator (gram fp comm st (history_size st)) k ≠ 0) :
    forLoop n (gamma_step_checked m S) (some (gamma_init m))
        = some (forLoop n (gamma_step m S) (gamma_init m))
      ∧ forLoop n (gamma_step m S) (gamma_init m) j c
        = 1 / 4 * ((if j = c then 1 else 0)
            - forLoop n (gamma_step m S) (gamma_init m) (m + j) c)
      ∧ gamma_rec_checked m S = some (gamma_rec m S)
      ∧ v2_final m (gamma_rec m S) j = -(1 / 4) * v2_final m (gamma_rec m S) (m + j)
      ∧ quasi_newton_update_checked fp comm st = some (quasi_newton_update fp comm st)
      ∧ quasi_newton_update fp comm st
          = ∑ i in Finset.range (history_size st),
              v2_final (history_size st)
                  (gamma_rec (history_size st) (gram fp comm st (history_size st)))
                  (history_size st + i)
                • (st.output_history_.getD
                      (idx_hist st.max_history_ (st.step_ - history_size st + i)) 0
                    - (1 / 4 : ℚ) • st.residual_history_.getD
                      (idx_hist st.max_history_ (st.step_ - history_size st + i)) 0) := by
  refine ⟨gamma_loop_checked_some m S _ n (fun k hk => hd k (by omega)),
    gamma_loop_upper_block m S n hn j c hj hc, gamma_rec_checked_some m S hd,
    v2_final_upper m S j hj, quasi_newton_update_checked_some fp comm st hdst, ?_⟩
  unfold quasi_newton_update
  rw [accumulate_eq]
  refine Finset.sum_congr rfl fun i hi => ?_
  rw [v2_final_upper _ _ i (Finset.mem_range.1 hi), add_comm i (history_size st)]
  module

/-- C24 amended, at `m = 3` and the identity matrix `S` (every `d = 2`), after one step of the
recursion, row `1` and column `2`, and at the scalar mixer `state_gating 4` (denominators `4`
and `9`). -/
theorem gamma_upper_block_from_lower_witness :
    forLoop 1 (gamma_step_checked 3 gram_identity) (some (gamma_init 3))
        = some (forLoop 1 (gamma_step 3 gram_identity) (gamma_init 3))
      ∧ forLoop 1 (gamma_step 3 gram_identity) (gamma_init 3) 1 2
        = 1 / 4 * ((if 1 = 2 then 1 else 0)
            - forLoop 1 (gamma_step 3 gram_identity) (gamma_init 3) (3 + 1) 2)
      ∧ gamma_rec_checked 3 gram_identity = some (gamma_rec 3 gram_identity)
      ∧ v2_final 3 (gamma_rec 3 gram_identity) 1
          = -(1 / 4) * v2_final 3 (gamma_rec 3 gram_identity) (3 + 1)
      ∧ quasi_newton_update_checked scalar_prop single_process (state_gating 4)
          = some (quasi_newton_update scalar_prop single_process (state_gating 4))
      ∧ quasi_newton_update scalar_prop single_process (state_gating 4)
          = ∑ i in Finset.range (history_size (state_gating 4)),
              v2_final (history_size (state_gating 4))
                  (gamma_rec (history_size (state_gating 4))
                    (gram scalar_prop single_process (state_gating 4)
                      (history_size (state_gating 4))))
                  (history_size (state_gating 4) + i)
                • ((state_gating 4).output_history_.getD
                      (idx_hist (state_gating 4).max_history_
                        ((state_gating 4).step_ - history_size (state_gating 4) + i)) 0
                    - (1 / 4 : ℚ) • (state_gating 4).residual_history_.getD
                      (idx_hist (state_gating 4).max_history_
                        ((state_gating 4).step_ - history_size (state_gating 4) + i)) 0) :=
  gamma_upper_block_from_lower scalar_prop single_process (state_gating 4) 3 gram_identity
    1 1 2 (by decide) (by decide) (by decide)
    (fun k _ => by simp [denominator, gram_identity]) state_gating_denominators

end claims_nonzero_denominators

end sirius
